import Mathlib

/-!
# rsmt2d: the data square (`datasquare.go`)

A shallow embedding of `dataSquare` and its methods, followed by the properties
of the specification proved about it.

Modelling conventions.

* A chunk (`[]byte`) is the list of its bytes.  The grid never writes to the
  bytes of a chunk, it only stores and replaces whole chunks, so chunks are
  values.
* The rows of the grid are Go slices: windows into backing arrays that may be
  shared.  `newDataSquare` makes every row a window of the caller's array and
  `extendSquare` builds rows with `copy` and `append` on one buffer allocated
  before its loop, so row storage is modelled explicitly: `Mem` is the list of
  backing arrays reachable from the grid and a `Slice` is a window
  (buffer, offset, length, capacity) into one of them.
* Slices that are only read and never become part of the grid
  (`fillerExtendedRow`, `fillerRow`, the fresh result of `getColumnSlice`) are
  modelled by their contents.
* The arguments `newRow` and `newColumn` of the two write methods are slices of
  the caller, which may be views of the grid's own rows (`getRow` and
  `getRowSlice` return such views), and the write loops read `newRow[i]` when
  they store it, after the earlier stores.  They are therefore slices into
  `Mem` as well, and `Mem` holds the caller's backing arrays besides those of
  the grid; `State.withSlice` is the caller building a new slice.
* `uint`/`int` values are natural numbers.  The only additions in the source
  are `ds.width + extendedWidth`, `y + i`, `x + i` and `y + length`; a wrapped
  sum is smaller than its first operand, so it indexes or slices out of range
  exactly when the unbounded sum does, and allocation limits are outside the
  model.
* A method with receiver `*dataSquare` takes the state and returns the outcome
  together with the state it leaves behind; a run-time panic (index or slice
  bound out of range) is the outcome `Res.panic`.
-/

namespace Rsmt2d

/-- A chunk: the bytes of one `[]byte`. The zero value `nil` is the empty list. -/
abbrev Chunk := List Nat

/-- A digest as returned by the Merkle tree (`[]byte`). -/
abbrev Digest := List Nat

/-- The backing arrays of the row slices and of the slices of the caller, addressed by
position. -/
abbrev Mem := List (List Chunk)

/-- A Go slice header over a backing array of chunks: the array, the offset of
the first element, the length and the capacity. -/
structure Slice where
  buf : Nat
  off : Nat
  len : Nat
  cap : Nat
deriving DecidableEq, Repr

/-- The `errors.New` values of `datasquare.go`:
`notSquare` is "number of chunks must be a power of 2",
`unequalChunks` is "all chunks must be of equal size",
`fillerSize` is "filler chunk size does not match data square chunk size",
`invalidChunkSize` is "invalid chunk size". -/
inductive Err where
  | notSquare
  | unequalChunks
  | fillerSize
  | invalidChunkSize
deriving DecidableEq, Repr

/-- The outcome of a call: a value, an error value, or a run-time panic. -/
inductive Res (α : Type) where
  | ok (a : α)
  | err (e : Err)
  | panic
deriving DecidableEq, Repr

/-- The contents of backing array `b` (empty when there is no such array). -/
def Mem.buf (m : Mem) (b : Nat) : List Chunk := (m[b]?).getD []

/-- Replace the contents of backing array `b`. -/
def Mem.put (m : Mem) (b : Nat) (content : List Chunk) : Mem := m.set b content

/-- The list `b` with the elements from position `pos` on overwritten by `vals`. -/
def splice (b : List Chunk) (pos : Nat) (vals : List Chunk) : List Chunk :=
  b.take pos ++ vals ++ b.drop (pos + vals.length)

/-- The elements `s[0], ..., s[len(s)-1]` of a slice. -/
def Mem.view (m : Mem) (s : Slice) : List Chunk := ((m.buf s.buf).drop s.off).take s.len

/-- The index expression `s[i]`: `none` is the index-out-of-range panic. -/
def Mem.get (m : Mem) (s : Slice) (i : Nat) : Option Chunk :=
  if i < s.len then (m.buf s.buf)[s.off + i]? else none

/-- The assignment `s[i] = v`: `none` is the index-out-of-range panic. -/
def Mem.assign (m : Mem) (s : Slice) (i : Nat) (v : Chunk) : Option Mem :=
  if i < s.len then some (m.put s.buf ((m.buf s.buf).set (s.off + i) v)) else none

/-- The allocation `make([][]byte, n)`: a new backing array of `n` nil chunks and the
slice over it, of length and capacity `n`. -/
def Mem.make (m : Mem) (n : Nat) : Mem × Slice :=
  (m ++ [List.replicate n []], ⟨m.length, 0, n, n⟩)

/-- The built-in `copy(dst, vals...)` from a list of values: the first
`min(len(dst), len(vals))` elements of `dst` are overwritten. -/
def Mem.copyVals (m : Mem) (dst : Slice) (vals : List Chunk) : Mem :=
  m.put dst.buf (splice (m.buf dst.buf) dst.off (vals.take dst.len))

/-- The built-in `copy(dst, src)` between two slices. -/
def Mem.copy (m : Mem) (dst src : Slice) : Mem := m.copyVals dst (m.view src)

/-- The built-in `append(s, xs...)`: when the capacity of `s` suffices the elements are
written behind `s` in its own backing array and the result shares it; otherwise
a new backing array is allocated (its capacity is taken to be its length; the
Go runtime may reserve more). -/
def Mem.append (m : Mem) (s : Slice) (xs : List Chunk) : Mem × Slice :=
  if s.len + xs.length ≤ s.cap then
    (m.put s.buf (splice (m.buf s.buf) (s.off + s.len) xs), { s with len := s.len + xs.length })
  else
    (m ++ [m.view s ++ xs], ⟨m.length, 0, s.len + xs.length, s.len + xs.length⟩)

/-- The slice expression `s[lo:hi]`: `none` is the slice-bounds-out-of-range panic
(`0 <= lo <= hi <= cap(s)` is required). -/
def Slice.reslice (s : Slice) (lo hi : Nat) : Option Slice :=
  if lo ≤ hi ∧ hi ≤ s.cap then some ⟨s.buf, s.off + lo, hi - lo, s.cap - lo⟩ else none

/-- The struct `dataSquare`. `square` holds the row slices; a `nil` root cache is
`none`. -/
structure dataSquare where
  square : List Slice
  width : Nat
  chunkSize : Nat
  rowRoots : Option (List Digest)
  columnRoots : Option (List Digest)
deriving DecidableEq, Repr

/-- A grid together with the backing arrays its rows point into. -/
structure State where
  mem : Mem
  ds : dataSquare
deriving DecidableEq, Repr

/-- The search behind `ceilSqrt`: the first `w`, counting up, with `n <= w * w`. -/
def ceilSqrtFrom (n : Nat) : Nat → Nat → Nat
  | 0, w => w
  | fuel + 1, w => if n ≤ w * w then w else ceilSqrtFrom n fuel (w + 1)

/-- The value of `int(math.Ceil(math.Sqrt(float64(n))))`: the least `w` with `n <= w * w`.
(For a perfect square below `2^53` the floating-point root is exact; for any other
`n` below `2^53` the square of whatever integer the expression yields differs from
`n`, as it does for the least such `w`.) -/
def ceilSqrt (n : Nat) : Nat := ceilSqrtFrom n n 0

/-- The inner loop of `newDataSquare` (lines 30-34): `j` runs over the next `n` indices of
row `s`; a chunk whose length is not `chunkSize` is the error of line 32. -/
def checkChunks (mem : Mem) (s : Slice) (chunkSize : Nat) : Nat → Nat → Res Unit
  | 0, _ => .ok ()
  | n + 1, j =>
    match mem.get s j with
    | none => .panic
    | some c => if c.length ≠ chunkSize then .err .unequalChunks else checkChunks mem s chunkSize n (j + 1)

/-- The outer loop of `newDataSquare` (lines 27-35): `i` runs over the next `n` rows;
`acc` holds `square[0..i)`. -/
def fillSquare (mem : Mem) (data : Slice) (width chunkSize : Nat) :
    Nat → Nat → List Slice → Res (List Slice)
  | 0, _, acc => .ok acc
  | n + 1, i, acc =>
    match data.reslice (i * width) (i * width + width) with
    | none => .panic
    | some s =>
      match checkChunks mem s chunkSize width 0 with
      | .ok _ => fillSquare mem data width chunkSize n (i + 1) (acc ++ [s])
      | .err e => .err e
      | .panic => .panic

/-- The function `newDataSquare`. The caller's slice `data` is backing array 0, holding exactly
the passed chunks. With no chunk at all the shape test passes (`0^2 = 0`) and
`data[0]` on line 26 panics. -/
def newDataSquare (data : List Chunk) : Res State :=
  let width := ceilSqrt data.length
  if width ^ 2 ≠ data.length then .err .notSquare
  else
    match data with
    | [] => .panic
    | d0 :: _ =>
      let chunkSize := d0.length
      match fillSquare [data] ⟨0, 0, data.length, data.length⟩ width chunkSize width 0 [] with
      | .ok square =>
        .ok { mem := [data],
              ds := { square := square, width := width, chunkSize := chunkSize,
                      rowRoots := none, columnRoots := none } }
      | .err e => .err e
      | .panic => .panic

/-- The method `resetRoots`. -/
def resetRoots (ds : dataSquare) : dataSquare :=
  { ds with rowRoots := none, columnRoots := none }

/-- The first loop of `extendSquare` (lines 63-66): `row` is the one buffer allocated on
line 62; every iteration copies grid row `i` into it and appends the filler
chunks to it. `none` is the panic of `ds.square[i]`. -/
def extendRows (square : List Slice) (row : Slice) (fillerExtendedRow : List Chunk) :
    Nat → Nat → Mem → List Slice → Option (Mem × List Slice)
  | 0, _, mem, acc => some (mem, acc)
  | n + 1, i, mem, acc =>
    match square[i]? with
    | none => none
    | some src =>
      let mem1 := mem.copy row src
      let r := mem1.append row fillerExtendedRow
      extendRows square row fillerExtendedRow n (i + 1) r.1 (acc ++ [r.2])

/-- The second loop of `extendSquare` (lines 68-71): `n` new rows, each a fresh array
of `newWidth` chunks filled from `fillerRow`. -/
def fillerRows (fillerRow : List Chunk) (newWidth : Nat) : Nat → Mem → List Slice → Mem × List Slice
  | 0, mem, acc => (mem, acc)
  | n + 1, mem, acc =>
    let r := mem.make newWidth
    fillerRows fillerRow newWidth n (r.1.copyVals r.2 fillerRow) (acc ++ [r.2])

/-- The method `extendSquare`. The grid is assigned only on lines 73-76, so a panic inside
the first loop leaves it as it was. -/
def extendSquare (st : State) (extendedWidth : Nat) (fillerChunk : Chunk) : Res Unit × State :=
  if fillerChunk.length ≠ st.ds.chunkSize then (.err .fillerSize, st)
  else
    let newWidth := st.ds.width + extendedWidth
    let fillerExtendedRow := List.replicate extendedWidth fillerChunk
    let fillerRow := List.replicate newWidth fillerChunk
    let r := st.mem.make st.ds.width
    match extendRows st.ds.square r.2 fillerExtendedRow st.ds.width 0 r.1 [] with
    | none => (.panic, st)
    | some (mem2, rows) =>
      let q := fillerRows fillerRow newWidth extendedWidth mem2 rows
      (.ok (), { mem := q.1,
                 ds := resetRoots { st.ds with square := q.2, width := newWidth } })

/-- The method `getRowSlice`: the slice `ds.square[x][y:y+length]`, which shares the row. -/
def getRowSlice (st : State) (x y length : Nat) : Res Slice :=
  match st.ds.square[x]? with
  | none => .panic
  | some s =>
    match s.reslice y (y + length) with
    | none => .panic
    | some t => .ok t

/-- The method `getRow`. -/
def getRow (st : State) (x : Nat) : Res Slice := getRowSlice st x 0 st.ds.width

/-- The write loop of `setRowSlice` (lines 96-98): `n` further iterations from index `i`.
Each iteration reads `newRow[i]` from the memory as it is then, after the
earlier stores, and stores it in `ds.square[x][y+i]`. The memory at a panic
keeps the chunks written before it. -/
def rowWrites (square : List Slice) (x y : Nat) (newRow : Slice) :
    Nat → Nat → Mem → Res Unit × Mem
  | 0, _, mem => (.ok (), mem)
  | n + 1, i, mem =>
    match square[x]? with
    | none => (.panic, mem)
    | some row =>
      match mem.get newRow i with
      | none => (.panic, mem)
      | some c =>
        match mem.assign row (y + i) c with
        | none => (.panic, mem)
        | some mem1 => rowWrites square x y newRow n (i + 1) mem1

/-- The method `setRowSlice`. The argument is a slice of the caller; the size loop (lines
90-94) runs over its elements `newRow[0], ..., newRow[len(newRow)-1]` before
anything is written. -/
def setRowSlice (st : State) (x y : Nat) (newRow : Slice) : Res Unit × State :=
  if (st.mem.view newRow).any (fun c => c.length ≠ st.ds.chunkSize) then
    (.err .invalidChunkSize, st)
  else
    match rowWrites st.ds.square x y newRow newRow.len 0 st.mem with
    | (.ok _, mem1) => (.ok (), { mem := mem1, ds := resetRoots st.ds })
    | (.err e, mem1) => (.err e, { st with mem := mem1 })
    | (.panic, mem1) => (.panic, { st with mem := mem1 })

/-- The loop of `getColumnSlice` (lines 107-109); `acc` holds `columnSlice[0..i)`. -/
def columnReads (mem : Mem) (square : List Slice) (x y : Nat) :
    Nat → Nat → List Chunk → Res (List Chunk)
  | 0, _, acc => .ok acc
  | n + 1, i, acc =>
    match square[x + i]? with
    | none => .panic
    | some row =>
      match mem.get row y with
      | none => .panic
      | some c => columnReads mem square x y n (i + 1) (acc ++ [c])

/-- The method `getColumnSlice`: a fresh slice, given by its contents. -/
def getColumnSlice (st : State) (x y length : Nat) : Res (List Chunk) :=
  columnReads st.mem st.ds.square x y length 0 []

/-- The method `getColumn`. -/
def getColumn (st : State) (y : Nat) : Res (List Chunk) := getColumnSlice st 0 y st.ds.width

/-- The write loop of `setColumnSlice` (lines 125-127): `n` further iterations from index
`i`. Each iteration reads `newColumn[i]` from the memory as it is then and
stores it in `ds.square[x+i][y]`. -/
def columnWrites (square : List Slice) (x y : Nat) (newColumn : Slice) :
    Nat → Nat → Mem → Res Unit × Mem
  | 0, _, mem => (.ok (), mem)
  | n + 1, i, mem =>
    match square[x + i]? with
    | none => (.panic, mem)
    | some row =>
      match mem.get newColumn i with
      | none => (.panic, mem)
      | some c =>
        match mem.assign row y c with
        | none => (.panic, mem)
        | some mem1 => columnWrites square x y newColumn n (i + 1) mem1

/-- The method `setColumnSlice`. The argument is a slice of the caller; the size loop
(lines 119-123) runs over its elements before anything is written. -/
def setColumnSlice (st : State) (x y : Nat) (newColumn : Slice) : Res Unit × State :=
  if (st.mem.view newColumn).any (fun c => c.length ≠ st.ds.chunkSize) then
    (.err .invalidChunkSize, st)
  else
    match columnWrites st.ds.square x y newColumn newColumn.len 0 st.mem with
    | (.ok _, mem1) => (.ok (), { mem := mem1, ds := resetRoots st.ds })
    | (.err e, mem1) => (.err e, { st with mem := mem1 })
    | (.panic, mem1) => (.panic, { st with mem := mem1 })

/-- The caller builds a new slice holding the chunks `vals`: a new backing array beside
those of the grid. -/
def State.withSlice (st : State) (vals : List Chunk) : State :=
  { st with mem := st.mem ++ [vals] }

/-- The slice built by `State.withSlice`. -/
def State.newSlice (st : State) (vals : List Chunk) : Slice :=
  ⟨st.mem.length, 0, vals.length, vals.length⟩

/-- Slice `s` lies inside its backing array, as every slice of a Go program does. -/
def Slice.Valid (s : Slice) (m : Mem) : Prop := s.off + s.len ≤ (m.buf s.buf).length

/-- Slice `s` does not hold element `p` of backing array `b`. -/
def Slice.Avoids (s : Slice) (b p : Nat) : Prop := s.buf ≠ b ∨ p < s.off ∨ s.off + s.len ≤ p

/-- Slice `s` shares no storage with the cell `ds.square[r][c]`. -/
def apartFromCell (st : State) (s : Slice) (r c : Nat) : Prop :=
  match st.ds.square[r]? with
  | none => True
  | some t => s.Avoids t.buf (t.off + c)

/-- The chunk `ds.square[r][c]`. -/
def cell (st : State) (r c : Nat) : Option Chunk :=
  match st.ds.square[r]? with
  | none => none
  | some s => st.mem.get s c

/-- Modelled from the spec: the hash primitive of the Merkle Commitment Engine
(`sha256.New()` handed to `merkletree.New`; the package
`github.com/NebulousLabs/merkletree` is imported by `datasquare.go` and is not
among the sources). `leaf` is the leaf encoding of a chunk, `node` combines two
adjacent nodes into their parent. -/
structure Hasher where
  leaf : Chunk → Digest
  node : Digest → Digest → Digest

namespace Merkle

/-- Modelled from the spec: one step of "combining adjacent nodes pairwise upward" in the
Merkle Commitment Engine (section 4.3); an unpaired last node passes through
unhashed to the next level (section 9). -/
def pairUp (H : Hasher) : List Digest → List Digest
  | [] => []
  | [a] => [a]
  | a :: b :: rest => H.node a b :: pairUp H rest

/-- Modelled from the spec: the levels of the Merkle Commitment Engine are combined
"until one root digest remains"; `fuel` bounds the number of levels. No node at
all gives the nil digest. -/
def collapse (H : Hasher) : Nat → List Digest → Digest
  | 0, l => l.headD []
  | fuel + 1, l => if l.length ≤ 1 then l.headD [] else collapse H fuel (pairUp H l)

/-- Modelled from the spec: `Root(orderedChunks)` of the Merkle Commitment Engine
(section 4.3): leaf `i` is the leaf encoding of chunk `i`. -/
def Root (H : Hasher) (orderedChunks : List Chunk) : Digest :=
  collapse H orderedChunks.length (orderedChunks.map H.leaf)

/-- Modelled from the spec: the position of the node paired with node `i` on its level
of the Merkle Commitment Engine's tree, read off the lowest bit of `i`. -/
def sibling (i : Nat) : Nat := if i % 2 = 0 then i + 1 else i - 1

/-- Modelled from the spec: "the sibling digest path from `leafIndex` to the root" of the
Merkle Commitment Engine (section 4.3), lowest level first; a node that passes
through unpaired contributes no digest. -/
def pathFrom (H : Hasher) : Nat → List Digest → Nat → List Digest
  | 0, _, _ => []
  | fuel + 1, l, i =>
    if l.length ≤ 1 then []
    else (l[sibling i]?).toList ++ pathFrom H fuel (pairUp H l) (i / 2)

/-- Modelled from the spec: the verification contract of the Merkle Commitment Engine
(section 4.3): "recombining the chunk's leaf encoding with `path` using
`leafIndex`'s bit pattern and `leafCount`". `acc` is the node reached so far,
`i` its position on the current level and `n` the size of that level; `none`
when the path is too short or too long. -/
def recombine (H : Hasher) : Nat → Digest → List Digest → Nat → Nat → Option Digest
  | 0, _, _, _, _ => none
  | fuel + 1, acc, path, i, n =>
    if n ≤ 1 then (if path.isEmpty then some acc else none)
    else if sibling i < n then
      match path with
      | [] => none
      | s :: rest =>
        recombine H fuel (if i % 2 = 0 then H.node acc s else H.node s acc) rest (i / 2) ((n + 1) / 2)
    else recombine H fuel acc path (i / 2) ((n + 1) / 2)

/-- Modelled from the spec: the Proof record of section 3, as produced by the Merkle
Commitment Engine. -/
structure Proof where
  root : Digest
  path : List Digest
  leafIndex : Nat
  leafCount : Nat
deriving DecidableEq, Repr

/-- Modelled from the spec: `Prove(orderedChunks, leafIndex)` of the Merkle Commitment
Engine (section 4.3); `none` is its `IndexOutOfRange` failure. -/
def Prove (H : Hasher) (orderedChunks : List Chunk) (leafIndex : Nat) : Option Proof :=
  if leafIndex < orderedChunks.length then
    some { root := Root H orderedChunks,
           path := pathFrom H orderedChunks.length (orderedChunks.map H.leaf) leafIndex,
           leafIndex := leafIndex,
           leafCount := orderedChunks.length }
  else none

/-- Modelled from the spec: the check a verifier of the Merkle Commitment Engine makes:
the recombined digest is the published root. -/
def Verify (H : Hasher) (root : Digest) (chunk : Chunk) (path : List Digest)
    (leafIndex leafCount : Nat) : Bool :=
  decide (leafIndex < leafCount) &&
    decide (recombine H leafCount (H.leaf chunk) path leafIndex leafCount = some root)

end Merkle

/-- Modelled from the spec: the handle `*merkletree.Tree` of the Merkle Commitment
Engine. The engine is "a pure function of its input sequence and a hash
primitive", so the handle records the chunks pushed so far, in order, and the
leaf index chosen with `SetIndex`. -/
structure Tree where
  leaves : List Chunk
  proofIndex : Option Nat
deriving DecidableEq, Repr

/-- Modelled from the spec: `merkletree.New` of the Merkle Commitment Engine: no chunk
pushed, no leaf index chosen. -/
def Tree.New : Tree := ⟨[], none⟩

/-- Modelled from the spec: `Tree.SetIndex` of the Merkle Commitment Engine fixes the
`leafIndex` argument of `Prove`. -/
def Tree.SetIndex (t : Tree) (i : Nat) : Tree := { t with proofIndex := some i }

/-- Modelled from the spec: `Tree.Push` of the Merkle Commitment Engine adds the next
chunk of `orderedChunks`. -/
def Tree.Push (t : Tree) (data : Chunk) : Tree := { t with leaves := t.leaves ++ [data] }

/-- Modelled from the spec: `Tree.Root` of the Merkle Commitment Engine is `Root` over the
pushed chunks. -/
def Tree.Root (H : Hasher) (t : Tree) : Digest := Merkle.Root H t.leaves

/-- Modelled from the spec: `Tree.Prove` of the Merkle Commitment Engine is `Prove` over the
pushed chunks at the chosen index. The call sites
`merkleRoot, proof, proofIndex, numLeaves := tree.Prove()` take four plain
results and no error value, so the failure the spec gives for an index outside
the pushed chunks is not an error value of `datasquare.go`; it is rendered as a
panic, as is a call with no index chosen. What the package does for such an
index is not in the sources, and no property below rests on that branch: the
proof methods are only described for indices inside the grid. -/
def Tree.Prove (H : Hasher) (t : Tree) : Res Merkle.Proof :=
  match t.proofIndex with
  | none => .panic
  | some i =>
    match Merkle.Prove H t.leaves i with
    | some p => .ok p
    | none => .panic

/-- The inner loop of `computeRoots` (lines 151-154): `rowData[j]` and `columnData[j]` are
pushed for the next `n` indices `j`. `none` is an index panic. -/
def pushBoth (mem : Mem) (rowData : Slice) (columnData : List Chunk) :
    Nat → Nat → Tree → Tree → Option (Tree × Tree)
  | 0, _, rowTree, columnTree => some (rowTree, columnTree)
  | n + 1, j, rowTree, columnTree =>
    match mem.get rowData j with
    | none => none
    | some r =>
      match columnData[j]? with
      | none => none
      | some c => pushBoth mem rowData columnData n (j + 1) (rowTree.Push r) (columnTree.Push c)

/-- The outer loop of `computeRoots` (lines 146-158); the two accumulators hold
`rowRoots[0..i)` and `columnRoots[0..i)`. `none` is a panic. -/
def rootsLoop (H : Hasher) (st : State) :
    Nat → Nat → List Digest → List Digest → Option (List Digest × List Digest)
  | 0, _, rowRoots, columnRoots => some (rowRoots, columnRoots)
  | n + 1, i, rowRoots, columnRoots =>
    match getRow st i with
    | .ok rowData =>
      match getColumn st i with
      | .ok columnData =>
        match pushBoth st.mem rowData columnData st.ds.width 0 Tree.New Tree.New with
        | none => none
        | some (rowTree, columnTree) =>
          rootsLoop H st n (i + 1) (rowRoots ++ [rowTree.Root H]) (columnRoots ++ [columnTree.Root H])
      | _ => none
    | _ => none

/-- The method `computeRoots`. The caches are assigned on lines 160-161 only, so a panic
leaves the grid as it was. -/
def computeRoots (H : Hasher) (st : State) : Res Unit × State :=
  match rootsLoop H st st.ds.width 0 [] [] with
  | none => (.panic, st)
  | some (rowRoots, columnRoots) =>
    (.ok (), { st with ds := { st.ds with rowRoots := some rowRoots, columnRoots := some columnRoots } })

/-- The method `RowRoots`; the value returned is `ds.rowRoots`. -/
def RowRoots (H : Hasher) (st : State) : Res (Option (List Digest)) × State :=
  match st.ds.rowRoots with
  | some r => (.ok (some r), st)
  | none =>
    match computeRoots H st with
    | (.ok _, st1) => (.ok st1.ds.rowRoots, st1)
    | (.err e, st1) => (.err e, st1)
    | (.panic, st1) => (.panic, st1)

/-- The method `ColumnRoots`; the value returned is `ds.columnRoots`. -/
def ColumnRoots (H : Hasher) (st : State) : Res (Option (List Digest)) × State :=
  match st.ds.columnRoots with
  | some r => (.ok (some r), st)
  | none =>
    match computeRoots H st with
    | (.ok _, st1) => (.ok st1.ds.columnRoots, st1)
    | (.err e, st1) => (.err e, st1)
    | (.panic, st1) => (.panic, st1)

/-- The loop of `computeRowProof` (lines 185-187): `data[i]` is pushed for the next `n`
indices of the slice `data`. `none` is an index panic. -/
def pushSlice (mem : Mem) (data : Slice) : Nat → Nat → Tree → Option Tree
  | 0, _, tree => some tree
  | n + 1, i, tree =>
    match mem.get data i with
    | none => none
    | some c => pushSlice mem data n (i + 1) (tree.Push c)

/-- The loop of `computeColumnProof` (lines 198-200) over the fresh slice `data`. -/
def pushList (data : List Chunk) : Nat → Nat → Tree → Option Tree
  | 0, _, tree => some tree
  | n + 1, i, tree =>
    match data[i]? with
    | none => none
    | some c => pushList data n (i + 1) (tree.Push c)

/-- The method `computeRowProof`, returning `(merkleRoot, proof, proofIndex, numLeaves)` as a
`Proof` record, with the state after the call. -/
def computeRowProof (H : Hasher) (st : State) (x y : Nat) : Res Merkle.Proof × State :=
  let tree := Tree.New.SetIndex y
  match getRow st x with
  | .ok data =>
    match pushSlice st.mem data st.ds.width 0 tree with
    | none => (.panic, st)
    | some tree1 => (tree1.Prove H, st)
  | .err e => (.err e, st)
  | .panic => (.panic, st)

/-- The method `computeColumnProof`. -/
def computeColumnProof (H : Hasher) (st : State) (x y : Nat) : Res Merkle.Proof × State :=
  let tree := Tree.New.SetIndex x
  match getColumn st y with
  | .ok data =>
    match pushList data st.ds.width 0 tree with
    | none => (.panic, st)
    | some tree1 => (tree1.Prove H, st)
  | .err e => (.err e, st)
  | .panic => (.panic, st)

/-- Row slice `s` is a window of `width` chunks of size `chunkSize` inside an existing
backing array. -/
def SliceOk (mem : Mem) (width chunkSize : Nat) (s : Slice) : Prop :=
  s.len = width ∧ s.len ≤ s.cap ∧ s.buf < mem.length ∧
    s.off + s.len ≤ (mem.buf s.buf).length ∧ ∀ c ∈ mem.view s, c.length = chunkSize

/-- Invariants 1 and 2 of the data model: `width` rows of `width` chunks each, every
chunk of length `chunkSize`. -/
def Shape (st : State) : Prop :=
  st.ds.square.length = st.ds.width ∧
    ∀ s ∈ st.ds.square, SliceOk st.mem st.ds.width st.ds.chunkSize s

/-- Two slices occupy no common element of a backing array. -/
def Slice.Disjoint (a b : Slice) : Prop :=
  a.buf ≠ b.buf ∨ a.off + a.len ≤ b.off ∨ b.off + b.len ≤ a.off

/-- Every cell has storage of its own: different rows share no element of a backing
array. This is part of a state being a `width x width` array of cells; it
holds after `newDataSquare` and is kept by `setRowSlice`, `setColumnSlice`, the
root methods and `extendSquare` with `k >= 1`. -/
def Independent (st : State) : Prop := st.ds.square.Pairwise Slice.Disjoint

/-- The Merkle root of the current content of row `i`. -/
def rowRootAt (H : Hasher) (st : State) (i : Nat) : Option Digest :=
  match getRow st i with
  | .ok s => some (Merkle.Root H (st.mem.view s))
  | _ => none

/-- The Merkle root of the current content of column `j`. -/
def columnRootAt (H : Hasher) (st : State) (j : Nat) : Option Digest :=
  match getColumn st j with
  | .ok col => some (Merkle.Root H col)
  | _ => none

/-- A root list is the one recomputed from scratch over the current cells. -/
def RootsOf (width : Nat) (rootAt : Nat → Option Digest) (roots : List Digest) : Prop :=
  roots.length = width ∧ ∀ i, i < width → roots[i]? = rootAt i

/-- Invariant 3 of the data model: a cache that is present holds the roots of the
current content. -/
def Coherent (H : Hasher) (st : State) : Prop :=
  (∀ r, st.ds.rowRoots = some r → RootsOf st.ds.width (rowRootAt H st) r) ∧
    (∀ r, st.ds.columnRoots = some r → RootsOf st.ds.width (columnRootAt H st) r)

/-- The grid states reached from a successful `newDataSquare` by successful calls of
`setRowSlice`, `setColumnSlice`, `extendSquare`, `RowRoots` and `ColumnRoots`, with
any slices as arguments: views of the grid or slices the caller has built in
between (`callerSlice`). -/
inductive Reachable (H : Hasher) : State → Prop where
  | construct (data : List Chunk) (st : State) :
      newDataSquare data = .ok st → Reachable H st
  | callerSlice (st : State) (vals : List Chunk) :
      Reachable H st → Reachable H (st.withSlice vals)
  | setRow (st : State) (x y : Nat) (newRow : Slice) (st1 : State) :
      Reachable H st → setRowSlice st x y newRow = (.ok (), st1) → Reachable H st1
  | setColumn (st : State) (x y : Nat) (newColumn : Slice) (st1 : State) :
      Reachable H st → setColumnSlice st x y newColumn = (.ok (), st1) → Reachable H st1
  | extend (st : State) (k : Nat) (filler : Chunk) (st1 : State) :
      Reachable H st → extendSquare st k filler = (.ok (), st1) → Reachable H st1
  | rowRoots (st : State) (r : Option (List Digest)) (st1 : State) :
      Reachable H st → RowRoots H st = (.ok r, st1) → Reachable H st1
  | columnRoots (st : State) (r : Option (List Digest)) (st1 : State) :
      Reachable H st → ColumnRoots H st = (.ok r, st1) → Reachable H st1

/-- A small hash primitive for examples: a leaf is tagged 0, a node is tagged 1. -/
def demoHasher : Hasher :=
  { leaf := fun c => 0 :: c, node := fun a b => 1 :: (a ++ b) }

instance (mem : Mem) (width chunkSize : Nat) (s : Slice) :
    Decidable (SliceOk mem width chunkSize s) := by
  unfold SliceOk; infer_instance

instance (st : State) : Decidable (Shape st) := by
  unfold Shape; infer_instance

instance (a b : Slice) : Decidable (Slice.Disjoint a b) := by
  unfold Slice.Disjoint; infer_instance

instance (st : State) : Decidable (Independent st) := by
  unfold Independent; infer_instance

instance (s : Slice) (m : Mem) : Decidable (s.Valid m) := by
  unfold Slice.Valid; infer_instance

instance (s : Slice) (b p : Nat) : Decidable (s.Avoids b p) := by
  unfold Slice.Avoids; infer_instance

instance (st : State) (s : Slice) (r c : Nat) : Decidable (apartFromCell st s r c) := by
  unfold apartFromCell
  cases st.ds.square[r]? with
  | none => exact instDecidableTrue
  | some t => exact inferInstanceAs (Decidable (s.Avoids t.buf (t.off + c)))

/-- Row `i` of a freshly built grid: the window of `w` chunks at offset `i * w` of the
caller's array of `n` chunks. -/
def rowWindow (w n i : Nat) : Slice := ⟨0, i * w, w, n - i * w⟩

/-- The grid `newDataSquare` builds from the four one-byte chunks 1, 2, 3, 4. -/
def demoState : State :=
  { mem := [[[1], [2], [3], [4]]],
    ds := { square := [⟨0, 0, 2, 4⟩, ⟨0, 2, 2, 2⟩], width := 2, chunkSize := 1,
            rowRoots := none, columnRoots := none } }

/-- The grid `demoState` after the caller has built the slice `[[7]]` and
`setRowSlice(0, 1, ...)` has been called with it. -/
def demoWritten : State :=
  (setRowSlice (demoState.withSlice [[7]]) 0 1 (demoState.newSlice [[7]])).2

/-- The grid `newDataSquare` builds from the nine one-byte chunks 1, ..., 9. -/
def demoNine : State :=
  { mem := [[[1], [2], [3], [4], [5], [6], [7], [8], [9]]],
    ds := { square := [⟨0, 0, 3, 9⟩, ⟨0, 3, 3, 6⟩, ⟨0, 6, 3, 3⟩], width := 3, chunkSize := 1,
            rowRoots := none, columnRoots := none } }

/-- The grid `demoWritten` after a `RowRoots()` call with the example hash. -/
def demoCached : State := (RowRoots demoHasher demoWritten).2

/-- One successful call of `setRowSlice`, `setColumnSlice`, `extendSquare`, `RowRoots` or
`ColumnRoots`, leading from one grid state to the next, or the caller building a
slice to pass to one of them. -/
inductive Step (H : Hasher) : State → State → Prop where
  | callerSlice (st : State) (vals : List Chunk) : Step H st (st.withSlice vals)
  | setRow (st : State) (x y : Nat) (newRow : Slice) (st1 : State) :
      setRowSlice st x y newRow = (.ok (), st1) → Step H st st1
  | setColumn (st : State) (x y : Nat) (newColumn : Slice) (st1 : State) :
      setColumnSlice st x y newColumn = (.ok (), st1) → Step H st st1
  | extend (st : State) (k : Nat) (filler : Chunk) (st1 : State) :
      extendSquare st k filler = (.ok (), st1) → Step H st st1
  | rowRoots (st : State) (r : Option (List Digest)) (st1 : State) :
      RowRoots H st = (.ok r, st1) → Step H st st1
  | columnRoots (st : State) (r : Option (List Digest)) (st1 : State) :
      ColumnRoots H st = (.ok r, st1) → Step H st st1

/-- The grid states reached from the state `st0` by successful calls. -/
inductive ReachedFrom (H : Hasher) (st0 : State) : State → Prop where
  | start : ReachedFrom H st0 st0
  | step (st st1 : State) : ReachedFrom H st0 st → Step H st st1 → ReachedFrom H st0 st1

/-- The cell storage of the grid: the chunks of all rows, row after row. -/
def cells (st : State) : List Chunk := (st.ds.square.map st.mem.view).flatten

/-- The chunks of `getRow(i)`, when the call returns. -/
def rowContent (st : State) (i : Nat) : Option (List Chunk) :=
  match getRow st i with
  | .ok s => some (st.mem.view s)
  | _ => none

/-! ## Lemmas and theorems -/

theorem Mem.get_eq_view (m : Mem) (s : Slice) (i : Nat) : m.get s i = (m.view s)[i]? := by
  unfold Mem.get Mem.view
  by_cases h : i < s.len
  · rw [if_pos h, List.getElem?_take_of_lt h, List.getElem?_drop]
  · rw [if_neg h]
    symm
    apply List.getElem?_eq_none
    have := List.length_take_le s.len (List.drop s.off (m.buf s.buf))
    omega

theorem Mem.length_view_le (m : Mem) (s : Slice) : (m.view s).length ≤ s.len := by
  unfold Mem.view
  exact List.length_take_le _ _

theorem Mem.length_view (m : Mem) (s : Slice) (h : s.off + s.len ≤ (m.buf s.buf).length) :
    (m.view s).length = s.len := by
  unfold Mem.view
  simp only [List.length_take, List.length_drop]
  omega
theorem ceilSqrtFrom_square (w : Nat) :
    ∀ fuel w0, w0 ≤ w → w ≤ w0 + fuel → ceilSqrtFrom (w * w) fuel w0 = w := by
  intro fuel
  induction fuel with
  | zero => intro w0 h1 h2; simp only [ceilSqrtFrom]; omega
  | succ f ih =>
    intro w0 h1 h2
    simp only [ceilSqrtFrom]
    by_cases h : w * w ≤ w0 * w0
    · rw [if_pos h]
      have : w ≤ w0 := by
        by_contra hc
        have hlt : w0 < w := by omega
        have := Nat.mul_self_lt_mul_self hlt
        omega
      omega
    · rw [if_neg h]
      have hlt : w0 < w := by
        by_contra hc
        have hle : w ≤ w0 := by omega
        exact h (Nat.mul_self_le_mul_self hle)
      exact ih (w0 + 1) hlt (by omega)

theorem ceilSqrt_square (w : Nat) : ceilSqrt (w * w) = w := by
  unfold ceilSqrt
  apply ceilSqrtFrom_square w (w * w) 0 (Nat.zero_le _)
  rcases Nat.eq_zero_or_pos w with h | h
  · subst h; simp
  · have := Nat.le_mul_of_pos_right w h
    omega


/-- Inside a row whose chunks all have the expected size the inner loop of
`newDataSquare` runs to its end. -/
theorem checkChunks_ok (m : Mem) (s : Slice) (cs : Nat)
    (hlen : (m.view s).length = s.len) (hsz : ∀ c ∈ m.view s, c.length = cs) :
    ∀ k j, j + k ≤ s.len → checkChunks m s cs k j = .ok () := by
  intro k
  induction k with
  | zero => intro j _; rfl
  | succ k ih =>
    intro j hj
    have hlt : j < (m.view s).length := by omega
    simp only [checkChunks, Mem.get_eq_view, List.getElem?_eq_getElem hlt]
    rw [if_neg (by simp [hsz _ (List.getElem_mem hlt)])]
    exact ih (j + 1) (by omega)

theorem reslice_data (w n i : Nat) (h : i * w + w ≤ n) :
    Slice.reslice ⟨0, 0, n, n⟩ (i * w) (i * w + w) = some (rowWindow w n i) := by
  unfold Slice.reslice rowWindow
  generalize i * w = a at *
  rw [if_pos ⟨by omega, h⟩]
  simp

theorem view_rowWindow (data : List Chunk) (w i : Nat) :
    Mem.view [data] (rowWindow w data.length i) = (data.drop (i * w)).take w := by
  simp [Mem.view, rowWindow, Mem.buf]

theorem fillSquare_ok (data : List Chunk) (w cs : Nat) (hn : data.length = w * w)
    (hsz : ∀ c ∈ data, c.length = cs) :
    ∀ k i acc, i + k ≤ w →
      fillSquare [data] ⟨0, 0, data.length, data.length⟩ w cs k i acc
        = .ok (acc ++ (List.range' i k).map (rowWindow w data.length)) := by
  intro k
  induction k with
  | zero => intro i acc _; simp [fillSquare]
  | succ k ih =>
    intro i acc hi
    have hb : i * w + w ≤ data.length := by
      have : (i + 1) * w ≤ w * w := Nat.mul_le_mul_right w (by omega)
      rw [hn]; rw [Nat.add_mul] at this; omega
    have hck : checkChunks [data] (rowWindow w data.length i) cs w 0 = .ok () := by
      apply checkChunks_ok
      · rw [view_rowWindow]
        simp only [List.length_take, List.length_drop, rowWindow]
        generalize i * w = a at *
        omega
      · intro c hc
        rw [view_rowWindow] at hc
        exact hsz c (List.mem_of_mem_drop (List.mem_of_mem_take hc))
      · simp [rowWindow]
    simp only [fillSquare, reslice_data w data.length i hb, hck]
    rw [ih (i + 1) _ (by omega)]
    simp [List.range'_succ]

/-- C2: when the number of chunks is not a perfect square, `newDataSquare` returns the
shape error and no grid, whatever the chunks are. -/
theorem newDataSquare_rejects_non_square (data : List Chunk)
    (h : ¬ ∃ w, w * w = data.length) : newDataSquare data = .err .notSquare := by
  unfold newDataSquare
  have hne : ceilSqrt data.length ^ 2 ≠ data.length := by
    intro hc
    exact h ⟨ceilSqrt data.length, by rw [← pow_two]; exact hc⟩
  simp only [hne, ne_eq, not_false_eq_true, if_true]

theorem newDataSquare_rejects_non_square_witness :
    (¬ ∃ w, w * w = ([[1], [2], [3]] : List Chunk).length) ∧
      newDataSquare [[1], [2], [3]] = .err .notSquare :=
  ⟨by
      rintro ⟨w, hw⟩
      have h3 : w * w = 3 := hw
      have : w < 2 := by
        by_contra hc
        have : 2 * 2 ≤ w * w := Nat.mul_self_le_mul_self (by omega)
        omega
      interval_cases w <;> omega,
    newDataSquare_rejects_non_square [[1], [2], [3]] (by
      rintro ⟨w, hw⟩
      have h3 : w * w = 3 := hw
      have : w < 2 := by
        by_contra hc
        have : 2 * 2 ≤ w * w := Nat.mul_self_le_mul_self (by omega)
        omega
      interval_cases w <;> omega)⟩

/-- C1: a list of `n >= 1` chunks, `n = w * w`, all of length `m`, is accepted by
`newDataSquare`; the grid has width `w` and chunk size `m`, both root caches are
absent, and `getRow(i)` is the window `data[i*w .. i*w+w)` of the input for every
`i < w`. -/
theorem newDataSquare_row_major (data : List Chunk) (w m : Nat)
    (hpos : 1 ≤ data.length) (hn : data.length = w * w) (hm : ∀ c ∈ data, c.length = m) :
    ∃ st, newDataSquare data = .ok st ∧ st.ds.width = w ∧ st.ds.chunkSize = m ∧
      st.ds.rowRoots = none ∧ st.ds.columnRoots = none ∧
      ∀ i, i < w → ∃ s, getRow st i = .ok s ∧ st.mem.view s = (data.drop (i * w)).take w := by
  have hcs : ceilSqrt data.length = w := by rw [hn]; exact ceilSqrt_square w
  cases data with
  | nil => simp at hpos
  | cons d0 rest =>
    have hfill := fillSquare_ok (d0 :: rest) w m hn hm w 0 [] (by omega)
    have hd0 : d0.length = m := hm d0 (List.mem_cons_self _ _)
    refine ⟨{ mem := [d0 :: rest],
              ds := { square := (List.range' 0 w).map (rowWindow w (d0 :: rest).length),
                      width := w, chunkSize := m, rowRoots := none, columnRoots := none } },
            ?_, rfl, rfl, rfl, rfl, ?_⟩
    · unfold newDataSquare
      simp only [hcs, hd0]
      rw [if_neg (by rw [hn]; simp [pow_two])]
      simp only [hfill, List.nil_append]
    · intro i hi
      have hb : i * w + w ≤ (d0 :: rest).length := by
        have : (i + 1) * w ≤ w * w := Nat.mul_le_mul_right w (by omega)
        rw [hn]; rw [Nat.add_mul] at this; omega
      refine ⟨rowWindow w (d0 :: rest).length i, ?_, view_rowWindow (d0 :: rest) w i⟩
      unfold getRow getRowSlice
      have hget : ((List.range' 0 w).map (rowWindow w (d0 :: rest).length))[i]?
          = some (rowWindow w (d0 :: rest).length i) := by
        simp [List.getElem?_map, List.getElem?_range', hi]
      simp only [hget]
      have : (rowWindow w (d0 :: rest).length i).reslice 0 (0 + w)
          = some (rowWindow w (d0 :: rest).length i) := by
        unfold Slice.reslice rowWindow
        generalize i * w = a at *
        rw [if_pos ⟨by omega, by simp only []; omega⟩]
        simp
      simp only [this]

theorem newDataSquare_row_major_witness :
    ∃ st, newDataSquare [[1, 2], [3, 4], [5, 6], [7, 8]] = .ok st ∧ st.ds.width = 2 ∧
      st.ds.chunkSize = 2 ∧ st.ds.rowRoots = none ∧ st.ds.columnRoots = none ∧
      ∀ i, i < 2 → ∃ s, getRow st i = .ok s ∧
        st.mem.view s = (([[1, 2], [3, 4], [5, 6], [7, 8]] : List Chunk).drop (i * 2)).take 2 :=
  newDataSquare_row_major [[1, 2], [3, 4], [5, 6], [7, 8]] 2 2 (by decide) (by decide) (by decide)

theorem Mem.buf_put (m : Mem) (b : Nat) (c : List Chunk) (b' : Nat) :
    (m.put b c).buf b' = if b' = b ∧ b < m.length then c else m.buf b' := by
  unfold Mem.put Mem.buf
  rw [List.getElem?_set]
  by_cases h : b = b'
  · subst h
    by_cases hl : b < m.length
    · simp [hl]
    · simp [hl, List.getElem?_eq_none (Nat.le_of_not_lt hl)]
  · have h' : ¬ b' = b := fun e => h e.symm
    simp [h, h']

theorem Mem.length_put (m : Mem) (b : Nat) (c : List Chunk) : (m.put b c).length = m.length := by
  simp [Mem.put]

theorem Mem.assign_eq_some {m : Mem} {s : Slice} {i : Nat} {v : Chunk} {m1 : Mem}
    (h : m.assign s i v = some m1) :
    i < s.len ∧ m1 = m.put s.buf ((m.buf s.buf).set (s.off + i) v) := by
  unfold Mem.assign at h
  by_cases hi : i < s.len
  · rw [if_pos hi] at h
    exact ⟨hi, (Option.some.inj h).symm⟩
  · rw [if_neg hi] at h
    cases h

/-- The element at position `p` of backing array `b` after the assignment `s[i] = v`. -/
theorem Mem.at_assign (m : Mem) (s : Slice) (i : Nat) (v : Chunk) (b p : Nat) :
    ((m.put s.buf ((m.buf s.buf).set (s.off + i) v)).buf b)[p]?
      = if b = s.buf ∧ p = s.off + i ∧ p < (m.buf s.buf).length then some v
        else (m.buf b)[p]? := by
  rw [Mem.buf_put]
  by_cases hb : b = s.buf
  · subst hb
    by_cases hl : s.buf < m.length
    · simp only [hl, and_self, if_true, true_and]
      rw [List.getElem?_set]
      by_cases hp : s.off + i = p
      · subst hp
        by_cases hlt : s.off + i < (m.buf s.buf).length
        · simp [hlt]
        · simp [hlt, List.getElem?_eq_none (Nat.le_of_not_lt hlt)]
      · have hp' : ¬ p = s.off + i := fun e => hp e.symm
        simp [hp, hp']
    · have hnil : m.buf s.buf = [] := by
        unfold Mem.buf
        rw [List.getElem?_eq_none (Nat.le_of_not_lt hl)]; rfl
      simp [hl, hnil]
  · simp [hb]

theorem Mem.length_buf_assign (m : Mem) (s : Slice) (i : Nat) (v : Chunk) (b : Nat) :
    ((m.put s.buf ((m.buf s.buf).set (s.off + i) v)).buf b).length = (m.buf b).length := by
  rw [Mem.buf_put]
  by_cases hb : b = s.buf ∧ s.buf < m.length
  · rw [if_pos hb, hb.1]; simp
  · rw [if_neg hb]

theorem Mem.view_getElem? (m : Mem) (s : Slice) (j : Nat) :
    (m.view s)[j]? = if j < s.len then (m.buf s.buf)[s.off + j]? else none := by
  rw [← Mem.get_eq_view]; rfl

/-- A store into a slice leaves the elements of a slice that does not hold the element
stored to. -/
theorem Mem.view_assign_apart (m : Mem) (s : Slice) (i : Nat) (v : Chunk) (t : Slice)
    (hd : t.Avoids s.buf (s.off + i)) :
    (m.put s.buf ((m.buf s.buf).set (s.off + i) v)).view t = m.view t := by
  apply List.ext_getElem?
  intro j
  rw [Mem.view_getElem?, Mem.view_getElem?]
  by_cases hj : j < t.len
  · rw [if_pos hj, if_pos hj, Mem.at_assign, if_neg]
    rintro ⟨h1, h2, _⟩
    rcases hd with h | h | h
    · exact h h1
    · omega
    · omega
  · rw [if_neg hj, if_neg hj]

/-- The write loop of `setRowSlice` on an existing row, for any argument that lies inside
its backing array: it ends normally when the target range ends inside the row
and panics otherwise; it changes only elements of the target range inside the
row; and when the argument holds none of the elements written, it is unchanged
and the elements written hold its chunks. -/
theorem rowWrites_run (square : List Slice) (x y : Nat) (newRow row : Slice)
    (hrow : square[x]? = some row) :
    ∀ (n i : Nat) (m : Mem), i + n ≤ newRow.len → newRow.Valid m →
      row.off + row.len ≤ (m.buf row.buf).length →
      ∃ m1, rowWrites square x y newRow n i m
          = (if n = 0 ∨ y + i + n ≤ row.len then .ok () else .panic, m1) ∧
        m1.length = m.length ∧ (∀ b, (m1.buf b).length = (m.buf b).length) ∧
        (∀ (b p : Nat), ¬ (b = row.buf ∧ row.off + y + i ≤ p ∧ p < row.off + y + i + n ∧
            p < row.off + row.len) → (m1.buf b)[p]? = (m.buf b)[p]?) ∧
        ((∀ j, i ≤ j → j < i + n → y + j < row.len →
            newRow.Avoids row.buf (row.off + (y + j))) →
          m1.view newRow = m.view newRow ∧
          ∀ j, i ≤ j → j < i + n → y + j < row.len →
            (m1.buf row.buf)[row.off + (y + j)]? = (m.view newRow)[j]?) := by
  intro n
  induction n with
  | zero =>
    intro i m _ _ _
    refine ⟨m, ?_, rfl, fun _ => rfl, fun _ _ _ => rfl, fun _ => ⟨rfl, ?_⟩⟩
    · simp only [rowWrites, true_or, if_true]
    · intro j h1 h2 _
      omega
  | succ n ih =>
    intro i m hin hv hbuf
    have hlen := Mem.length_view m newRow hv
    have hlt : i < (m.view newRow).length := by omega
    have hg : m.get newRow i = some (m.view newRow)[i] := by
      rw [Mem.get_eq_view, List.getElem?_eq_getElem hlt]
    simp only [rowWrites, hrow, hg]
    by_cases hyi : y + i < row.len
    · have ha : m.assign row (y + i) (m.view newRow)[i]
          = some (m.put row.buf ((m.buf row.buf).set (row.off + (y + i)) (m.view newRow)[i])) := by
        unfold Mem.assign
        rw [if_pos hyi]
      rw [ha]
      dsimp only
      obtain ⟨m1, h1, h2, h3, h4, h5⟩ := ih (i + 1)
        (m.put row.buf ((m.buf row.buf).set (row.off + (y + i)) (m.view newRow)[i]))
        (by omega)
        (by unfold Slice.Valid; rw [Mem.length_buf_assign]; exact hv)
        (by rw [Mem.length_buf_assign]; exact hbuf)
      refine ⟨m1, ?_, ?_, ?_, ?_, ?_⟩
      · rw [h1]
        congr 1
        simp only [Nat.succ_ne_zero n, false_or]
        split_ifs <;> first | rfl | omega
      · rw [h2, Mem.length_put]
      · intro b
        rw [h3, Mem.length_buf_assign]
      · intro b p hout
        rw [h4 b p (fun hh => hout ⟨hh.1, by omega, by omega, hh.2.2.2⟩), Mem.at_assign,
          if_neg]
        rintro ⟨hb, hp, _⟩
        exact hout ⟨hb, by omega, by omega, by omega⟩
      · intro hap
        have hview := Mem.view_assign_apart m row (y + i) (m.view newRow)[i] newRow
          (hap i (Nat.le_refl _) (by omega) hyi)
        obtain ⟨h6, h7⟩ := h5 (fun j hj1 hj2 hj3 => hap j (by omega) (by omega) hj3)
        refine ⟨by rw [h6, hview], ?_⟩
        intro j hj1 hj2 hj3
        by_cases hji : j = i
        · subst hji
          rw [h4 row.buf (row.off + (y + j)) (fun hh => by omega), Mem.at_assign,
            if_pos ⟨rfl, rfl, by omega⟩, List.getElem?_eq_getElem hlt]
        · rw [h7 j (by omega) (by omega) hj3, hview]
    · have ha : m.assign row (y + i) (m.view newRow)[i] = none := by
        unfold Mem.assign
        rw [if_neg hyi]
      rw [ha]
      dsimp only
      refine ⟨m, ?_, rfl, fun _ => rfl, fun _ _ _ => rfl, fun _ => ⟨rfl, ?_⟩⟩
      · congr 1
        simp only [Nat.succ_ne_zero n, false_or]
        rw [if_neg (by omega)]
      · intro j hj1 _ hj3
        omega

theorem disjoint_symm {a b : Slice} (h : Slice.Disjoint a b) : Slice.Disjoint b a := by
  unfold Slice.Disjoint at *
  rcases h with h | h | h
  · exact Or.inl (fun e => h e.symm)
  · exact Or.inr (Or.inr h)
  · exact Or.inr (Or.inl h)

/-- Two different rows of a grid with independent storage are disjoint slices. -/
theorem disjoint_of_pairwise {sq : List Slice} (h : sq.Pairwise Slice.Disjoint) {i j : Nat}
    {a b : Slice} (hij : i ≠ j) (ha : sq[i]? = some a) (hb : sq[j]? = some b) :
    Slice.Disjoint a b := by
  rw [List.pairwise_iff_getElem] at h
  obtain ⟨hi, rfl⟩ := List.getElem?_eq_some_iff.mp ha
  obtain ⟨hj, rfl⟩ := List.getElem?_eq_some_iff.mp hb
  rcases Nat.lt_or_gt_of_ne hij with hlt | hgt
  · exact h i j hi hj hlt
  · exact disjoint_symm (h j i hj hi hgt)

/-- The write loop of `setColumnSlice` over rows of length `w`, for any argument that lies
inside its backing array: it ends normally when column `y` exists and the target
range ends inside the grid and panics otherwise; it changes only cells of the
target range; and when the rows share no storage and the argument holds none of
the cells written, it is unchanged and the cells written hold its chunks. -/
theorem columnWrites_run (square : List Slice) (x y w : Nat) (newColumn : Slice)
    (hw : ∀ t ∈ square, t.len = w) :
    ∀ (n i : Nat) (m : Mem), i + n ≤ newColumn.len → newColumn.Valid m →
      (∀ t ∈ square, t.off + t.len ≤ (m.buf t.buf).length) →
      ∃ m1, columnWrites square x y newColumn n i m
          = (if n = 0 ∨ (y < w ∧ x + i + n ≤ square.length) then .ok () else .panic, m1) ∧
        m1.length = m.length ∧ (∀ b, (m1.buf b).length = (m.buf b).length) ∧
        (∀ (b p : Nat), (∀ j t, i ≤ j → j < i + n → square[x + j]? = some t → y < w →
            ¬ (b = t.buf ∧ p = t.off + y)) → (m1.buf b)[p]? = (m.buf b)[p]?) ∧
        (square.Pairwise Slice.Disjoint →
          (∀ j t, i ≤ j → j < i + n → square[x + j]? = some t → y < w →
            newColumn.Avoids t.buf (t.off + y)) →
          m1.view newColumn = m.view newColumn ∧
          ∀ j t, i ≤ j → j < i + n → square[x + j]? = some t → y < w →
            (m1.buf t.buf)[t.off + y]? = (m.view newColumn)[j]?) := by
  intro n
  induction n with
  | zero =>
    intro i m _ _ _
    refine ⟨m, ?_, rfl, fun _ => rfl, fun _ _ _ => rfl, fun _ _ => ⟨rfl, ?_⟩⟩
    · simp only [columnWrites, true_or, if_true]
    · intro j t h1 h2 _ _
      omega
  | succ n ih =>
    intro i m hin hv hbuf
    have hlen := Mem.length_view m newColumn hv
    have hlt : i < (m.view newColumn).length := by omega
    have hg : m.get newColumn i = some (m.view newColumn)[i] := by
      rw [Mem.get_eq_view, List.getElem?_eq_getElem hlt]
    simp only [columnWrites, Nat.succ_ne_zero n, false_or]
    cases hrow : square[x + i]? with
    | none =>
      dsimp only
      have hge : square.length ≤ x + i := by
        by_contra hcon
        rw [List.getElem?_eq_getElem (by omega)] at hrow
        cases hrow
      refine ⟨m, ?_, rfl, fun _ => rfl, fun _ _ _ => rfl, fun _ _ => ⟨rfl, ?_⟩⟩
      · congr 1
        rw [if_neg (by omega)]
      · intro j t hj1 _ hjt _
        have hnone : square[x + j]? = none := List.getElem?_eq_none (by omega)
        rw [hnone] at hjt
        cases hjt
    | some row =>
      dsimp only
      rw [hg]
      dsimp only
      have hrl : row.len = w := hw row (List.getElem?_mem hrow)
      have hxi : x + i < square.length := by
        by_contra hcon
        have hnone : square[x + i]? = none := List.getElem?_eq_none (by omega)
        rw [hnone] at hrow
        cases hrow
      by_cases hy : y < w
      · have ha : m.assign row y (m.view newColumn)[i]
            = some (m.put row.buf ((m.buf row.buf).set (row.off + y) (m.view newColumn)[i])) := by
          unfold Mem.assign
          rw [if_pos (by omega)]
        rw [ha]
        dsimp only
        obtain ⟨m1, h1, h2, h3, h4, h5⟩ := ih (i + 1)
          (m.put row.buf ((m.buf row.buf).set (row.off + y) (m.view newColumn)[i]))
          (by omega)
          (by unfold Slice.Valid; rw [Mem.length_buf_assign]; exact hv)
          (by intro t ht; rw [Mem.length_buf_assign]; exact hbuf t ht)
        refine ⟨m1, ?_, ?_, ?_, ?_, ?_⟩
        · rw [h1]
          congr 1
          split_ifs <;> first | rfl | omega
        · rw [h2, Mem.length_put]
        · intro b
          rw [h3, Mem.length_buf_assign]
        · intro b p hout
          rw [h4 b p (fun j t hj1 hj2 hjt hyw => hout j t (by omega) (by omega) hjt hyw),
            Mem.at_assign, if_neg]
          rintro ⟨hb, hp, _⟩
          exact hout i row (Nat.le_refl _) (by omega) hrow hy ⟨hb, hp⟩
        · intro hind hap
          have hview := Mem.view_assign_apart m row y (m.view newColumn)[i] newColumn
            (hap i row (Nat.le_refl _) (by omega) hrow hy)
          obtain ⟨h6, h7⟩ := h5 hind
            (fun j t hj1 hj2 hjt hyw => hap j t (by omega) (by omega) hjt hyw)
          refine ⟨by rw [h6, hview], ?_⟩
          intro j t hj1 hj2 hjt hyw
          by_cases hji : j = i
          · subst hji
            rw [hrow] at hjt
            cases hjt
            rw [h4 row.buf (row.off + y), Mem.at_assign,
              if_pos ⟨rfl, rfl, by have := hbuf row (List.getElem?_mem hrow); omega⟩,
              List.getElem?_eq_getElem hlt]
            intro j1 t1 hj3 hj4 hjt1 _ ⟨hb, hp⟩
            have hd := disjoint_of_pairwise hind (show x + j ≠ x + j1 by omega) hrow hjt1
            have ht1 : t1.len = w := hw t1 (List.getElem?_mem hjt1)
            unfold Slice.Disjoint at hd
            omega
          · rw [h7 j t (by omega) (by omega) hjt hyw, hview]
      · have ha : m.assign row y (m.view newColumn)[i] = none := by
          unfold Mem.assign
          rw [if_neg (by omega)]
        rw [ha]
        dsimp only
        refine ⟨m, ?_, rfl, fun _ => rfl, fun _ _ _ => rfl, fun _ _ => ⟨rfl, ?_⟩⟩
        · congr 1
          rw [if_neg (fun h => hy h.1)]
        · intro j t _ _ _ hyw
          exact absurd hyw hy

/-- The read loop of `getColumnSlice` over cells that exist returns them in order. -/
theorem columnReads_ok (mem : Mem) (square : List Slice) (x y : Nat) :
    ∀ (vals : List Chunk) (i : Nat) (acc : List Chunk),
      (∀ j, j < vals.length → ∃ t, square[x + i + j]? = some t ∧ mem.get t y = vals[j]?) →
      columnReads mem square x y vals.length i acc = .ok (acc ++ vals) := by
  intro vals
  induction vals with
  | nil => intro i acc _; simp [columnReads]
  | cons v rest ih =>
    intro i acc h
    obtain ⟨t, ht, hg⟩ := h 0 (by simp)
    rw [Nat.add_zero] at ht
    simp only [List.length_cons, columnReads, ht, hg, List.getElem?_cons_zero]
    rw [ih (i + 1) (acc ++ [v])]
    · simp
    · intro j hj
      obtain ⟨t, ht, hg⟩ := h (j + 1) (by simpa using hj)
      have he : x + i + (j + 1) = x + (i + 1) + j := by omega
      rw [he] at ht
      exact ⟨t, ht, by simpa using hg⟩

theorem any_wrong_size_false (chunks : List Chunk) (cs : Nat)
    (h : ∀ c ∈ chunks, c.length = cs) :
    chunks.any (fun c => decide (c.length ≠ cs)) = false := by
  rw [List.any_eq_false]
  intro c hc
  simp [h c hc]

theorem any_wrong_size_true (chunks : List Chunk) (cs : Nat)
    (h : ∃ c ∈ chunks, c.length ≠ cs) :
    chunks.any (fun c => decide (c.length ≠ cs)) = true := by
  rw [List.any_eq_true]
  obtain ⟨c, hc, hne⟩ := h
  exact ⟨c, hc, by simpa using hne⟩

/-- C7: a `setRowSlice` or `setColumnSlice` call in which some supplied chunk, at any
position, has a length other than `chunkSize` returns the invalid-chunk-size
error and leaves the whole state (cells, width, chunk size, both root caches) as
it was. -/
theorem set_slice_rejects_wrong_size (st : State) (x y : Nat) (chunks : Slice)
    (h : ∃ c ∈ st.mem.view chunks, c.length ≠ st.ds.chunkSize) :
    setRowSlice st x y chunks = (.err .invalidChunkSize, st) ∧
      setColumnSlice st x y chunks = (.err .invalidChunkSize, st) := by
  have ha := any_wrong_size_true (st.mem.view chunks) st.ds.chunkSize h
  constructor
  · unfold setRowSlice; rw [if_pos ha]
  · unfold setColumnSlice; rw [if_pos ha]

theorem set_slice_rejects_wrong_size_witness :
    (demoState.withSlice [[7], [8, 9]]).mem.view (demoState.newSlice [[7], [8, 9]])
        = [[7], [8, 9]] ∧
      (∃ c ∈ (demoState.withSlice [[7], [8, 9]]).mem.view (demoState.newSlice [[7], [8, 9]]),
        c.length ≠ (demoState.withSlice [[7], [8, 9]]).ds.chunkSize) ∧
      setRowSlice (demoState.withSlice [[7], [8, 9]]) 0 0 (demoState.newSlice [[7], [8, 9]])
        = (.err .invalidChunkSize, demoState.withSlice [[7], [8, 9]]) ∧
      setColumnSlice (demoState.withSlice [[7], [8, 9]]) 0 0 (demoState.newSlice [[7], [8, 9]])
        = (.err .invalidChunkSize, demoState.withSlice [[7], [8, 9]]) :=
  ⟨by decide, by decide,
    set_slice_rejects_wrong_size (demoState.withSlice [[7], [8, 9]]) 0 0
      (demoState.newSlice [[7], [8, 9]]) (by decide)⟩

/-- C8: `extendSquare` with a filler chunk whose length differs from `chunkSize` returns
an error and leaves the whole state (width, cells, both root caches) as it was,
for every width to add. -/
theorem extendSquare_rejects_wrong_filler (st : State) (k : Nat) (filler : Chunk)
    (h : filler.length ≠ st.ds.chunkSize) :
    extendSquare st k filler = (.err .fillerSize, st) := by
  unfold extendSquare
  rw [if_pos h]

theorem extendSquare_rejects_wrong_filler_witness :
    ([0, 0] : Chunk).length ≠ demoState.ds.chunkSize ∧
      extendSquare demoState 2 [0, 0] = (.err .fillerSize, demoState) :=
  ⟨by decide, extendSquare_rejects_wrong_filler demoState 2 [0, 0] (by decide)⟩

theorem Shape.row {st : State} (hs : Shape st) {r : Nat} (hr : r < st.ds.width) :
    ∃ t, st.ds.square[r]? = some t ∧ SliceOk st.mem st.ds.width st.ds.chunkSize t := by
  have hlt : r < st.ds.square.length := by rw [hs.1]; exact hr
  exact ⟨st.ds.square[r], List.getElem?_eq_getElem hlt, hs.2 _ (List.getElem_mem hlt)⟩

/-- C9 as stated does not hold for a `newRow` that shares storage with the cells written,
as the slices that `getRow` and `getRowSlice` hand out do. On the 3 x 3 grid of
the chunks 1, ..., 9 the slice `getRowSlice(0, 0, 2)` holds `[1, 2]`;
`setRowSlice(0, 1, ...)` with it succeeds, and afterwards `getRowSlice(0, 1, 2)`
holds `[1, 1]`, not the chunks supplied: the second store reads `newRow[1]`
after the first store has overwritten it. Nor do the cells read back always
agree with the slice as it is after the call: `getRowSlice(0, 1, 2)` holds
`[2, 3]`, `setRowSlice(0, 0, ...)` with it succeeds, afterwards
`getRowSlice(0, 0, 2)` holds `[2, 3]` and the slice supplied holds `[3, 3]`. -/
theorem aliased_row_write_breaks_round_trip :
    newDataSquare [[1], [2], [3], [4], [5], [6], [7], [8], [9]] = .ok demoNine ∧
      Shape demoNine ∧ Independent demoNine ∧
      getRowSlice demoNine 0 0 2 = .ok ⟨0, 0, 2, 9⟩ ∧
      demoNine.mem.view ⟨0, 0, 2, 9⟩ = [[1], [2]] ∧
      (∀ c ∈ demoNine.mem.view ⟨0, 0, 2, 9⟩, c.length = demoNine.ds.chunkSize) ∧
      1 + (⟨0, 0, 2, 9⟩ : Slice).len ≤ demoNine.ds.width ∧
      (setRowSlice demoNine 0 1 ⟨0, 0, 2, 9⟩).1 = .ok () ∧
      getRowSlice (setRowSlice demoNine 0 1 ⟨0, 0, 2, 9⟩).2 0 1 2 = .ok ⟨0, 1, 2, 8⟩ ∧
      (setRowSlice demoNine 0 1 ⟨0, 0, 2, 9⟩).2.mem.view ⟨0, 1, 2, 8⟩ = [[1], [1]] ∧
      getRowSlice demoNine 0 1 2 = .ok ⟨0, 1, 2, 8⟩ ∧
      demoNine.mem.view ⟨0, 1, 2, 8⟩ = [[2], [3]] ∧
      0 + (⟨0, 1, 2, 8⟩ : Slice).len ≤ demoNine.ds.width ∧
      (setRowSlice demoNine 0 0 ⟨0, 1, 2, 8⟩).1 = .ok () ∧
      getRowSlice (setRowSlice demoNine 0 0 ⟨0, 1, 2, 8⟩).2 0 0 2 = .ok ⟨0, 0, 2, 9⟩ ∧
      (setRowSlice demoNine 0 0 ⟨0, 1, 2, 8⟩).2.mem.view ⟨0, 0, 2, 9⟩ = [[2], [3]] ∧
      (setRowSlice demoNine 0 0 ⟨0, 1, 2, 8⟩).2.mem.view ⟨0, 1, 2, 8⟩ = [[3], [3]] := by
  decide

/-- C9, amended: on a well-formed grid whose rows have storage of their own,
`setRowSlice(x, y, newRow)` with `x < width`, a slice `newRow` of chunks of
length `chunkSize` and `y + len(newRow) <= width` succeeds, every cell outside
row `x`, columns `[y, y + len(newRow))` holds the chunk it held before, and
`width` and `chunkSize` are unchanged; when `newRow` shares no storage with the
cells written, `newRow` is unchanged and afterwards
`getRowSlice(x, y, len(newRow))` holds the chunks of `newRow`. -/
theorem setRowSlice_round_trip (st : State) (x y : Nat) (newRow : Slice)
    (hs : Shape st) (hind : Independent st) (hx : x < st.ds.width)
    (hv : newRow.Valid st.mem)
    (hsz : ∀ c ∈ st.mem.view newRow, c.length = st.ds.chunkSize)
    (hy : y + newRow.len ≤ st.ds.width) :
    ∃ st1, setRowSlice st x y newRow = (.ok (), st1) ∧
      ((∀ i, i < newRow.len → apartFromCell st newRow x (y + i)) →
        st1.mem.view newRow = st.mem.view newRow ∧
        ∃ s, getRowSlice st1 x y newRow.len = .ok s ∧
          st1.mem.view s = st.mem.view newRow) ∧
      (∀ r c, r < st.ds.width → c < st.ds.width →
        ¬ (r = x ∧ y ≤ c ∧ c < y + newRow.len) → cell st1 r c = cell st r c) ∧
      st1.ds.width = st.ds.width ∧ st1.ds.chunkSize = st.ds.chunkSize := by
  obtain ⟨row, hrow, hlen, hcap, _, hbuf, _⟩ := hs.row hx
  obtain ⟨m1, h1, _, _, h4, h5⟩ := rowWrites_run st.ds.square x y newRow row hrow
    newRow.len 0 st.mem (by omega) hv hbuf
  rw [if_pos (Or.inr (by omega))] at h1
  refine ⟨{ mem := m1, ds := resetRoots st.ds }, ?_, ?_, ?_, rfl, rfl⟩
  · unfold setRowSlice
    rw [if_neg (by rw [any_wrong_size_false _ _ hsz]; simp), h1]
  · intro hap
    obtain ⟨h6, h7⟩ := h5 (by
      intro j _ hj _
      have := hap j (by omega)
      simp only [apartFromCell, hrow] at this
      exact this)
    refine ⟨h6, ⟨row.buf, row.off + y, y + newRow.len - y, row.cap - y⟩, ?_, ?_⟩
    · unfold getRowSlice
      simp only [resetRoots, hrow, Slice.reslice]
      rw [if_pos ⟨by omega, by omega⟩]
    · apply List.ext_getElem?
      intro j
      rw [Mem.view_getElem?]
      dsimp only
      by_cases hj : j < newRow.len
      · rw [if_pos (by omega), Nat.add_assoc, h7 j (by omega) (by omega) (by omega)]
      · rw [if_neg (by omega), List.getElem?_eq_none]
        rw [Mem.length_view _ _ hv]
        omega
  · intro r c hr hc hout
    obtain ⟨t, ht, htlen, _, _, _, _⟩ := hs.row hr
    unfold cell
    simp only [resetRoots, ht, Mem.get]
    by_cases hct : c < t.len
    · simp only [if_pos hct]
      rw [h4]
      rintro ⟨hb, hlo, hhi, _⟩
      by_cases hrx : r = x
      · subst hrx
        rw [hrow] at ht
        cases ht
        exact hout ⟨rfl, by omega, by omega⟩
      · have hd := disjoint_of_pairwise hind hrx ht hrow
        unfold Slice.Disjoint at hd
        omega
    · simp only [if_neg hct]

theorem setRowSlice_round_trip_witness :
    Shape (demoState.withSlice [[9]]) ∧ Independent (demoState.withSlice [[9]]) ∧
      1 < (demoState.withSlice [[9]]).ds.width ∧
      (demoState.newSlice [[9]]).Valid (demoState.withSlice [[9]]).mem ∧
      (∀ c ∈ (demoState.withSlice [[9]]).mem.view (demoState.newSlice [[9]]),
        c.length = (demoState.withSlice [[9]]).ds.chunkSize) ∧
      1 + (demoState.newSlice [[9]]).len ≤ (demoState.withSlice [[9]]).ds.width ∧
      (∀ i, i < (demoState.newSlice [[9]]).len →
        apartFromCell (demoState.withSlice [[9]]) (demoState.newSlice [[9]]) 1 (1 + i)) ∧
      (demoState.withSlice [[9]]).mem.view (demoState.newSlice [[9]]) = [[9]] ∧
      ∃ st1, setRowSlice (demoState.withSlice [[9]]) 1 1 (demoState.newSlice [[9]])
          = (.ok (), st1) ∧
        ((∀ i, i < (demoState.newSlice [[9]]).len →
            apartFromCell (demoState.withSlice [[9]]) (demoState.newSlice [[9]]) 1 (1 + i)) →
          st1.mem.view (demoState.newSlice [[9]])
            = (demoState.withSlice [[9]]).mem.view (demoState.newSlice [[9]]) ∧
          ∃ s, getRowSlice st1 1 1 (demoState.newSlice [[9]]).len = .ok s ∧
            st1.mem.view s
              = (demoState.withSlice [[9]]).mem.view (demoState.newSlice [[9]])) ∧
        (∀ r c, r < (demoState.withSlice [[9]]).ds.width →
          c < (demoState.withSlice [[9]]).ds.width →
          ¬ (r = 1 ∧ 1 ≤ c ∧ c < 1 + (demoState.newSlice [[9]]).len) →
          cell st1 r c = cell (demoState.withSlice [[9]]) r c) ∧
        st1.ds.width = (demoState.withSlice [[9]]).ds.width ∧
        st1.ds.chunkSize = (demoState.withSlice [[9]]).ds.chunkSize :=
  ⟨by decide, by decide, by decide, by decide, by decide, by decide, by decide, by decide,
    setRowSlice_round_trip (demoState.withSlice [[9]]) 1 1 (demoState.newSlice [[9]])
      (by decide) (by decide) (by decide) (by decide) (by decide) (by decide)⟩

/-- C10 as stated does not hold for a `newColumn` that shares storage with the cells
written. On the 2 x 2 grid of the chunks 1, 2, 3, 4 the slice `getRow(0)` holds
`[1, 2]`; `setColumnSlice(0, 1, ...)` with it succeeds, and afterwards column 1
holds `[1, 1]`, not the chunks supplied: the first store puts chunk 1 into cell
`(0, 1)`, which is `newColumn[1]`, and the second store reads it from there.
Nor do the cells read back always agree with the slice as it is after the call:
`getRow(1)` holds `[3, 4]`, `setColumnSlice(0, 0, ...)` with it succeeds,
afterwards column 0 holds `[3, 4]` and the slice supplied holds `[4, 4]`. -/
theorem aliased_column_write_breaks_round_trip :
    newDataSquare [[1], [2], [3], [4]] = .ok demoState ∧
      Shape demoState ∧ Independent demoState ∧
      getRow demoState 0 = .ok ⟨0, 0, 2, 4⟩ ∧
      demoState.mem.view ⟨0, 0, 2, 4⟩ = [[1], [2]] ∧
      (∀ c ∈ demoState.mem.view ⟨0, 0, 2, 4⟩, c.length = demoState.ds.chunkSize) ∧
      0 + (⟨0, 0, 2, 4⟩ : Slice).len ≤ demoState.ds.width ∧
      (setColumnSlice demoState 0 1 ⟨0, 0, 2, 4⟩).1 = .ok () ∧
      getColumnSlice (setColumnSlice demoState 0 1 ⟨0, 0, 2, 4⟩).2 0 1 2 = .ok [[1], [1]] ∧
      cell (setColumnSlice demoState 0 1 ⟨0, 0, 2, 4⟩).2 1 1 = some [1] ∧
      getRow demoState 1 = .ok ⟨0, 2, 2, 2⟩ ∧
      demoState.mem.view ⟨0, 2, 2, 2⟩ = [[3], [4]] ∧
      (setColumnSlice demoState 0 0 ⟨0, 2, 2, 2⟩).1 = .ok () ∧
      getColumnSlice (setColumnSlice demoState 0 0 ⟨0, 2, 2, 2⟩).2 0 0 2 = .ok [[3], [4]] ∧
      (setColumnSlice demoState 0 0 ⟨0, 2, 2, 2⟩).2.mem.view ⟨0, 2, 2, 2⟩ = [[4], [4]] := by
  decide

/-- C10, amended: on a well-formed grid whose rows have storage of their own,
`setColumnSlice(x, y, newColumn)` with `y < width`, a slice `newColumn` of chunks
of length `chunkSize` and `x + len(newColumn) <= width` succeeds, every cell
outside column `y`, rows `[x, x + len(newColumn))` holds the chunk it held
before, and `width` and `chunkSize` are unchanged; when `newColumn` shares no
storage with the cells written, `newColumn` is unchanged and afterwards
`getColumnSlice(x, y, len(newColumn))` holds the chunks of `newColumn` (cell
`(x+i, y)` holds `newColumn[i]`). -/
theorem setColumnSlice_round_trip (st : State) (x y : Nat) (newColumn : Slice)
    (hs : Shape st) (hind : Independent st) (hy : y < st.ds.width)
    (hv : newColumn.Valid st.mem)
    (hsz : ∀ c ∈ st.mem.view newColumn, c.length = st.ds.chunkSize)
    (hx : x + newColumn.len ≤ st.ds.width) :
    ∃ st1, setColumnSlice st x y newColumn = (.ok (), st1) ∧
      ((∀ i, i < newColumn.len → apartFromCell st newColumn (x + i) y) →
        st1.mem.view newColumn = st.mem.view newColumn ∧
        getColumnSlice st1 x y newColumn.len = .ok (st.mem.view newColumn) ∧
        ∀ i, i < newColumn.len → cell st1 (x + i) y = (st.mem.view newColumn)[i]?) ∧
      (∀ r c, r < st.ds.width → c < st.ds.width →
        ¬ (c = y ∧ x ≤ r ∧ r < x + newColumn.len) → cell st1 r c = cell st r c) ∧
      st1.ds.width = st.ds.width ∧ st1.ds.chunkSize = st.ds.chunkSize := by
  have hw : ∀ t ∈ st.ds.square, t.len = st.ds.width := fun t ht => (hs.2 t ht).1
  obtain ⟨m1, h1, _, _, h4, h5⟩ := columnWrites_run st.ds.square x y st.ds.width newColumn hw
    newColumn.len 0 st.mem (by omega) hv (fun t ht => (hs.2 t ht).2.2.2.1)
  rw [if_pos (Or.inr ⟨hy, by rw [hs.1]; omega⟩)] at h1
  refine ⟨{ mem := m1, ds := resetRoots st.ds }, ?_, ?_, ?_, rfl, rfl⟩
  · unfold setColumnSlice
    rw [if_neg (by rw [any_wrong_size_false _ _ hsz]; simp), h1]
  · intro hap
    obtain ⟨h6, h7⟩ := h5 hind (by
      intro j t _ hj hjt _
      have := hap j (by omega)
      simp only [apartFromCell, hjt] at this
      exact this)
    have hcells : ∀ i, i < (st.mem.view newColumn).length →
        ∃ t, st.ds.square[x + 0 + i]? = some t ∧ m1.get t y = (st.mem.view newColumn)[i]? := by
      intro i hi
      rw [Mem.length_view _ _ hv] at hi
      obtain ⟨t, ht, htlen, _, _, _, _⟩ := hs.row (show x + 0 + i < st.ds.width by omega)
      refine ⟨t, ht, ?_⟩
      unfold Mem.get
      rw [Nat.add_zero] at ht
      rw [if_pos (by omega), h7 i t (by omega) (by omega) ht hy]
    refine ⟨h6, ?_, ?_⟩
    · unfold getColumnSlice
      simp only [resetRoots]
      have := columnReads_ok m1 st.ds.square x y (st.mem.view newColumn) 0 [] hcells
      rw [Mem.length_view _ _ hv] at this
      rw [this]
      simp
    · intro i hi
      obtain ⟨t, ht, hg⟩ := hcells i (by rw [Mem.length_view _ _ hv]; exact hi)
      unfold cell
      simp only [resetRoots]
      rw [Nat.add_zero] at ht
      simp only [ht, hg]
  · intro r c hr hc hout
    obtain ⟨t, ht, htlen, _, _, _, _⟩ := hs.row hr
    unfold cell
    simp only [resetRoots, ht, Mem.get]
    by_cases hct : c < t.len
    · simp only [if_pos hct]
      rw [h4]
      intro j t1 _ hj hjt _ ⟨hb, hp⟩
      have ht1len : t1.len = st.ds.width := hw t1 (List.getElem?_mem hjt)
      by_cases hrx : r = x + j
      · subst hrx
        rw [ht] at hjt
        cases hjt
        exact hout ⟨by omega, by omega, by omega⟩
      · have hd := disjoint_of_pairwise hind hrx ht hjt
        unfold Slice.Disjoint at hd
        omega
    · simp only [if_neg hct]

theorem setColumnSlice_round_trip_witness :
    Shape (demoState.withSlice [[8], [9]]) ∧ Independent (demoState.withSlice [[8], [9]]) ∧
      1 < (demoState.withSlice [[8], [9]]).ds.width ∧
      (demoState.newSlice [[8], [9]]).Valid (demoState.withSlice [[8], [9]]).mem ∧
      (∀ c ∈ (demoState.withSlice [[8], [9]]).mem.view (demoState.newSlice [[8], [9]]),
        c.length = (demoState.withSlice [[8], [9]]).ds.chunkSize) ∧
      0 + (demoState.newSlice [[8], [9]]).len ≤ (demoState.withSlice [[8], [9]]).ds.width ∧
      (∀ i, i < (demoState.newSlice [[8], [9]]).len →
        apartFromCell (demoState.withSlice [[8], [9]]) (demoState.newSlice [[8], [9]])
          (0 + i) 1) ∧
      (demoState.withSlice [[8], [9]]).mem.view (demoState.newSlice [[8], [9]])
        = [[8], [9]] ∧
      ∃ st1, setColumnSlice (demoState.withSlice [[8], [9]]) 0 1
          (demoState.newSlice [[8], [9]]) = (.ok (), st1) ∧
        ((∀ i, i < (demoState.newSlice [[8], [9]]).len →
            apartFromCell (demoState.withSlice [[8], [9]]) (demoState.newSlice [[8], [9]])
              (0 + i) 1) →
          st1.mem.view (demoState.newSlice [[8], [9]])
            = (demoState.withSlice [[8], [9]]).mem.view (demoState.newSlice [[8], [9]]) ∧
          getColumnSlice st1 0 1 (demoState.newSlice [[8], [9]]).len
            = .ok ((demoState.withSlice [[8], [9]]).mem.view
                (demoState.newSlice [[8], [9]])) ∧
          ∀ i, i < (demoState.newSlice [[8], [9]]).len →
            cell st1 (0 + i) 1
              = ((demoState.withSlice [[8], [9]]).mem.view
                  (demoState.newSlice [[8], [9]]))[i]?) ∧
        (∀ r c, r < (demoState.withSlice [[8], [9]]).ds.width →
          c < (demoState.withSlice [[8], [9]]).ds.width →
          ¬ (c = 1 ∧ 0 ≤ r ∧ r < 0 + (demoState.newSlice [[8], [9]]).len) →
          cell st1 r c = cell (demoState.withSlice [[8], [9]]) r c) ∧
        st1.ds.width = (demoState.withSlice [[8], [9]]).ds.width ∧
        st1.ds.chunkSize = (demoState.withSlice [[8], [9]]).ds.chunkSize :=
  ⟨by decide, by decide, by decide, by decide, by decide, by decide, by decide, by decide,
    setColumnSlice_round_trip (demoState.withSlice [[8], [9]]) 0 1
      (demoState.newSlice [[8], [9]])
      (by decide) (by decide) (by decide) (by decide) (by decide) (by decide)⟩

/-- The write theorems speak of grids whose rows have storage of their own. After
`extendSquare(0, filler)` both rows of the example grid are the one buffer of
line 62 and the state still has the shape of a grid; there a write of chunk 9 to
cell `(0, 0)` also changes cell `(1, 0)`, and a write of `[8, 9]` to column 0
leaves `[9, 9]` in it. -/
theorem shared_rows_break_frame :
    Shape (extendSquare demoState 0 [0]).2 ∧ ¬ Independent (extendSquare demoState 0 [0]).2 ∧
      cell (extendSquare demoState 0 [0]).2 1 0 = some [3] ∧
      cell (setRowSlice ((extendSquare demoState 0 [0]).2.withSlice [[9]]) 0 0
        ((extendSquare demoState 0 [0]).2.newSlice [[9]])).2 1 0 = some [9] ∧
      getColumnSlice (setColumnSlice ((extendSquare demoState 0 [0]).2.withSlice [[8], [9]]) 0 0
        ((extendSquare demoState 0 [0]).2.newSlice [[8], [9]])).2 0 0 2 = .ok [[9], [9]] := by
  decide

theorem Mem.buf_append_left (m : Mem) (c : List Chunk) (b : Nat) (h : b < m.length) :
    (m ++ [c]).buf b = m.buf b := by
  unfold Mem.buf
  rw [List.getElem?_append_left h]

theorem Mem.buf_append_right (m : Mem) (c : List Chunk) : (m ++ [c]).buf m.length = c := by
  unfold Mem.buf
  rw [List.getElem?_append_right (Nat.le_refl _)]
  simp

theorem splice_full (b vals : List Chunk) (h : vals.length = b.length) :
    splice b 0 vals = vals := by
  unfold splice
  rw [List.take_zero, List.nil_append, Nat.zero_add, h, List.drop_length, List.append_nil]

theorem splice_nil (b : List Chunk) (pos : Nat) : splice b pos [] = b := by
  unfold splice
  simp

theorem Mem.view_congr (m m1 : Mem) (s : Slice) (h : m1.buf s.buf = m.buf s.buf) :
    m1.view s = m.view s := by
  unfold Mem.view
  rw [h]

theorem Mem.view_whole (m : Mem) (b n : Nat) (h : (m.buf b).length = n) :
    m.view ⟨b, 0, n, n⟩ = m.buf b := by
  unfold Mem.view
  simp only [List.drop_zero]
  rw [← h, List.take_length]

/-- The built-in `copy(dst, src)` into a whole buffer of the length of `src`: afterwards
the buffer holds the elements of `src`, every other buffer is as before. -/
theorem Mem.copy_whole (m : Mem) (b n : Nat) (src : Slice) (hb : b < m.length)
    (hlen : (m.buf b).length = n) (hsrc : (m.view src).length = n) :
    (m.copy ⟨b, 0, n, n⟩ src).length = m.length ∧
      (m.copy ⟨b, 0, n, n⟩ src).buf b = m.view src ∧
      ∀ b1, b1 ≠ b → (m.copy ⟨b, 0, n, n⟩ src).buf b1 = m.buf b1 := by
  unfold Mem.copy Mem.copyVals
  dsimp only
  have htake : List.take n (m.view src) = m.view src := by
    rw [← hsrc, List.take_length]
  refine ⟨Mem.length_put _ _ _, ?_, ?_⟩
  · rw [Mem.buf_put, if_pos ⟨rfl, hb⟩, htake, splice_full _ _ (by rw [hsrc, hlen])]
  · intro b1 hne
    rw [Mem.buf_put, if_neg (fun h => hne h.1)]

theorem Mem.append_alloc (m : Mem) (s : Slice) (xs : List Chunk) (h : s.cap < s.len + xs.length) :
    m.append s xs
      = (m ++ [m.view s ++ xs], ⟨m.length, 0, s.len + xs.length, s.len + xs.length⟩) := by
  unfold Mem.append
  rw [if_neg (by omega)]

/-- The first loop of `extendSquare` when at least one filler chunk is appended: every
`append` allocates, so row `i + j` becomes a fresh array holding the old row
followed by the filler chunks, and the arrays of the old grid are not written. -/
theorem extendRows_fresh (m0 : Mem) (square : List Slice) (w : Nat) (ext : List Chunk)
    (hext : 1 ≤ ext.length)
    (hsq : ∀ t ∈ square, t.len = w ∧ t.buf < m0.length ∧
      t.off + t.len ≤ (m0.buf t.buf).length) :
    ∀ (n i : Nat) (mem : Mem) (acc : List Slice), i + n ≤ square.length →
      m0.length < mem.length → (∀ b, b < m0.length → mem.buf b = m0.buf b) →
      (mem.buf m0.length).length = w →
      ∃ mem1 rows, extendRows square ⟨m0.length, 0, w, w⟩ ext n i mem acc
          = some (mem1, acc ++ rows) ∧
        rows.length = n ∧ mem1.length = mem.length + n ∧
        (∀ b, b < mem.length → b ≠ m0.length → mem1.buf b = mem.buf b) ∧
        (mem1.buf m0.length).length = w ∧
        ∀ j, j < n → ∃ t, square[i + j]? = some t ∧
          rows[j]? = some ⟨mem.length + j, 0, w + ext.length, w + ext.length⟩ ∧
          mem1.buf (mem.length + j) = m0.view t ++ ext := by
  intro n
  induction n with
  | zero =>
    intro i mem acc _ _ _ hR
    exact ⟨mem, [], by simp [extendRows], rfl, rfl, fun _ _ _ => rfl, hR, fun j hj => by omega⟩
  | succ n ih =>
    intro i mem acc hi hlt hold hR
    have hilt : i < square.length := by omega
    have ht0 : square[i]? = some square[i] := List.getElem?_eq_getElem hilt
    generalize square[i] = t0 at ht0
    obtain ⟨ht0len, ht0buf, ht0in⟩ := hsq t0 (List.getElem?_mem ht0)
    have hview : mem.view t0 = m0.view t0 := Mem.view_congr m0 mem t0 (hold _ ht0buf)
    have hvlen : (mem.view t0).length = w := by
      rw [hview, Mem.length_view m0 t0 ht0in, ht0len]
    obtain ⟨hc1, hc2, hc3⟩ := Mem.copy_whole mem m0.length w t0 hlt hR hvlen
    simp only [extendRows, ht0]
    rw [Mem.append_alloc _ _ _ (by dsimp only; omega)]
    dsimp only
    have hrowview : (mem.copy ⟨m0.length, 0, w, w⟩ t0).view ⟨m0.length, 0, w, w⟩ = m0.view t0 := by
      rw [Mem.view_whole _ _ _ (by rw [hc2, hvlen]), hc2, hview]
    rw [hrowview, hc1]
    set mem2 := mem.copy ⟨m0.length, 0, w, w⟩ t0 ++ [m0.view t0 ++ ext] with hmem2
    have hlen2 : mem2.length = mem.length + 1 := by
      rw [hmem2, List.length_append, hc1]; rfl
    have hbuf2 : ∀ b, b < mem.length → mem2.buf b = (mem.copy ⟨m0.length, 0, w, w⟩ t0).buf b := by
      intro b hb
      rw [hmem2, Mem.buf_append_left _ _ _ (by rw [hc1]; exact hb)]
    obtain ⟨mem1, rows, h1, h2, h3, h4, h5, h6⟩ := ih (i + 1) mem2
      (acc ++ [⟨mem.length, 0, w + ext.length, w + ext.length⟩]) (by omega) (by omega)
      (by
        intro b hb
        rw [hbuf2 b (by omega), hc3 b (by omega)]
        exact hold b hb)
      (by rw [hbuf2 _ hlt, hc2, hvlen])
    refine ⟨mem1, ⟨mem.length, 0, w + ext.length, w + ext.length⟩ :: rows, ?_, ?_, ?_, ?_, h5, ?_⟩
    · rw [h1]; simp
    · simp [h2]
    · rw [h3, hlen2]; omega
    · intro b hb hne
      rw [h4 b (by omega) hne, hbuf2 b hb, hc3 b hne]
    · intro j hj
      cases j with
      | zero =>
        refine ⟨t0, by simpa using ht0, by simp, ?_⟩
        rw [Nat.add_zero, h4 _ (by omega) (by omega), hmem2]
        have := Mem.buf_append_right (mem.copy ⟨m0.length, 0, w, w⟩ t0) (m0.view t0 ++ ext)
        rw [hc1] at this
        exact this
      | succ j =>
        obtain ⟨t, ht, hr, hb⟩ := h6 j (by omega)
        refine ⟨t, ?_, ?_, ?_⟩
        · have he : i + (j + 1) = i + 1 + j := by omega
          rw [he]; exact ht
        · rw [List.getElem?_cons_succ, hr, hlen2]
          have he : mem.length + 1 + j = mem.length + (j + 1) := by omega
          rw [he]
        · have he : mem.length + (j + 1) = mem2.length + j := by omega
          rw [he]; exact hb

/-- The second loop of `extendSquare`: each new row is a fresh array holding `fillerRow`;
the arrays that exist already are not written. -/
theorem fillerRows_spec (fillerRow : List Chunk) (nw : Nat) (hfl : fillerRow.length = nw) :
    ∀ (n : Nat) (mem : Mem) (acc : List Slice),
      ∃ mem1 rows, fillerRows fillerRow nw n mem acc = (mem1, acc ++ rows) ∧
        rows.length = n ∧ mem1.length = mem.length + n ∧
        (∀ b, b < mem.length → mem1.buf b = mem.buf b) ∧
        ∀ j, j < n → rows[j]? = some ⟨mem.length + j, 0, nw, nw⟩ ∧
          mem1.buf (mem.length + j) = fillerRow := by
  intro n
  induction n with
  | zero =>
    intro mem acc
    exact ⟨mem, [], by simp [fillerRows], rfl, rfl, fun _ _ => rfl, fun j hj => by omega⟩
  | succ n ih =>
    intro mem acc
    simp only [fillerRows, Mem.make]
    set mem2 := Mem.copyVals (mem ++ [List.replicate nw []]) ⟨mem.length, 0, nw, nw⟩ fillerRow
      with hmem2
    have hlen2 : mem2.length = mem.length + 1 := by
      rw [hmem2]; unfold Mem.copyVals; rw [Mem.length_put]; simp
    have hnew : mem2.buf mem.length = fillerRow := by
      rw [hmem2]; unfold Mem.copyVals
      dsimp only
      rw [Mem.buf_put, if_pos ⟨rfl, by simp⟩, Mem.buf_append_right,
        ← hfl, List.take_length, splice_full _ _ (by simp)]
    have hold : ∀ b, b < mem.length → mem2.buf b = mem.buf b := by
      intro b hb
      rw [hmem2]; unfold Mem.copyVals
      dsimp only
      rw [Mem.buf_put, if_neg (fun h => by omega), Mem.buf_append_left _ _ _ hb]
    obtain ⟨mem1, rows, h1, h2, h3, h4, h5⟩ := ih mem2 (acc ++ [⟨mem.length, 0, nw, nw⟩])
    refine ⟨mem1, ⟨mem.length, 0, nw, nw⟩ :: rows, ?_, ?_, ?_, ?_, ?_⟩
    · rw [h1]; simp
    · simp [h2]
    · rw [h3, hlen2]; omega
    · intro b hb
      rw [h4 b (by omega), hold b hb]
    · intro j hj
      cases j with
      | zero =>
        refine ⟨by simp, ?_⟩
        rw [Nat.add_zero, h4 _ (by omega), hnew]
      | succ j =>
        obtain ⟨hr, hb⟩ := h5 j (by omega)
        refine ⟨?_, ?_⟩
        · rw [List.getElem?_cons_succ, hr, hlen2]
          have he : mem.length + 1 + j = mem.length + (j + 1) := by omega
          rw [he]
        · have he : mem.length + (j + 1) = mem2.length + j := by omega
          rw [he]; exact hb

/-- What `extendSquare` does to a well-formed grid when `k >= 1`: the rows of the new
grid, the arrays they occupy and the contents of those arrays. -/
theorem extendSquare_fresh (st : State) (k : Nat) (filler : Chunk)
    (hs : Shape st) (hk : 1 ≤ k) (hf : filler.length = st.ds.chunkSize) :
    ∃ mem1 rows, extendSquare st k filler
        = (.ok (), { mem := mem1,
                     ds := resetRoots { st.ds with square := rows,
                                                   width := st.ds.width + k } }) ∧
      rows.length = st.ds.width + k ∧ mem1.length = st.mem.length + 1 + st.ds.width + k ∧
      (∀ b, b < st.mem.length → mem1.buf b = st.mem.buf b) ∧
      (∀ r, r < st.ds.width → ∃ t, st.ds.square[r]? = some t ∧
        rows[r]? = some ⟨st.mem.length + 1 + r, 0, st.ds.width + k, st.ds.width + k⟩ ∧
        mem1.buf (st.mem.length + 1 + r) = st.mem.view t ++ List.replicate k filler) ∧
      (∀ r, st.ds.width ≤ r → r < st.ds.width + k →
        rows[r]? = some ⟨st.mem.length + 1 + r, 0, st.ds.width + k, st.ds.width + k⟩ ∧
        mem1.buf (st.mem.length + 1 + r) = List.replicate (st.ds.width + k) filler) := by
  have hsq : ∀ t ∈ st.ds.square, t.len = st.ds.width ∧ t.buf < st.mem.length ∧
      t.off + t.len ≤ (st.mem.buf t.buf).length :=
    fun t ht => ⟨(hs.2 t ht).1, (hs.2 t ht).2.2.1, (hs.2 t ht).2.2.2.1⟩
  obtain ⟨mem2, rows, h1, h2, h3, h4, _, h6⟩ :=
    extendRows_fresh st.mem st.ds.square st.ds.width (List.replicate k filler)
      (by simpa using hk) hsq st.ds.width 0 (st.mem ++ [List.replicate st.ds.width []]) []
      (by rw [hs.1]; omega) (by simp)
      (fun b hb => Mem.buf_append_left _ _ _ hb)
      (by rw [Mem.buf_append_right]; simp)
  obtain ⟨mem3, rows2, g1, g2, g3, g4, g5⟩ :=
    fillerRows_spec (List.replicate (st.ds.width + k) filler) (st.ds.width + k) (by simp)
      k mem2 ([] ++ rows)
  have hL : (st.mem ++ [List.replicate st.ds.width ([] : Chunk)]).length = st.mem.length + 1 := by
    simp
  rw [hL] at h3
  simp only [hL, List.length_replicate] at h6
  refine ⟨mem3, [] ++ rows ++ rows2, ?_, ?_, ?_, ?_, ?_, ?_⟩
  · unfold extendSquare
    rw [if_neg (by simpa using hf)]
    simp only [Mem.make, h1, g1]
  · simp [h2, g2]
  · rw [g3, h3]
  · intro b hb
    rw [g4 b (by omega), h4 b (by rw [hL]; omega) (by omega), Mem.buf_append_left _ _ _ hb]
  · intro r hr
    obtain ⟨t, ht, hrow, hbuf⟩ := h6 r hr
    rw [Nat.zero_add] at ht
    refine ⟨t, ht, ?_, ?_⟩
    · rw [List.nil_append, List.getElem?_append_left (by omega), hrow]
    · rw [g4 _ (by omega), hbuf]
  · intro r hr1 hr2
    obtain ⟨hrow, hbuf⟩ := g5 (r - st.ds.width) (by omega)
    have he : mem2.length + (r - st.ds.width) = st.mem.length + 1 + r := by omega
    rw [he] at hrow hbuf
    refine ⟨?_, hbuf⟩
    rw [List.nil_append, List.getElem?_append_right (by omega), h2, hrow]

/-- C3: on a well-formed grid of width `w`, `extendSquare(k, filler)` with `k >= 1` and a
filler chunk of length `chunkSize` succeeds; the new width is `w + k`, every
cell `(r, c)` with `r < w` and `c < w` holds the chunk it held before, and every
other cell of the new `(w+k) x (w+k)` grid is `filler`. -/
theorem extendSquare_keeps_cells_and_fills (st : State) (k : Nat) (filler : Chunk)
    (hs : Shape st) (hk : 1 ≤ k) (hf : filler.length = st.ds.chunkSize) :
    ∃ st1, extendSquare st k filler = (.ok (), st1) ∧
      st1.ds.width = st.ds.width + k ∧
      (∀ r c, r < st.ds.width → c < st.ds.width → cell st1 r c = cell st r c) ∧
      (∀ r c, r < st.ds.width + k → c < st.ds.width + k →
        (st.ds.width ≤ r ∨ st.ds.width ≤ c) → cell st1 r c = some filler) := by
  obtain ⟨mem1, rows, h1, _, _, _, h5, h6⟩ := extendSquare_fresh st k filler hs hk hf
  refine ⟨_, h1, rfl, ?_, ?_⟩
  · intro r c hr hc
    obtain ⟨t, ht, hrow, hbuf⟩ := h5 r hr
    have htok := hs.2 t (List.getElem?_mem ht)
    have hvl : (st.mem.view t).length = st.ds.width := by
      rw [Mem.length_view _ _ htok.2.2.2.1, htok.1]
    unfold cell
    simp only [resetRoots, hrow, ht, Mem.get]
    rw [if_pos (by omega), hbuf, Nat.zero_add,
      List.getElem?_append_left (by rw [hvl]; exact hc), ← Mem.get_eq_view]
    rfl
  · intro r c hr hc hout
    unfold cell
    by_cases hrw : r < st.ds.width
    · obtain ⟨t, ht, hrow, hbuf⟩ := h5 r hrw
      have htok := hs.2 t (List.getElem?_mem ht)
      have hvl : (st.mem.view t).length = st.ds.width := by
        rw [Mem.length_view _ _ htok.2.2.2.1, htok.1]
      simp only [resetRoots, hrow, Mem.get]
      rw [if_pos hc, hbuf, Nat.zero_add,
        List.getElem?_append_right (by rw [hvl]; omega), hvl,
        List.getElem?_replicate_of_lt (by omega)]
    · obtain ⟨hrow, hbuf⟩ := h6 r (by omega) hr
      simp only [resetRoots, hrow, Mem.get]
      rw [if_pos hc, hbuf, Nat.zero_add, List.getElem?_replicate_of_lt hc]

theorem extendSquare_keeps_cells_and_fills_witness :
    Shape demoState ∧ 1 ≤ 2 ∧ ([0] : Chunk).length = demoState.ds.chunkSize ∧
      ∃ st1, extendSquare demoState 2 [0] = (.ok (), st1) ∧
        st1.ds.width = demoState.ds.width + 2 ∧
        (∀ r c, r < demoState.ds.width → c < demoState.ds.width →
          cell st1 r c = cell demoState r c) ∧
        (∀ r c, r < demoState.ds.width + 2 → c < demoState.ds.width + 2 →
          (demoState.ds.width ≤ r ∨ demoState.ds.width ≤ c) → cell st1 r c = some [0]) :=
  ⟨by decide, by decide, by decide,
    extendSquare_keeps_cells_and_fills demoState 2 [0] (by decide) (by decide) (by decide)⟩

/-- When the inner loop of `newDataSquare` runs to its end, every chunk it visited has
the expected size. -/
theorem checkChunks_sound (m : Mem) (s : Slice) (cs : Nat) :
    ∀ n j, checkChunks m s cs n j = .ok () →
      ∀ q, j ≤ q → q < j + n → ∃ c, m.get s q = some c ∧ c.length = cs := by
  intro n
  induction n with
  | zero => intro j _ q h1 h2; omega
  | succ n ih =>
    intro j h q h1 h2
    simp only [checkChunks] at h
    cases hg : m.get s j with
    | none => rw [hg] at h; cases h
    | some c =>
      rw [hg] at h
      dsimp only at h
      by_cases hc : c.length ≠ cs
      · rw [if_pos hc] at h; cases h
      · rw [if_neg hc] at h
        by_cases hq : q = j
        · subst hq
          exact ⟨c, hg, by simpa using hc⟩
        · exact ih (j + 1) h q (by omega) (by omega)

/-- When the outer loop of `newDataSquare` succeeds, it has added one checked window of
`data` per row. -/
theorem fillSquare_sound (m : Mem) (data : Slice) (w cs : Nat) :
    ∀ n i acc sq, fillSquare m data w cs n i acc = .ok sq →
      ∃ rows, sq = acc ++ rows ∧ rows.length = n ∧
        ∀ q, q < n → ∃ s, rows[q]? = some s ∧
          data.reslice ((i + q) * w) ((i + q) * w + w) = some s ∧
          checkChunks m s cs w 0 = .ok () := by
  intro n
  induction n with
  | zero =>
    intro i acc sq h
    simp only [fillSquare] at h
    cases h
    exact ⟨[], by simp, rfl, fun q hq => by omega⟩
  | succ n ih =>
    intro i acc sq h
    simp only [fillSquare] at h
    cases hr : data.reslice (i * w) (i * w + w) with
    | none => rw [hr] at h; cases h
    | some s =>
      rw [hr] at h
      dsimp only at h
      cases hc : checkChunks m s cs w 0 with
      | err e => rw [hc] at h; cases h
      | panic => rw [hc] at h; cases h
      | ok u =>
        rw [hc] at h
        dsimp only at h
        obtain ⟨rows, h1, h2, h3⟩ := ih (i + 1) (acc ++ [s]) sq h
        refine ⟨s :: rows, by rw [h1]; simp, by simp [h2], ?_⟩
        intro q hq
        cases q with
        | zero => exact ⟨s, by simp, by simpa using hr, hc⟩
        | succ q =>
          obtain ⟨s1, g1, g2, g3⟩ := h3 q (by omega)
          have he : i + (q + 1) = i + 1 + q := by omega
          exact ⟨s1, by simpa using g1, by rw [he]; exact g2, g3⟩

/-- A grid returned by `newDataSquare`: its rows are the consecutive windows of the
caller's array, each checked for the chunk size. -/
theorem newDataSquare_ok_inv (data : List Chunk) (st : State)
    (h : newDataSquare data = .ok st) :
    st.mem = [data] ∧ st.ds.rowRoots = none ∧ st.ds.columnRoots = none ∧
      st.ds.square.length = st.ds.width ∧
      st.ds.width * st.ds.width = data.length ∧
      ∀ q, q < st.ds.width → ∃ s, st.ds.square[q]? = some s ∧
        s = ⟨0, q * st.ds.width, st.ds.width, data.length - q * st.ds.width⟩ ∧
        q * st.ds.width + st.ds.width ≤ data.length ∧
        ∀ c ∈ st.mem.view s, c.length = st.ds.chunkSize := by
  unfold newDataSquare at h
  dsimp only at h
  by_cases hsq : ceilSqrt data.length ^ 2 ≠ data.length
  · rw [if_pos hsq] at h; cases h
  · rw [if_neg hsq] at h
    have hsq2 : ceilSqrt data.length * ceilSqrt data.length = data.length := by
      rw [← pow_two]; simpa using hsq
    cases data with
    | nil => cases h
    | cons d0 rest =>
      dsimp only at h
      cases hf : fillSquare [d0 :: rest] ⟨0, 0, (d0 :: rest).length, (d0 :: rest).length⟩
          (ceilSqrt (d0 :: rest).length) d0.length (ceilSqrt (d0 :: rest).length) 0 [] with
      | err e => rw [hf] at h; cases h
      | panic => rw [hf] at h; cases h
      | ok sq =>
        rw [hf] at h
        dsimp only at h
        cases h
        obtain ⟨rows, h1, h2, h3⟩ := fillSquare_sound _ _ _ _ _ _ _ _ hf
        rw [List.nil_append] at h1
        subst h1
        refine ⟨rfl, rfl, rfl, h2, hsq2, ?_⟩
        intro q hq
        obtain ⟨s, g1, g2, g3⟩ := h3 q hq
        dsimp only at *
        rw [Nat.zero_add] at g2
        generalize hwd : ceilSqrt (d0 :: rest).length = w at *
        generalize hqa : q * w = a at *
        unfold Slice.reslice at g2
        by_cases hb : a ≤ a + w ∧ a + w ≤ (d0 :: rest).length
        · rw [if_pos hb] at g2
          have hs : s = ⟨0, a, w, (d0 :: rest).length - a⟩ := by
            rw [← Option.some.inj g2]
            simp
          refine ⟨s, g1, hs, hb.2, ?_⟩
          intro c hc
          obtain ⟨idx, hidx⟩ := List.mem_iff_getElem?.mp hc
          have hlt : idx < s.len := by
            have h1 := (List.getElem?_eq_some_iff.mp hidx).1
            have h2 := Mem.length_view_le [d0 :: rest] s
            omega
          rw [hs] at hlt
          obtain ⟨c1, k1, k2⟩ := checkChunks_sound _ _ _ _ _ g3 idx (Nat.zero_le _) (by simpa using hlt)
          rw [Mem.get_eq_view, hidx] at k1
          cases k1
          exact k2
        · rw [if_neg hb] at g2; cases g2

/-- A grid returned by `newDataSquare` is well formed. -/
theorem newDataSquare_shape (data : List Chunk) (st : State)
    (h : newDataSquare data = .ok st) : Shape st := by
  obtain ⟨hm, _, _, hlen, hww, hrows⟩ := newDataSquare_ok_inv data st h
  refine ⟨hlen, ?_⟩
  intro s hs
  obtain ⟨q, hq⟩ := List.mem_iff_getElem?.mp hs
  have hqlt : q < st.ds.width := by
    rw [← hlen]; exact (List.getElem?_eq_some_iff.mp hq).1
  obtain ⟨s1, g1, g2, g3, g4⟩ := hrows q hqlt
  rw [hq] at g1
  cases g1
  generalize q * st.ds.width = a at *
  subst g2
  refine ⟨rfl, ?_, ?_, ?_, g4⟩
  · dsimp only; omega
  · rw [hm]; simp
  · rw [hm]; simp only [Mem.buf]; simp; omega

/-- The rows of a grid returned by `newDataSquare` have storage of their own. -/
theorem newDataSquare_independent (data : List Chunk) (st : State)
    (h : newDataSquare data = .ok st) : Independent st := by
  obtain ⟨_, _, _, hlen, _, hrows⟩ := newDataSquare_ok_inv data st h
  unfold Independent
  rw [List.pairwise_iff_getElem]
  intro i j hi hj hij
  obtain ⟨s1, g1, g2, _, _⟩ := hrows i (by omega)
  obtain ⟨s2, k1, k2, _, _⟩ := hrows j (by omega)
  rw [List.getElem?_eq_getElem hi] at g1
  rw [List.getElem?_eq_getElem hj] at k1
  cases g1
  cases k1
  rw [g2, k2]
  unfold Slice.Disjoint
  right; left
  dsimp only
  have : (i + 1) * st.ds.width ≤ j * st.ds.width := Nat.mul_le_mul_right _ (by omega)
  rw [Nat.add_mul] at this
  omega

theorem any_wrong_size_eq_false {chunks : List Chunk} {cs : Nat}
    (h : ¬ chunks.any (fun c => decide (c.length ≠ cs)) = true) :
    ∀ c ∈ chunks, c.length = cs := by
  intro c hc
  by_contra hne
  exact h (any_wrong_size_true chunks cs ⟨c, hc, hne⟩)

theorem Mem.append_nil (m : Mem) (s : Slice) (h : s.len ≤ s.cap) :
    m.append s [] = (m.put s.buf (m.buf s.buf), s) := by
  unfold Mem.append
  rw [if_pos (by simpa using h), splice_nil]
  cases s
  simp

theorem Mem.buf_put_self (m : Mem) (b b1 : Nat) : (m.put b (m.buf b)).buf b1 = m.buf b1 := by
  rw [Mem.buf_put]
  by_cases h : b1 = b ∧ b < m.length
  · rw [if_pos h, h.1]
  · rw [if_neg h]

/-- The first loop of `extendSquare` when no filler chunk is appended: `append` returns
the buffer `row` itself, so every new row is that one buffer, which holds the
grid row copied last. -/
theorem extendRows_shared (m0 : Mem) (square : List Slice) (w : Nat)
    (hsq : ∀ t ∈ square, t.len = w ∧ t.buf < m0.length ∧
      t.off + t.len ≤ (m0.buf t.buf).length) :
    ∀ (n i : Nat) (mem : Mem) (acc : List Slice), i + n ≤ square.length →
      m0.length < mem.length → (∀ b, b < m0.length → mem.buf b = m0.buf b) →
      (mem.buf m0.length).length = w →
      ∃ mem1, extendRows square ⟨m0.length, 0, w, w⟩ [] n i mem acc
          = some (mem1, acc ++ List.replicate n ⟨m0.length, 0, w, w⟩) ∧
        mem1.length = mem.length ∧
        (∀ b, b ≠ m0.length → mem1.buf b = mem.buf b) ∧
        (n = 0 → ∀ b, mem1.buf b = mem.buf b) ∧
        (mem1.buf m0.length).length = w ∧
        ∀ t, 0 < n → square[i + n - 1]? = some t → mem1.buf m0.length = m0.view t := by
  intro n
  induction n with
  | zero =>
    intro i mem acc _ _ _ hR
    exact ⟨mem, by simp [extendRows], rfl, fun _ _ => rfl, fun _ _ => rfl, hR,
      fun t h => by omega⟩
  | succ n ih =>
    intro i mem acc hi hlt hold hR
    have hilt : i < square.length := by omega
    have ht0 : square[i]? = some square[i] := List.getElem?_eq_getElem hilt
    generalize square[i] = t0 at ht0
    obtain ⟨ht0len, ht0buf, ht0in⟩ := hsq t0 (List.getElem?_mem ht0)
    have hview : mem.view t0 = m0.view t0 := Mem.view_congr m0 mem t0 (hold _ ht0buf)
    have hvlen : (mem.view t0).length = w := by
      rw [hview, Mem.length_view m0 t0 ht0in, ht0len]
    obtain ⟨hc1, hc2, hc3⟩ := Mem.copy_whole mem m0.length w t0 hlt hR hvlen
    simp only [extendRows, ht0]
    rw [Mem.append_nil _ _ (Nat.le_refl _)]
    dsimp only
    set mem2 := (mem.copy ⟨m0.length, 0, w, w⟩ t0).put m0.length
      ((mem.copy ⟨m0.length, 0, w, w⟩ t0).buf m0.length) with hmem2
    have hbuf2 : ∀ b, mem2.buf b = (mem.copy ⟨m0.length, 0, w, w⟩ t0).buf b := by
      intro b; rw [hmem2, Mem.buf_put_self]
    have hlen2 : mem2.length = mem.length := by rw [hmem2, Mem.length_put, hc1]
    obtain ⟨mem1, h1, h2, h3, h4, h5, h6⟩ := ih (i + 1) mem2
      (acc ++ [⟨m0.length, 0, w, w⟩]) (by omega) (by omega)
      (by
        intro b hb
        rw [hbuf2 b, hc3 b (by omega)]
        exact hold b hb)
      (by rw [hbuf2, hc2, hvlen])
    refine ⟨mem1, ?_, by rw [h2, hlen2], ?_, fun h => by omega, h5, ?_⟩
    · rw [h1, List.replicate_succ]; simp
    · intro b hne
      rw [h3 b hne, hbuf2, hc3 b hne]
    · intro t _ ht
      by_cases hn : n = 0
      · subst hn
        have he : i + (0 + 1) - 1 = i := by omega
        rw [he, ht0] at ht
        cases ht
        rw [h4 rfl, hbuf2, hc2, hview]
      · apply h6 t (by omega)
        have he : i + 1 + n - 1 = i + (n + 1) - 1 := by omega
        rw [he]; exact ht

/-- What `extendSquare` does to a well-formed grid when `k = 0`: every row of the new
grid is the one buffer allocated before the loop, which ends up holding the
last row of the old grid. -/
theorem extendSquare_shared (st : State) (filler : Chunk)
    (hs : Shape st) (hf : filler.length = st.ds.chunkSize) :
    ∃ mem1, extendSquare st 0 filler
        = (.ok (), { mem := mem1,
                     ds := resetRoots { st.ds with
                       square := List.replicate st.ds.width ⟨st.mem.length, 0, st.ds.width, st.ds.width⟩,
                       width := st.ds.width + 0 } }) ∧
      mem1.length = st.mem.length + 1 ∧
      (∀ b, b < st.mem.length → mem1.buf b = st.mem.buf b) ∧
      (mem1.buf st.mem.length).length = st.ds.width ∧
      ∀ t, 0 < st.ds.width → st.ds.square[st.ds.width - 1]? = some t →
        mem1.buf st.mem.length = st.mem.view t := by
  have hsq : ∀ t ∈ st.ds.square, t.len = st.ds.width ∧ t.buf < st.mem.length ∧
      t.off + t.len ≤ (st.mem.buf t.buf).length :=
    fun t ht => ⟨(hs.2 t ht).1, (hs.2 t ht).2.2.1, (hs.2 t ht).2.2.2.1⟩
  obtain ⟨mem2, h1, h2, h3, _, h5, h6⟩ :=
    extendRows_shared st.mem st.ds.square st.ds.width hsq st.ds.width 0
      (st.mem ++ [List.replicate st.ds.width []]) []
      (by rw [hs.1]; omega) (by simp)
      (fun b hb => Mem.buf_append_left _ _ _ hb)
      (by rw [Mem.buf_append_right]; simp)
  refine ⟨mem2, ?_, by rw [h2]; simp, ?_, h5, ?_⟩
  · unfold extendSquare
    rw [if_neg (by simpa using hf)]
    simp only [Mem.make, List.replicate_zero, h1, fillerRows, List.nil_append]
  · intro b hb
    rw [h3 b (by omega), Mem.buf_append_left _ _ _ hb]
  · intro t hw ht
    apply h6 t hw
    rw [Nat.zero_add]; exact ht

/-- A successful `extendSquare` had a filler chunk of the grid's chunk size. -/
theorem extendSquare_ok_filler (st : State) (k : Nat) (filler : Chunk) (st1 : State)
    (h : extendSquare st k filler = (.ok (), st1)) : filler.length = st.ds.chunkSize := by
  by_contra hne
  unfold extendSquare at h
  rw [if_pos hne] at h
  simp only [Prod.mk.injEq] at h
  cases h.1

/-- A successful `extendSquare` keeps the grid well formed, for every width added
(zero included). -/
theorem extendSquare_shape (st : State) (k : Nat) (filler : Chunk) (st1 : State)
    (hs : Shape st) (h : extendSquare st k filler = (.ok (), st1)) : Shape st1 := by
  have hf := extendSquare_ok_filler st k filler st1 h
  rcases Nat.eq_zero_or_pos k with hk | hk
  · subst hk
    obtain ⟨mem1, h1, h2, h3, h4, h5⟩ := extendSquare_shared st filler hs hf
    rw [h1] at h
    simp only [Prod.mk.injEq, true_and] at h
    subst h
    refine ⟨by simp [resetRoots], ?_⟩
    intro s hsm
    simp only [resetRoots] at hsm
    obtain ⟨hpos, rfl⟩ := List.mem_replicate.mp hsm
    have hw : 0 < st.ds.width := Nat.pos_of_ne_zero hpos
    obtain ⟨t, ht, htok⟩ := hs.row (show st.ds.width - 1 < st.ds.width by omega)
    refine ⟨rfl, Nat.le_refl _, by dsimp only; omega, by dsimp only; omega, ?_⟩
    intro c hc
    rw [Mem.view_whole _ _ _ h4, h5 t hw ht] at hc
    exact htok.2.2.2.2 c hc
  · obtain ⟨mem1, rows, h1, h2, h3, h4, h5, h6⟩ := extendSquare_fresh st k filler hs hk hf
    rw [h1] at h
    simp only [Prod.mk.injEq, true_and] at h
    subst h
    refine ⟨by simp [resetRoots, h2], ?_⟩
    intro s hsm
    simp only [resetRoots] at hsm
    obtain ⟨r, hr⟩ := List.mem_iff_getElem?.mp hsm
    have hrlt : r < st.ds.width + k := by
      rw [← h2]; exact (List.getElem?_eq_some_iff.mp hr).1
    by_cases hrw : r < st.ds.width
    · obtain ⟨t, ht, hrow, hbuf⟩ := h5 r hrw
      have htok := hs.2 t (List.getElem?_mem ht)
      have hvl : (st.mem.view t).length = st.ds.width := by
        rw [Mem.length_view _ _ htok.2.2.2.1, htok.1]
      rw [hr] at hrow
      cases hrow
      have hbl : (mem1.buf (st.mem.length + 1 + r)).length = st.ds.width + k := by
        rw [hbuf]; simp [hvl]
      refine ⟨rfl, Nat.le_refl _, by dsimp only; omega, by dsimp only; omega, ?_⟩
      intro c hc
      simp only [resetRoots] at hc
      rw [Mem.view_whole _ _ _ hbl, hbuf, List.mem_append] at hc
      rcases hc with hc | hc
      · exact htok.2.2.2.2 c hc
      · rw [(List.mem_replicate.mp hc).2]; exact hf
    · obtain ⟨hrow, hbuf⟩ := h6 r (by omega) hrlt
      rw [hr] at hrow
      cases hrow
      have hbl : (mem1.buf (st.mem.length + 1 + r)).length = st.ds.width + k := by
        rw [hbuf]; simp
      refine ⟨rfl, Nat.le_refl _, by dsimp only; omega, by dsimp only; omega, ?_⟩
      intro c hc
      simp only [resetRoots] at hc
      rw [Mem.view_whole _ _ _ hbl, hbuf] at hc
      rw [(List.mem_replicate.mp hc).2]; exact hf

/-- After `extendSquare` with `k >= 1` every row is an array of its own. -/
theorem extendSquare_independent (st : State) (k : Nat) (filler : Chunk) (st1 : State)
    (hs : Shape st) (hk : 1 ≤ k) (h : extendSquare st k filler = (.ok (), st1)) :
    Independent st1 := by
  have hf := extendSquare_ok_filler st k filler st1 h
  obtain ⟨mem1, rows, h1, h2, h3, h4, h5, h6⟩ := extendSquare_fresh st k filler hs hk hf
  rw [h1] at h
  simp only [Prod.mk.injEq, true_and] at h
  subst h
  have hrow : ∀ r, r < st.ds.width + k →
      rows[r]? = some ⟨st.mem.length + 1 + r, 0, st.ds.width + k, st.ds.width + k⟩ := by
    intro r hr
    by_cases hrw : r < st.ds.width
    · obtain ⟨t, _, hrow, _⟩ := h5 r hrw
      exact hrow
    · exact (h6 r (by omega) hr).1
  unfold Independent
  simp only [resetRoots]
  rw [List.pairwise_iff_getElem]
  intro i j hi hj hij
  have g1 := hrow i (by omega)
  have g2 := hrow j (by omega)
  rw [List.getElem?_eq_getElem hi] at g1
  rw [List.getElem?_eq_getElem hj] at g2
  rw [Option.some.inj g1, Option.some.inj g2]
  unfold Slice.Disjoint
  left
  dsimp only
  omega

/-- In a well-formed grid every cell inside the grid holds a chunk. -/
theorem shape_cell {st : State} (hs : Shape st) {r c : Nat} (hr : r < st.ds.width)
    (hc : c < st.ds.width) :
    ∃ t ch, st.ds.square[r]? = some t ∧ st.mem.get t c = some ch := by
  obtain ⟨t, ht, htok⟩ := hs.row hr
  have hvl : (st.mem.view t).length = st.ds.width := by
    rw [Mem.length_view _ _ htok.2.2.2.1, htok.1]
  have hlt : c < (st.mem.view t).length := by rw [hvl]; exact hc
  refine ⟨t, (st.mem.view t)[c], ht, ?_⟩
  rw [Mem.get_eq_view, List.getElem?_eq_getElem hlt]

/-- In a well-formed grid `getRow(i)` is the whole of row slice `i`. -/
theorem shape_getRow {st : State} (hs : Shape st) {i : Nat} (hi : i < st.ds.width) :
    ∃ t s, st.ds.square[i]? = some t ∧ getRow st i = .ok s ∧
      st.mem.view s = st.mem.view t ∧ (st.mem.view s).length = st.ds.width := by
  obtain ⟨t, ht, htok⟩ := hs.row hi
  have hvl : (st.mem.view t).length = st.ds.width := by
    rw [Mem.length_view _ _ htok.2.2.2.1, htok.1]
  have hv : st.mem.view ⟨t.buf, t.off + 0, 0 + st.ds.width - 0, t.cap - 0⟩ = st.mem.view t := by
    unfold Mem.view
    simp [htok.1]
  refine ⟨t, ⟨t.buf, t.off + 0, 0 + st.ds.width - 0, t.cap - 0⟩, ht, ?_, hv, by rw [hv, hvl]⟩
  unfold Rsmt2d.getRow getRowSlice
  simp only [ht, Slice.reslice]
  rw [if_pos ⟨by omega, by have := htok.1; have := htok.2.1; omega⟩]

/-- The read loop of `getColumnSlice` over rows that exist and are long enough returns
one chunk per row. -/
theorem columnReads_total (mem : Mem) (square : List Slice) (x y : Nat) :
    ∀ (n i : Nat) (acc : List Chunk),
      (∀ q, q < n → ∃ t c, square[x + i + q]? = some t ∧ mem.get t y = some c) →
      ∃ vals, columnReads mem square x y n i acc = .ok (acc ++ vals) ∧ vals.length = n ∧
        ∀ q, q < n → ∃ t, square[x + i + q]? = some t ∧ mem.get t y = vals[q]? := by
  intro n
  induction n with
  | zero =>
    intro i acc _
    exact ⟨[], by simp [columnReads], rfl, fun q hq => by omega⟩
  | succ n ih =>
    intro i acc h
    obtain ⟨t, c, ht, hg⟩ := h 0 (by omega)
    rw [Nat.add_zero] at ht
    obtain ⟨vals, h1, h2, h3⟩ := ih (i + 1) (acc ++ [c]) (by
      intro q hq
      obtain ⟨t1, c1, g1, g2⟩ := h (q + 1) (by omega)
      have he : x + i + (q + 1) = x + (i + 1) + q := by omega
      rw [he] at g1
      exact ⟨t1, c1, g1, g2⟩)
    refine ⟨c :: vals, ?_, by simp [h2], ?_⟩
    · simp only [columnReads, ht, hg, h1]
      simp
    · intro q hq
      cases q with
      | zero => exact ⟨t, by rw [Nat.add_zero]; exact ht, by simpa using hg⟩
      | succ q =>
        obtain ⟨t1, g1, g2⟩ := h3 q (by omega)
        have he : x + i + (q + 1) = x + (i + 1) + q := by omega
        exact ⟨t1, by rw [he]; exact g1, by simpa using g2⟩

/-- In a well-formed grid `getColumn(j)` returns the `width` cells of column `j`, top
to bottom. -/
theorem shape_getColumn {st : State} (hs : Shape st) {j : Nat} (hj : j < st.ds.width) :
    ∃ col, getColumn st j = .ok col ∧ col.length = st.ds.width ∧
      ∀ r, r < st.ds.width → cell st r j = col[r]? := by
  obtain ⟨vals, h1, h2, h3⟩ := columnReads_total st.mem st.ds.square 0 j st.ds.width 0 []
    (by
      intro q hq
      have he : 0 + 0 + q = q := by omega
      rw [he]
      exact shape_cell hs hq hj)
  refine ⟨vals, by unfold Rsmt2d.getColumn getColumnSlice; rw [h1]; simp, h2, ?_⟩
  intro r hr
  obtain ⟨t, g1, g2⟩ := h3 r hr
  have he : 0 + 0 + r = r := by omega
  rw [he] at g1
  unfold cell
  simp only [g1, g2]

/-- The inner loop of `computeRoots` pushes the row and the column in order. -/
theorem pushBoth_ok (mem : Mem) (rowData : Slice) (columnData : List Chunk) :
    ∀ (rs cs : List Chunk) (j : Nat) (rt ct : Tree), rs.length = cs.length →
      (∀ q, q < rs.length → mem.get rowData (j + q) = rs[q]? ∧ columnData[j + q]? = cs[q]?) →
      pushBoth mem rowData columnData rs.length j rt ct
        = some (⟨rt.leaves ++ rs, rt.proofIndex⟩, ⟨ct.leaves ++ cs, ct.proofIndex⟩) := by
  intro rs
  induction rs with
  | nil =>
    intro cs j rt ct hl _
    cases cs with
    | nil => simp [pushBoth]
    | cons c cs => simp at hl
  | cons r rs ih =>
    intro cs j rt ct hl h
    cases cs with
    | nil => simp at hl
    | cons c cs =>
      obtain ⟨g1, g2⟩ := h 0 (by simp)
      rw [Nat.add_zero] at g1 g2
      simp only [List.length_cons, pushBoth, g1, g2, List.getElem?_cons_zero]
      rw [ih cs (j + 1) (rt.Push r) (ct.Push c) (by simpa using hl)]
      · simp [Tree.Push]
      · intro q hq
        obtain ⟨k1, k2⟩ := h (q + 1) (by simpa using hq)
        have he : j + (q + 1) = j + 1 + q := by omega
        rw [he] at k1 k2
        exact ⟨by simpa using k1, by simpa using k2⟩

/-- The loop of `computeRoots` on a well-formed grid: it ends normally and appends, for
each index, the Merkle root of the current row and of the current column. -/
theorem rootsLoop_ok (H : Hasher) (st : State) (hs : Shape st) :
    ∀ (n i : Nat) (rr cr : List Digest), i + n ≤ st.ds.width →
      ∃ rr1 cr1, rootsLoop H st n i rr cr = some (rr ++ rr1, cr ++ cr1) ∧
        rr1.length = n ∧ cr1.length = n ∧
        ∀ q, q < n → rr1[q]? = rowRootAt H st (i + q) ∧
          cr1[q]? = columnRootAt H st (i + q) := by
  intro n
  induction n with
  | zero =>
    intro i rr cr _
    exact ⟨[], [], by simp [rootsLoop], rfl, rfl, fun q hq => by omega⟩
  | succ n ih =>
    intro i rr cr hi
    obtain ⟨t, s, _, hrow, _, hvl⟩ := shape_getRow hs (show i < st.ds.width by omega)
    obtain ⟨col, hcol, hcl, _⟩ := shape_getColumn hs (show i < st.ds.width by omega)
    have hpush := pushBoth_ok st.mem s col (st.mem.view s) col 0 Tree.New Tree.New
      (by rw [hvl, hcl])
      (by
        intro q _
        rw [Nat.zero_add]
        exact ⟨Mem.get_eq_view _ _ _, rfl⟩)
    rw [hvl] at hpush
    obtain ⟨rr1, cr1, h1, h2, h3, h4⟩ := ih (i + 1)
      (rr ++ [Merkle.Root H (st.mem.view s)]) (cr ++ [Merkle.Root H col]) (by omega)
    refine ⟨Merkle.Root H (st.mem.view s) :: rr1, Merkle.Root H col :: cr1, ?_,
      by simp [h2], by simp [h3], ?_⟩
    · simp only [rootsLoop, hrow, hcol, hpush]
      simp only [Tree.Root, Tree.New, List.nil_append, h1]
      simp
    · intro q hq
      cases q with
      | zero =>
        simp only [Nat.add_zero, List.getElem?_cons_zero, rowRootAt, columnRootAt, hrow, hcol]
        exact ⟨trivial, trivial⟩
      | succ q =>
        have he : i + (q + 1) = i + 1 + q := by omega
        rw [he]
        simpa using h4 q (by omega)

/-- The method `computeRoots` on a well-formed grid: it ends normally and both caches hold the
roots of the current rows and columns. -/
theorem computeRoots_ok (H : Hasher) (st : State) (hs : Shape st) :
    ∃ rr cr, computeRoots H st
        = (.ok (), { st with ds := { st.ds with rowRoots := some rr, columnRoots := some cr } }) ∧
      RootsOf st.ds.width (rowRootAt H st) rr ∧
      RootsOf st.ds.width (columnRootAt H st) cr := by
  obtain ⟨rr, cr, h1, h2, h3, h4⟩ := rootsLoop_ok H st hs st.ds.width 0 [] [] (by omega)
  refine ⟨rr, cr, ?_, ⟨h2, ?_⟩, ⟨h3, ?_⟩⟩
  · unfold computeRoots
    rw [h1]
    simp
  · intro i hi
    have := (h4 i hi).1
    rw [Nat.zero_add] at this
    exact this
  · intro i hi
    have := (h4 i hi).2
    rw [Nat.zero_add] at this
    exact this

/-- A successful `extendSquare` leaves both root caches absent. -/
theorem extendSquare_ok_caches (st : State) (k : Nat) (filler : Chunk) (st1 : State)
    (h : extendSquare st k filler = (.ok (), st1)) :
    st1.ds.rowRoots = none ∧ st1.ds.columnRoots = none := by
  unfold extendSquare at h
  by_cases hne : filler.length ≠ st.ds.chunkSize
  · rw [if_pos hne] at h
    simp only [Prod.mk.injEq] at h
    cases h.1
  · rw [if_neg hne] at h
    dsimp only at h
    cases he : extendRows st.ds.square (st.mem.make st.ds.width).2
        (List.replicate k filler) st.ds.width 0 (st.mem.make st.ds.width).1 [] with
    | none =>
      rw [he] at h
      simp only [Prod.mk.injEq] at h
      cases h.1
    | some p =>
      rw [he] at h
      obtain ⟨mem2, rows⟩ := p
      simp only [Prod.mk.injEq, true_and] at h
      rw [← h]
      exact ⟨rfl, rfl⟩

/-- A grid without caches satisfies the cache invariant. -/
theorem coherent_of_none (H : Hasher) (st : State) (h1 : st.ds.rowRoots = none)
    (h2 : st.ds.columnRoots = none) : Coherent H st := by
  constructor
  · intro r hr; rw [h1] at hr; cases hr
  · intro r hr; rw [h2] at hr; cases hr

/-- A successful `RowRoots` or `ColumnRoots` call on a well-formed, coherent grid leaves a
well-formed, coherent grid: either the grid itself or the grid with both caches
freshly computed. -/
theorem roots_call_inv (H : Hasher) (st : State) (hs : Shape st) (hc : Coherent H st)
    (st1 : State)
    (h : (∃ r, RowRoots H st = (.ok r, st1)) ∨ (∃ r, ColumnRoots H st = (.ok r, st1))) :
    Shape st1 ∧ Coherent H st1 := by
  obtain ⟨rr, cr, h1, h2, h3⟩ := computeRoots_ok H st hs
  have hnew : Shape { st with ds := { st.ds with rowRoots := some rr, columnRoots := some cr } } ∧
      Coherent H { st with ds := { st.ds with rowRoots := some rr, columnRoots := some cr } } := by
    refine ⟨hs, ?_, ?_⟩
    · intro r hr
      cases hr
      exact h2
    · intro r hr
      cases hr
      exact h3
  rcases h with ⟨r, h⟩ | ⟨r, h⟩
  · unfold RowRoots at h
    cases hrr : st.ds.rowRoots with
    | some r0 =>
      rw [hrr] at h
      simp only [Prod.mk.injEq] at h
      rw [← h.2]
      exact ⟨hs, hc⟩
    | none =>
      rw [hrr, h1] at h
      simp only [Prod.mk.injEq] at h
      rw [← h.2]
      exact hnew
  · unfold ColumnRoots at h
    cases hrr : st.ds.columnRoots with
    | some r0 =>
      rw [hrr] at h
      simp only [Prod.mk.injEq] at h
      rw [← h.2]
      exact ⟨hs, hc⟩
    | none =>
      rw [hrr, h1] at h
      simp only [Prod.mk.injEq] at h
      rw [← h.2]
      exact hnew

/-- The element `t[j]` after the assignment `s[i] = v`. -/
theorem Mem.get_assign (m : Mem) (s : Slice) (i : Nat) (v : Chunk) (t : Slice) (j : Nat) :
    (m.put s.buf ((m.buf s.buf).set (s.off + i) v)).get t j
      = if j < t.len ∧ t.buf = s.buf ∧ t.off + j = s.off + i ∧
            s.off + i < (m.buf s.buf).length then some v
        else m.get t j := by
  have hiff : (t.buf = s.buf ∧ t.off + j = s.off + i ∧ t.off + j < (m.buf s.buf).length) ↔
      (t.buf = s.buf ∧ t.off + j = s.off + i ∧ s.off + i < (m.buf s.buf).length) := by
    constructor <;> rintro ⟨h1, h2, h3⟩ <;> exact ⟨h1, h2, by omega⟩
  by_cases hj : j < t.len
  · simp only [Mem.get, hj, if_true, true_and, Mem.at_assign, hiff]
  · simp only [Mem.get, hj, if_false, false_and]

/-- Whatever way the write loop of `setRowSlice` ends, and whatever the argument shares
with the grid, it keeps the sizes of all backing arrays and every element is
either as before or a chunk of the size all elements of the argument have. -/
theorem rowWrites_frame (square : List Slice) (x y : Nat) (newRow : Slice) (cs : Nat) :
    ∀ (n i : Nat) (m : Mem) (r : Res Unit) (m1 : Mem),
      (∀ j c, m.get newRow j = some c → c.length = cs) →
      rowWrites square x y newRow n i m = (r, m1) →
      m1.length = m.length ∧ (∀ b, (m1.buf b).length = (m.buf b).length) ∧
        ∀ (b p : Nat), (m1.buf b)[p]? = (m.buf b)[p]? ∨
          ∃ c, c.length = cs ∧ (m1.buf b)[p]? = some c := by
  intro n
  induction n with
  | zero =>
    intro i m r m1 _ h
    simp only [rowWrites, Prod.mk.injEq] at h
    rw [← h.2]
    exact ⟨rfl, fun _ => rfl, fun _ _ => Or.inl rfl⟩
  | succ n ih =>
    intro i m r m1 hsz h
    simp only [rowWrites] at h
    cases hrow : square[x]? with
    | none =>
      rw [hrow] at h
      simp only [Prod.mk.injEq] at h
      rw [← h.2]
      exact ⟨rfl, fun _ => rfl, fun _ _ => Or.inl rfl⟩
    | some row =>
      rw [hrow] at h
      dsimp only at h
      cases hg : m.get newRow i with
      | none =>
        rw [hg] at h
        simp only [Prod.mk.injEq] at h
        rw [← h.2]
        exact ⟨rfl, fun _ => rfl, fun _ _ => Or.inl rfl⟩
      | some c =>
        rw [hg] at h
        dsimp only at h
        have hc : c.length = cs := hsz i c hg
        cases ha : m.assign row (y + i) c with
        | none =>
          rw [ha] at h
          simp only [Prod.mk.injEq] at h
          rw [← h.2]
          exact ⟨rfl, fun _ => rfl, fun _ _ => Or.inl rfl⟩
        | some m2 =>
          rw [ha] at h
          dsimp only at h
          obtain ⟨_, hm2⟩ := Mem.assign_eq_some ha
          subst hm2
          obtain ⟨h1, h2, h3⟩ := ih (i + 1) _ r m1
            (by
              intro j c1 hj
              rw [Mem.get_assign] at hj
              split at hj
              · cases hj; exact hc
              · exact hsz j c1 hj)
            h
          refine ⟨by rw [h1, Mem.length_put], fun b => by rw [h2, Mem.length_buf_assign], ?_⟩
          intro b p
          rcases h3 b p with h4 | ⟨c1, hc1, h4⟩
          · rw [h4, Mem.at_assign]
            by_cases hcond : b = row.buf ∧ p = row.off + (y + i) ∧ p < (m.buf row.buf).length
            · rw [if_pos hcond]
              exact Or.inr ⟨c, hc, rfl⟩
            · rw [if_neg hcond]
              exact Or.inl rfl
          · exact Or.inr ⟨c1, hc1, h4⟩

/-- Whatever way the write loop of `setColumnSlice` ends, and whatever the argument
shares with the grid, it keeps the sizes of all backing arrays and every element
is either as before or a chunk of the size all elements of the argument have. -/
theorem columnWrites_frame (square : List Slice) (x y : Nat) (newColumn : Slice) (cs : Nat) :
    ∀ (n i : Nat) (m : Mem) (r : Res Unit) (m1 : Mem),
      (∀ j c, m.get newColumn j = some c → c.length = cs) →
      columnWrites square x y newColumn n i m = (r, m1) →
      m1.length = m.length ∧ (∀ b, (m1.buf b).length = (m.buf b).length) ∧
        ∀ (b p : Nat), (m1.buf b)[p]? = (m.buf b)[p]? ∨
          ∃ c, c.length = cs ∧ (m1.buf b)[p]? = some c := by
  intro n
  induction n with
  | zero =>
    intro i m r m1 _ h
    simp only [columnWrites, Prod.mk.injEq] at h
    rw [← h.2]
    exact ⟨rfl, fun _ => rfl, fun _ _ => Or.inl rfl⟩
  | succ n ih =>
    intro i m r m1 hsz h
    simp only [columnWrites] at h
    cases hrow : square[x + i]? with
    | none =>
      rw [hrow] at h
      simp only [Prod.mk.injEq] at h
      rw [← h.2]
      exact ⟨rfl, fun _ => rfl, fun _ _ => Or.inl rfl⟩
    | some row =>
      rw [hrow] at h
      dsimp only at h
      cases hg : m.get newColumn i with
      | none =>
        rw [hg] at h
        simp only [Prod.mk.injEq] at h
        rw [← h.2]
        exact ⟨rfl, fun _ => rfl, fun _ _ => Or.inl rfl⟩
      | some c =>
        rw [hg] at h
        dsimp only at h
        have hc : c.length = cs := hsz i c hg
        cases ha : m.assign row y c with
        | none =>
          rw [ha] at h
          simp only [Prod.mk.injEq] at h
          rw [← h.2]
          exact ⟨rfl, fun _ => rfl, fun _ _ => Or.inl rfl⟩
        | some m2 =>
          rw [ha] at h
          dsimp only at h
          obtain ⟨_, hm2⟩ := Mem.assign_eq_some ha
          subst hm2
          obtain ⟨h1, h2, h3⟩ := ih (i + 1) _ r m1
            (by
              intro j c1 hj
              rw [Mem.get_assign] at hj
              split at hj
              · cases hj; exact hc
              · exact hsz j c1 hj)
            h
          refine ⟨by rw [h1, Mem.length_put], fun b => by rw [h2, Mem.length_buf_assign], ?_⟩
          intro b p
          rcases h3 b p with h4 | ⟨c1, hc1, h4⟩
          · rw [h4, Mem.at_assign]
            by_cases hcond : b = row.buf ∧ p = row.off + y ∧ p < (m.buf row.buf).length
            · rw [if_pos hcond]
              exact Or.inr ⟨c, hc, rfl⟩
            · rw [if_neg hcond]
              exact Or.inl rfl
          · exact Or.inr ⟨c1, hc1, h4⟩

/-- Writes that keep the sizes of the backing arrays and store only chunks of the grid's
chunk size keep the grid well formed. -/
theorem Shape.of_sized_frame {st : State} (hs : Shape st) (m1 : Mem)
    (hl : m1.length = st.mem.length)
    (hbl : ∀ b, (m1.buf b).length = (st.mem.buf b).length)
    (hfr : ∀ (b p : Nat), (m1.buf b)[p]? = (st.mem.buf b)[p]? ∨
      ∃ c, c.length = st.ds.chunkSize ∧ (m1.buf b)[p]? = some c) :
    Shape { mem := m1, ds := resetRoots st.ds } := by
  refine ⟨hs.1, ?_⟩
  intro t ht
  obtain ⟨h1, h2, h3, h4, h5⟩ := hs.2 t ht
  refine ⟨h1, h2, by rw [hl]; exact h3, by rw [hbl]; exact h4, ?_⟩
  intro c hc
  obtain ⟨idx, hidx⟩ := List.mem_iff_getElem?.mp hc
  rw [Mem.view_getElem?] at hidx
  by_cases hlt : idx < t.len
  · rw [if_pos hlt] at hidx
    rcases hfr t.buf (t.off + idx) with h6 | ⟨c1, hc1, h6⟩
    · apply h5
      apply List.getElem?_mem (n := idx)
      rw [Mem.view_getElem?, if_pos hlt, ← h6, hidx]
    · rw [hidx] at h6
      cases h6
      exact hc1
  · rw [if_neg hlt] at hidx; cases hidx

theorem get_sized_of_view (m : Mem) (s : Slice) (cs : Nat)
    (h : ∀ c ∈ m.view s, c.length = cs) : ∀ j c, m.get s j = some c → c.length = cs := by
  intro j c hj
  rw [Mem.get_eq_view] at hj
  exact h c (List.getElem?_mem hj)

/-- A successful `setRowSlice`: all elements of the argument had the chunk size, the write
loop ended normally and the caches were reset. -/
theorem setRowSlice_ok_inv (st : State) (x y : Nat) (newRow : Slice) (st1 : State)
    (h : setRowSlice st x y newRow = (.ok (), st1)) :
    (∀ c ∈ st.mem.view newRow, c.length = st.ds.chunkSize) ∧
      ∃ m1, rowWrites st.ds.square x y newRow newRow.len 0 st.mem = (.ok (), m1) ∧
        st1 = { mem := m1, ds := resetRoots st.ds } := by
  unfold setRowSlice at h
  by_cases ha : (st.mem.view newRow).any (fun c => decide (c.length ≠ st.ds.chunkSize)) = true
  · rw [if_pos ha] at h
    simp only [Prod.mk.injEq] at h
    cases h.1
  · rw [if_neg ha] at h
    refine ⟨any_wrong_size_eq_false ha, ?_⟩
    cases hw : rowWrites st.ds.square x y newRow newRow.len 0 st.mem with
    | mk r m1 =>
      rw [hw] at h
      cases r with
      | ok u =>
        simp only [Prod.mk.injEq] at h
        exact ⟨m1, rfl, h.2.symm⟩
      | err e => simp only [Prod.mk.injEq] at h; cases h.1
      | panic => simp only [Prod.mk.injEq] at h; cases h.1

/-- A successful `setColumnSlice`: all elements of the argument had the chunk size, the
write loop ended normally and the caches were reset. -/
theorem setColumnSlice_ok_inv (st : State) (x y : Nat) (newColumn : Slice) (st1 : State)
    (h : setColumnSlice st x y newColumn = (.ok (), st1)) :
    (∀ c ∈ st.mem.view newColumn, c.length = st.ds.chunkSize) ∧
      ∃ m1, columnWrites st.ds.square x y newColumn newColumn.len 0 st.mem = (.ok (), m1) ∧
        st1 = { mem := m1, ds := resetRoots st.ds } := by
  unfold setColumnSlice at h
  by_cases ha :
      (st.mem.view newColumn).any (fun c => decide (c.length ≠ st.ds.chunkSize)) = true
  · rw [if_pos ha] at h
    simp only [Prod.mk.injEq] at h
    cases h.1
  · rw [if_neg ha] at h
    refine ⟨any_wrong_size_eq_false ha, ?_⟩
    cases hw : columnWrites st.ds.square x y newColumn newColumn.len 0 st.mem with
    | mk r m1 =>
      rw [hw] at h
      cases r with
      | ok u =>
        simp only [Prod.mk.injEq] at h
        exact ⟨m1, rfl, h.2.symm⟩
      | err e => simp only [Prod.mk.injEq] at h; cases h.1
      | panic => simp only [Prod.mk.injEq] at h; cases h.1

/-- A successful `setRowSlice` keeps the grid well formed, whatever its argument shares
with the grid. -/
theorem setRowSlice_shape (st : State) (x y : Nat) (newRow : Slice) (st1 : State)
    (hs : Shape st) (h : setRowSlice st x y newRow = (.ok (), st1)) : Shape st1 := by
  obtain ⟨hsz, m1, hw, rfl⟩ := setRowSlice_ok_inv st x y newRow st1 h
  obtain ⟨h1, h2, h3⟩ := rowWrites_frame _ _ _ _ st.ds.chunkSize _ _ _ _ _
    (get_sized_of_view _ _ _ hsz) hw
  exact hs.of_sized_frame m1 h1 h2 h3

/-- A successful `setColumnSlice` keeps the grid well formed, whatever its argument
shares with the grid. -/
theorem setColumnSlice_shape (st : State) (x y : Nat) (newColumn : Slice) (st1 : State)
    (hs : Shape st) (h : setColumnSlice st x y newColumn = (.ok (), st1)) : Shape st1 := by
  obtain ⟨hsz, m1, hw, rfl⟩ := setColumnSlice_ok_inv st x y newColumn st1 h
  obtain ⟨h1, h2, h3⟩ := columnWrites_frame _ _ _ _ st.ds.chunkSize _ _ _ _ _
    (get_sized_of_view _ _ _ hsz) hw
  exact hs.of_sized_frame m1 h1 h2 h3

/-- A slice of the old memory reads the same after the caller has built a new slice. -/
theorem Mem.view_append (m : Mem) (v : List Chunk) (s : Slice) (h : s.buf < m.length) :
    Mem.view (m ++ [v]) s = m.view s :=
  Mem.view_congr m (m ++ [v]) s (Mem.buf_append_left m v s.buf h)

theorem Mem.get_append (m : Mem) (v : List Chunk) (s : Slice) (i : Nat) (h : s.buf < m.length) :
    Mem.get (m ++ [v]) s i = m.get s i := by
  rw [Mem.get_eq_view, Mem.get_eq_view, Mem.view_append m v s h]

/-- The caller building a slice keeps the grid well formed. -/
theorem shape_withSlice (st : State) (vals : List Chunk) (hs : Shape st) :
    Shape (st.withSlice vals) := by
  refine ⟨hs.1, ?_⟩
  intro t ht
  obtain ⟨h1, h2, h3, h4, h5⟩ := hs.2 t ht
  refine ⟨h1, h2, ?_, ?_, ?_⟩
  · simp only [State.withSlice, List.length_append, List.length_singleton]; omega
  · simp only [State.withSlice]
    rw [Mem.buf_append_left _ _ _ h3]; exact h4
  · simp only [State.withSlice]
    rw [Mem.view_append _ _ _ h3]; exact h5

/-- The caller building a slice changes no column read of a well-formed grid. -/
theorem columnReads_append (m : Mem) (v : List Chunk) (square : List Slice) (x y : Nat)
    (hsq : ∀ t ∈ square, t.buf < m.length) :
    ∀ (n i : Nat) (acc : List Chunk),
      columnReads (m ++ [v]) square x y n i acc = columnReads m square x y n i acc := by
  intro n
  induction n with
  | zero => intro i acc; rfl
  | succ n ih =>
    intro i acc
    simp only [columnReads]
    cases hrow : square[x + i]? with
    | none => rfl
    | some row =>
      dsimp only
      rw [Mem.get_append m v row y (hsq row (List.getElem?_mem hrow))]
      cases m.get row y with
      | none => rfl
      | some c => exact ih (i + 1) (acc ++ [c])

theorem rowRootAt_withSlice (H : Hasher) (st : State) (vals : List Chunk) (hs : Shape st)
    (i : Nat) : rowRootAt H (st.withSlice vals) i = rowRootAt H st i := by
  unfold rowRootAt getRow getRowSlice
  simp only [State.withSlice]
  cases hrow : st.ds.square[i]? with
  | none => rfl
  | some t =>
    dsimp only
    cases hre : t.reslice 0 (0 + st.ds.width) with
    | none => rfl
    | some s =>
      dsimp only
      have hb : s.buf = t.buf := by
        unfold Slice.reslice at hre
        split at hre
        · cases hre; rfl
        · cases hre
      rw [Mem.view_append _ _ _ (by rw [hb]; exact (hs.2 t (List.getElem?_mem hrow)).2.2.1)]

theorem columnRootAt_withSlice (H : Hasher) (st : State) (vals : List Chunk) (hs : Shape st)
    (j : Nat) : columnRootAt H (st.withSlice vals) j = columnRootAt H st j := by
  unfold columnRootAt getColumn getColumnSlice
  simp only [State.withSlice]
  rw [columnReads_append _ _ _ _ _ (fun t ht => (hs.2 t ht).2.2.1)]

/-- The caller building a slice keeps the caches coherent. -/
theorem coherent_withSlice (H : Hasher) (st : State) (vals : List Chunk) (hs : Shape st)
    (hc : Coherent H st) : Coherent H (st.withSlice vals) := by
  constructor
  · intro r hr
    obtain ⟨h1, h2⟩ := hc.1 r hr
    exact ⟨h1, fun i hi => by rw [rowRootAt_withSlice H st vals hs i]; exact h2 i hi⟩
  · intro r hr
    obtain ⟨h1, h2⟩ := hc.2 r hr
    exact ⟨h1, fun i hi => by rw [columnRootAt_withSlice H st vals hs i]; exact h2 i hi⟩

/-- Every reachable grid is well formed and its caches, when present, hold the roots
of the current content. -/
theorem reachable_inv (H : Hasher) (st : State) (h : Reachable H st) :
    Shape st ∧ Coherent H st := by
  induction h with
  | construct data st h =>
    obtain ⟨_, h1, h2, _⟩ := newDataSquare_ok_inv data st h
    exact ⟨newDataSquare_shape data st h, coherent_of_none H st h1 h2⟩
  | callerSlice st vals _ ih =>
    exact ⟨shape_withSlice st vals ih.1, coherent_withSlice H st vals ih.1 ih.2⟩
  | setRow st x y newRow st1 _ h ih =>
    refine ⟨setRowSlice_shape st x y newRow st1 ih.1 h, ?_⟩
    obtain ⟨_, m1, _, rfl⟩ := setRowSlice_ok_inv st x y newRow st1 h
    exact coherent_of_none H _ rfl rfl
  | setColumn st x y newColumn st1 _ h ih =>
    refine ⟨setColumnSlice_shape st x y newColumn st1 ih.1 h, ?_⟩
    obtain ⟨_, m1, _, rfl⟩ := setColumnSlice_ok_inv st x y newColumn st1 h
    exact coherent_of_none H _ rfl rfl
  | extend st k filler st1 _ h ih =>
    obtain ⟨h1, h2⟩ := extendSquare_ok_caches st k filler st1 h
    exact ⟨extendSquare_shape st k filler st1 ih.1 h, coherent_of_none H st1 h1 h2⟩
  | rowRoots st r st1 _ h ih =>
    exact roots_call_inv H st ih.1 ih.2 st1 (Or.inl ⟨r, h⟩)
  | columnRoots st r st1 _ h ih =>
    exact roots_call_inv H st ih.1 ih.2 st1 (Or.inr ⟨r, h⟩)

/-- On a well-formed, coherent grid `RowRoots` returns the roots of the current rows. -/
theorem rowRoots_ok (H : Hasher) (st : State) (hs : Shape st) (hc : Coherent H st) :
    ∃ rr st1, RowRoots H st = (.ok (some rr), st1) ∧ RootsOf st.ds.width (rowRootAt H st) rr := by
  obtain ⟨rr, cr, h1, h2, _⟩ := computeRoots_ok H st hs
  unfold RowRoots
  cases hrr : st.ds.rowRoots with
  | some r0 => exact ⟨r0, st, rfl, hc.1 r0 hrr⟩
  | none =>
    rw [h1]
    exact ⟨rr, _, rfl, h2⟩

/-- On a well-formed, coherent grid `ColumnRoots` returns the roots of the current
columns. -/
theorem columnRoots_ok (H : Hasher) (st : State) (hs : Shape st) (hc : Coherent H st) :
    ∃ cr st1, ColumnRoots H st = (.ok (some cr), st1) ∧
      RootsOf st.ds.width (columnRootAt H st) cr := by
  obtain ⟨rr, cr, h1, _, h3⟩ := computeRoots_ok H st hs
  unfold ColumnRoots
  cases hrr : st.ds.columnRoots with
  | some r0 => exact ⟨r0, st, rfl, hc.2 r0 hrr⟩
  | none =>
    rw [h1]
    exact ⟨cr, _, rfl, h3⟩

theorem rowRootAt_eq (H : Hasher) (st : State) (hs : Shape st) (i : Nat) (hi : i < st.ds.width) :
    ∃ s, getRow st i = .ok s ∧ rowRootAt H st i = some (Merkle.Root H (st.mem.view s)) := by
  obtain ⟨t, s, _, hrow, _, _⟩ := shape_getRow hs hi
  exact ⟨s, hrow, by simp only [rowRootAt, hrow]⟩

theorem columnRootAt_eq (H : Hasher) (st : State) (hs : Shape st) (j : Nat)
    (hj : j < st.ds.width) :
    ∃ col, getColumn st j = .ok col ∧ columnRootAt H st j = some (Merkle.Root H col) := by
  obtain ⟨col, hcol, _, _⟩ := shape_getColumn hs hj
  exact ⟨col, hcol, by simp only [columnRootAt, hcol]⟩

/-- C4: in every grid state reached from a successful `newDataSquare` by successful
`setRowSlice`, `setColumnSlice`, `extendSquare`, `RowRoots` and `ColumnRoots` calls,
`RowRoots()` returns `width` digests, the `i`-th being the Merkle root of the
current `getRow(i)`, and `ColumnRoots()` returns `width` digests, the `j`-th being
the Merkle root of the current `getColumn(j)`; and a cache that is present
equals the roots recomputed over the current cells. -/
theorem roots_reflect_current_content (H : Hasher) (st : State) (h : Reachable H st) :
    (∃ rr st1, RowRoots H st = (.ok (some rr), st1) ∧ rr.length = st.ds.width ∧
        ∀ i, i < st.ds.width →
          ∃ s, getRow st i = .ok s ∧ rr[i]? = some (Merkle.Root H (st.mem.view s))) ∧
      (∃ cr st1, ColumnRoots H st = (.ok (some cr), st1) ∧ cr.length = st.ds.width ∧
        ∀ j, j < st.ds.width →
          ∃ col, getColumn st j = .ok col ∧ cr[j]? = some (Merkle.Root H col)) ∧
      Coherent H st := by
  obtain ⟨hs, hc⟩ := reachable_inv H st h
  obtain ⟨rr, st1, h1, h2, h3⟩ := rowRoots_ok H st hs hc
  obtain ⟨cr, st2, g1, g2, g3⟩ := columnRoots_ok H st hs hc
  refine ⟨⟨rr, st1, h1, h2, ?_⟩, ⟨cr, st2, g1, g2, ?_⟩, hc⟩
  · intro i hi
    obtain ⟨s, k1, k2⟩ := rowRootAt_eq H st hs i hi
    exact ⟨s, k1, by rw [h3 i hi, k2]⟩
  · intro j hj
    obtain ⟨col, k1, k2⟩ := columnRootAt_eq H st hs j hj
    exact ⟨col, k1, by rw [g3 j hj, k2]⟩

namespace Merkle

theorem length_pairUp (H : Hasher) : ∀ l : List Digest, (pairUp H l).length = (l.length + 1) / 2
  | [] => rfl
  | [_] => by simp [pairUp]
  | _ :: _ :: rest => by
    simp only [pairUp, List.length_cons, length_pairUp H rest]
    omega

/-- Node `j` of the next level: the hash of nodes `2j` and `2j+1` when both exist, node
`2j` itself when it is the unpaired last node. -/
theorem pairUp_getElem? (H : Hasher) : ∀ (l : List Digest) (j : Nat),
    (pairUp H l)[j]? =
      match l[2 * j]?, l[2 * j + 1]? with
      | some a, some b => some (H.node a b)
      | some a, none => some a
      | none, _ => none
  | [], j => by simp [pairUp]
  | [a], j => by
    cases j with
    | zero => simp [pairUp]
    | succ j =>
      have h1 : 2 * (j + 1) = (2 * j + 1) + 1 := by omega
      simp [pairUp, h1]
  | a :: b :: rest, j => by
    cases j with
    | zero => simp [pairUp]
    | succ j =>
      have h1 : 2 * (j + 1) = (2 * j) + 1 + 1 := by omega
      have h2 : 2 * (j + 1) + 1 = (2 * j + 1) + 1 + 1 := by omega
      simp only [pairUp, List.getElem?_cons_succ, h1, h2]
      exact pairUp_getElem? H rest j

/-- Recombining the sibling path of node `i` with node `i` gives the root of the level,
whatever the number of nodes. -/
theorem recombine_pathFrom (H : Hasher) :
    ∀ (fuel : Nat) (l : List Digest) (i : Nat) (a : Digest), l[i]? = some a →
      l.length ≤ fuel →
      recombine H fuel a (pathFrom H fuel l i) i l.length = some (collapse H fuel l) := by
  intro fuel
  induction fuel with
  | zero =>
    intro l i a ha hl
    have := (List.getElem?_eq_some_iff.mp ha).1
    omega
  | succ fuel ih =>
    intro l i a ha hl
    have hi : i < l.length := (List.getElem?_eq_some_iff.mp ha).1
    by_cases h1 : l.length ≤ 1
    · have hi0 : i = 0 := by omega
      subst hi0
      simp only [recombine, pathFrom, collapse, if_pos h1, List.isEmpty_nil, if_true]
      cases l with
      | nil => simp at hi
      | cons x xs =>
        simp only [List.getElem?_cons_zero, Option.some.injEq] at ha
        simp [ha]
    · simp only [recombine, pathFrom, collapse, if_neg h1]
      have hfuel : (pairUp H l).length ≤ fuel := by
        rw [length_pairUp]; omega
      have hnext := pairUp_getElem? H l (i / 2)
      by_cases hev : i % 2 = 0
      · have e1 : 2 * (i / 2) = i := by omega
        rw [e1, ha] at hnext
        by_cases hs : i + 1 < l.length
        · have hsib : sibling i = i + 1 := by simp [sibling, hev]
          rw [hsib, if_pos hs, List.getElem?_eq_getElem hs]
          rw [List.getElem?_eq_getElem hs] at hnext
          simp only [Option.toList, List.singleton_append, List.cons_append, List.nil_append,
            if_pos hev]
          have := ih (pairUp H l) (i / 2) _ hnext hfuel
          rw [length_pairUp] at this
          exact this
        · have hsib : sibling i = i + 1 := by simp [sibling, hev]
          have hnone : l[i + 1]? = none := List.getElem?_eq_none (by omega)
          rw [hsib, if_neg hs, hnone]
          rw [hnone] at hnext
          simp only [Option.toList, List.nil_append]
          have := ih (pairUp H l) (i / 2) _ hnext hfuel
          rw [length_pairUp] at this
          exact this
      · have e1 : 2 * (i / 2) = i - 1 := by omega
        have e2 : 2 * (i / 2) + 1 = i := by omega
        have hs : i - 1 < l.length := by omega
        rw [e2, e1, ha, List.getElem?_eq_getElem hs] at hnext
        have hsib : sibling i = i - 1 := by simp [sibling, hev]
        rw [hsib, if_pos hs, List.getElem?_eq_getElem hs]
        simp only [Option.toList, List.singleton_append, List.cons_append, List.nil_append,
          if_neg hev]
        have := ih (pairUp H l) (i / 2) _ hnext hfuel
        rw [length_pairUp] at this
        exact this

/-- The engine's verification contract: for a leaf index inside the sequence `Prove`
succeeds, the proof carries `Root` of the sequence, the index and the count, and
recombining the chunk's leaf encoding with the path reproduces that root. -/
theorem prove_recombines (H : Hasher) (chunks : List Chunk) (i : Nat) (c : Chunk)
    (hc : chunks[i]? = some c) :
    ∃ p, Prove H chunks i = some p ∧ p.root = Root H chunks ∧ p.leafIndex = i ∧
      p.leafCount = chunks.length ∧
      recombine H p.leafCount (H.leaf c) p.path p.leafIndex p.leafCount = some p.root := by
  have hi : i < chunks.length := (List.getElem?_eq_some_iff.mp hc).1
  refine ⟨_, by unfold Prove; rw [if_pos hi], rfl, rfl, rfl, ?_⟩
  dsimp only
  have h := recombine_pathFrom H chunks.length (chunks.map H.leaf) i (H.leaf c)
    (by rw [List.getElem?_map, hc]; rfl) (by simp)
  rw [List.length_map] at h
  exact h

end Merkle

/-- The loop of `computeRowProof` pushes the chunks of the slice in order. -/
theorem pushSlice_ok (mem : Mem) (data : Slice) :
    ∀ (vs : List Chunk) (i : Nat) (tree : Tree),
      (∀ q, q < vs.length → mem.get data (i + q) = vs[q]?) →
      pushSlice mem data vs.length i tree = some ⟨tree.leaves ++ vs, tree.proofIndex⟩ := by
  intro vs
  induction vs with
  | nil => intro i tree _; simp [pushSlice]
  | cons v vs ih =>
    intro i tree h
    have g := h 0 (by simp)
    rw [Nat.add_zero] at g
    simp only [List.length_cons, pushSlice, g, List.getElem?_cons_zero]
    rw [ih (i + 1) (tree.Push v)]
    · simp [Tree.Push]
    · intro q hq
      have k := h (q + 1) (by simpa using hq)
      have he : i + (q + 1) = i + 1 + q := by omega
      rw [he] at k
      simpa using k

/-- The loop of `computeColumnProof` pushes the chunks of the column in order. -/
theorem pushList_ok (data : List Chunk) :
    ∀ (vs : List Chunk) (i : Nat) (tree : Tree),
      (∀ q, q < vs.length → data[i + q]? = vs[q]?) →
      pushList data vs.length i tree = some ⟨tree.leaves ++ vs, tree.proofIndex⟩ := by
  intro vs
  induction vs with
  | nil => intro i tree _; simp [pushList]
  | cons v vs ih =>
    intro i tree h
    have g := h 0 (by simp)
    rw [Nat.add_zero] at g
    simp only [List.length_cons, pushList, g, List.getElem?_cons_zero]
    rw [ih (i + 1) (tree.Push v)]
    · simp [Tree.Push]
    · intro q hq
      have k := h (q + 1) (by simpa using hq)
      have he : i + (q + 1) = i + 1 + q := by omega
      rw [he] at k
      simpa using k

/-- The method `computeRowProof` on a well-formed grid, inside the grid: the proof it returns
and the state it leaves. -/
theorem computeRowProof_spec (H : Hasher) (st : State) (x y : Nat) (hs : Shape st)
    (hx : x < st.ds.width) (hy : y < st.ds.width) :
    ∃ p s chunk, computeRowProof H st x y = (.ok p, st) ∧ getRow st x = .ok s ∧
      cell st x y = some chunk ∧ p.root = Merkle.Root H (st.mem.view s) ∧
      p.leafIndex = y ∧ p.leafCount = st.ds.width ∧
      Merkle.recombine H p.leafCount (H.leaf chunk) p.path p.leafIndex p.leafCount
        = some p.root := by
  obtain ⟨t, s, ht, hrow, hv, hvl⟩ := shape_getRow hs hx
  have hylt : y < (st.mem.view s).length := by rw [hvl]; exact hy
  have hchunk : (st.mem.view s)[y]? = some (st.mem.view s)[y] := List.getElem?_eq_getElem hylt
  generalize (st.mem.view s)[y] = chunk at hchunk
  obtain ⟨p, h1, h2, h3, h4, h5⟩ := Merkle.prove_recombines H (st.mem.view s) y chunk hchunk
  have hpush := pushSlice_ok st.mem s (st.mem.view s) 0 (Tree.New.SetIndex y)
    (by intro q _; rw [Nat.zero_add]; exact Mem.get_eq_view _ _ _)
  rw [hvl] at hpush
  simp only [Tree.New, Tree.SetIndex, List.nil_append] at hpush
  refine ⟨p, s, chunk, ?_, hrow, ?_, h2, h3, by rw [h4, hvl], h5⟩
  · unfold computeRowProof
    simp only [hrow, Tree.New, Tree.SetIndex, hpush, Tree.Prove, h1]
  · unfold cell
    simp only [ht]
    rw [Mem.get_eq_view, ← hv, hchunk]

/-- The method `computeColumnProof` on a well-formed grid, inside the grid: the proof it
returns and the state it leaves. -/
theorem computeColumnProof_spec (H : Hasher) (st : State) (x y : Nat) (hs : Shape st)
    (hx : x < st.ds.width) (hy : y < st.ds.width) :
    ∃ p col chunk, computeColumnProof H st x y = (.ok p, st) ∧ getColumn st y = .ok col ∧
      cell st x y = some chunk ∧ p.root = Merkle.Root H col ∧
      p.leafIndex = x ∧ p.leafCount = st.ds.width ∧
      Merkle.recombine H p.leafCount (H.leaf chunk) p.path p.leafIndex p.leafCount
        = some p.root := by
  obtain ⟨col, hcol, hcl, hcells⟩ := shape_getColumn hs hy
  have hxlt : x < col.length := by rw [hcl]; exact hx
  have hchunk : col[x]? = some col[x] := List.getElem?_eq_getElem hxlt
  generalize col[x] = chunk at hchunk
  obtain ⟨p, h1, h2, h3, h4, h5⟩ := Merkle.prove_recombines H col x chunk hchunk
  have hpush := pushList_ok col col 0 (Tree.New.SetIndex x)
    (by intro q _; rw [Nat.zero_add])
  rw [hcl] at hpush
  simp only [Tree.New, Tree.SetIndex, List.nil_append] at hpush
  refine ⟨p, col, chunk, ?_, hcol, by rw [hcells x hx, hchunk], h2, h3, by rw [h4, hcl], h5⟩
  unfold computeColumnProof
  simp only [hcol, Tree.New, Tree.SetIndex, hpush, Tree.Prove, h1]

/-- C5: in a well-formed grid, for `row < width` and `col < width`, recombining the path
returned by `computeRowProof(row, col)` with the chunk at `(row, col)`, using the
returned leaf index and leaf count under the engine's verification rule,
reproduces `RowRoots()[row]`; and the path returned by
`computeColumnProof(row, col)` recombined with the same chunk reproduces
`ColumnRoots()[col]`. -/
theorem proofs_recombine_to_roots (H : Hasher) (st : State) (row col : Nat)
    (hs : Shape st) (hc : Coherent H st) (hr : row < st.ds.width) (hcl : col < st.ds.width) :
    ∃ chunk, cell st row col = some chunk ∧
      (∃ p rr st1, computeRowProof H st row col = (.ok p, st) ∧
        RowRoots H st = (.ok (some rr), st1) ∧
        Merkle.recombine H p.leafCount (H.leaf chunk) p.path p.leafIndex p.leafCount
          = rr[row]? ∧
        Merkle.Verify H (rr.getD row []) chunk p.path p.leafIndex p.leafCount = true) ∧
      (∃ p cr st1, computeColumnProof H st row col = (.ok p, st) ∧
        ColumnRoots H st = (.ok (some cr), st1) ∧
        Merkle.recombine H p.leafCount (H.leaf chunk) p.path p.leafIndex p.leafCount
          = cr[col]? ∧
        Merkle.Verify H (cr.getD col []) chunk p.path p.leafIndex p.leafCount = true) := by
  obtain ⟨p, s, chunk, h1, h2, h3, h4, h5, h6, h7⟩ := computeRowProof_spec H st row col hs hr hcl
  obtain ⟨q, cl, chunk2, g1, g2, g3, g4, g5, g6, g7⟩ :=
    computeColumnProof_spec H st row col hs hr hcl
  rw [h3] at g3
  cases g3
  obtain ⟨rr, st1, r1, _, r3⟩ := rowRoots_ok H st hs hc
  obtain ⟨cr, st2, c1, _, c3⟩ := columnRoots_ok H st hs hc
  have hrr : rr[row]? = some p.root := by
    rw [r3 row hr, h4]
    simp only [rowRootAt, h2]
  have hcr : cr[col]? = some q.root := by
    rw [c3 col hcl, g4]
    simp only [columnRootAt, g2]
  refine ⟨chunk, h3, ⟨p, rr, st1, h1, r1, by rw [h7, hrr], ?_⟩,
    ⟨q, cr, st2, g1, c1, by rw [g7, hcr], ?_⟩⟩
  · unfold Merkle.Verify
    rw [List.getD_eq_getElem?_getD, hrr, h7]
    simp only [Option.getD_some, decide_True, Bool.and_true, decide_eq_true_eq]
    omega
  · unfold Merkle.Verify
    rw [List.getD_eq_getElem?_getD, hcr, g7]
    simp only [Option.getD_some, decide_True, Bool.and_true, decide_eq_true_eq]
    omega

/-- C6: in a well-formed grid, for `x < width` and `y < width`, `computeRowProof(x, y)`
returns the Merkle root of `getRow(x)`, which is `RowRoots()[x]`, the proof index
`y` and the leaf count `width`; `computeColumnProof(x, y)` returns the Merkle root
of `getColumn(y)`, which is `ColumnRoots()[y]`, the proof index `x` and the leaf
count `width`; both leave the state (cells and caches) as it was. -/
theorem proofs_carry_roots_and_indices (H : Hasher) (st : State) (x y : Nat)
    (hs : Shape st) (hc : Coherent H st) (hx : x < st.ds.width) (hy : y < st.ds.width) :
    (∃ p s rr st1, computeRowProof H st x y = (.ok p, st) ∧ getRow st x = .ok s ∧
        p.root = Merkle.Root H (st.mem.view s) ∧
        RowRoots H st = (.ok (some rr), st1) ∧ rr[x]? = some p.root ∧
        p.leafIndex = y ∧ p.leafCount = st.ds.width) ∧
      (∃ p col cr st1, computeColumnProof H st x y = (.ok p, st) ∧ getColumn st y = .ok col ∧
        p.root = Merkle.Root H col ∧
        ColumnRoots H st = (.ok (some cr), st1) ∧ cr[y]? = some p.root ∧
        p.leafIndex = x ∧ p.leafCount = st.ds.width) := by
  obtain ⟨p, s, _, h1, h2, _, h4, h5, h6, _⟩ := computeRowProof_spec H st x y hs hx hy
  obtain ⟨q, cl, _, g1, g2, _, g4, g5, g6, _⟩ := computeColumnProof_spec H st x y hs hx hy
  obtain ⟨rr, st1, r1, _, r3⟩ := rowRoots_ok H st hs hc
  obtain ⟨cr, st2, c1, _, c3⟩ := columnRoots_ok H st hs hc
  refine ⟨⟨p, s, rr, st1, h1, h2, h4, r1, ?_, h5, h6⟩, ⟨q, cl, cr, st2, g1, g2, g4, c1, ?_, g5, g6⟩⟩
  · rw [r3 x hx, h4]
    simp only [rowRootAt, h2]
  · rw [c3 y hy, g4]
    simp only [columnRootAt, g2]

theorem demoCached_reachable : Reachable demoHasher demoCached :=
  Reachable.rowRoots demoWritten demoCached.ds.rowRoots demoCached
    (Reachable.setRow (demoState.withSlice [[7]]) 0 1 (demoState.newSlice [[7]]) demoWritten
      (Reachable.callerSlice demoState [[7]]
        (Reachable.construct [[1], [2], [3], [4]] demoState (by decide))) (by decide))
    (by decide)

theorem roots_reflect_current_content_witness :
    Reachable demoHasher demoCached ∧
      (∃ rr st1, RowRoots demoHasher demoCached = (.ok (some rr), st1) ∧
        rr.length = demoCached.ds.width ∧
        ∀ i, i < demoCached.ds.width →
          ∃ s, getRow demoCached i = .ok s ∧
            rr[i]? = some (Merkle.Root demoHasher (demoCached.mem.view s))) ∧
      (∃ cr st1, ColumnRoots demoHasher demoCached = (.ok (some cr), st1) ∧
        cr.length = demoCached.ds.width ∧
        ∀ j, j < demoCached.ds.width →
          ∃ col, getColumn demoCached j = .ok col ∧
            cr[j]? = some (Merkle.Root demoHasher col)) ∧
      Coherent demoHasher demoCached :=
  ⟨demoCached_reachable,
    roots_reflect_current_content demoHasher demoCached demoCached_reachable⟩

theorem proofs_recombine_to_roots_witness :
    Shape demoCached ∧ Coherent demoHasher demoCached ∧ 1 < demoCached.ds.width ∧
      0 < demoCached.ds.width ∧
      ∃ chunk, cell demoCached 1 0 = some chunk ∧
        (∃ p rr st1, computeRowProof demoHasher demoCached 1 0 = (.ok p, demoCached) ∧
          RowRoots demoHasher demoCached = (.ok (some rr), st1) ∧
          Merkle.recombine demoHasher p.leafCount (demoHasher.leaf chunk) p.path p.leafIndex
            p.leafCount = rr[1]? ∧
          Merkle.Verify demoHasher (rr.getD 1 []) chunk p.path p.leafIndex p.leafCount = true) ∧
        (∃ p cr st1, computeColumnProof demoHasher demoCached 1 0 = (.ok p, demoCached) ∧
          ColumnRoots demoHasher demoCached = (.ok (some cr), st1) ∧
          Merkle.recombine demoHasher p.leafCount (demoHasher.leaf chunk) p.path p.leafIndex
            p.leafCount = cr[0]? ∧
          Merkle.Verify demoHasher (cr.getD 0 []) chunk p.path p.leafIndex p.leafCount = true) :=
  ⟨by decide, (reachable_inv demoHasher demoCached demoCached_reachable).2, by decide, by decide,
    proofs_recombine_to_roots demoHasher demoCached 1 0 (by decide)
      (reachable_inv demoHasher demoCached demoCached_reachable).2 (by decide) (by decide)⟩

theorem proofs_carry_roots_and_indices_witness :
    Shape demoState ∧ Coherent demoHasher demoState ∧ 0 < demoState.ds.width ∧
      1 < demoState.ds.width ∧
      (∃ p s rr st1, computeRowProof demoHasher demoState 0 1 = (.ok p, demoState) ∧
        getRow demoState 0 = .ok s ∧
        p.root = Merkle.Root demoHasher (demoState.mem.view s) ∧
        RowRoots demoHasher demoState = (.ok (some rr), st1) ∧ rr[0]? = some p.root ∧
        p.leafIndex = 1 ∧ p.leafCount = demoState.ds.width) ∧
      (∃ p col cr st1, computeColumnProof demoHasher demoState 0 1 = (.ok p, demoState) ∧
        getColumn demoState 1 = .ok col ∧
        p.root = Merkle.Root demoHasher col ∧
        ColumnRoots demoHasher demoState = (.ok (some cr), st1) ∧ cr[1]? = some p.root ∧
        p.leafIndex = 0 ∧ p.leafCount = demoState.ds.width) :=
  ⟨by decide, coherent_of_none demoHasher demoState rfl rfl, by decide, by decide,
    proofs_carry_roots_and_indices demoHasher demoState 0 1 (by decide)
      (coherent_of_none demoHasher demoState rfl rfl) (by decide) (by decide)⟩


/-- A successful `setRowSlice` keeps the rows' storage apart: the row slices are not
changed. -/
theorem setRowSlice_independent (st : State) (x y : Nat) (newRow : Slice) (st1 : State)
    (hi : Independent st) (h : setRowSlice st x y newRow = (.ok (), st1)) : Independent st1 := by
  obtain ⟨_, m1, _, rfl⟩ := setRowSlice_ok_inv st x y newRow st1 h
  exact hi

/-- A successful `setColumnSlice` keeps the rows' storage apart: the row slices are not
changed. -/
theorem setColumnSlice_independent (st : State) (x y : Nat) (newColumn : Slice)
    (st1 : State) (hi : Independent st)
    (h : setColumnSlice st x y newColumn = (.ok (), st1)) : Independent st1 := by
  obtain ⟨_, m1, _, rfl⟩ := setColumnSlice_ok_inv st x y newColumn st1 h
  exact hi

/-- A successful call keeps the chunk size of the grid. -/
theorem step_chunkSize (H : Hasher) (st st1 : State) (h : Step H st st1) :
    st1.ds.chunkSize = st.ds.chunkSize := by
  cases h with
  | callerSlice vals => rfl
  | setRow x y newRow _ h =>
    obtain ⟨_, m1, _, rfl⟩ := setRowSlice_ok_inv st x y newRow st1 h
    rfl
  | setColumn x y newColumn _ h =>
    obtain ⟨_, m1, _, rfl⟩ := setColumnSlice_ok_inv st x y newColumn st1 h
    rfl
  | extend k filler _ h =>
    unfold extendSquare at h
    by_cases hne : filler.length ≠ st.ds.chunkSize
    · rw [if_pos hne] at h
      simp only [Prod.mk.injEq] at h
      cases h.1
    · rw [if_neg hne] at h
      dsimp only at h
      cases he : extendRows st.ds.square (st.mem.make st.ds.width).2
          (List.replicate k filler) st.ds.width 0 (st.mem.make st.ds.width).1 [] with
      | none =>
        rw [he] at h
        simp only [Prod.mk.injEq] at h
        cases h.1
      | some p =>
        rw [he] at h
        obtain ⟨mem2, rows⟩ := p
        simp only [Prod.mk.injEq, true_and] at h
        rw [← h]
        rfl
  | rowRoots r _ h =>
    unfold RowRoots at h
    cases hrr : st.ds.rowRoots with
    | some r0 =>
      rw [hrr] at h
      simp only [Prod.mk.injEq] at h
      rw [← h.2]
    | none =>
      rw [hrr] at h
      unfold computeRoots at h
      cases hl : rootsLoop H st st.ds.width 0 [] [] with
      | none =>
        rw [hl] at h
        simp only [Prod.mk.injEq] at h
        cases h.1
      | some p =>
        rw [hl] at h
        obtain ⟨rr, cr⟩ := p
        simp only [Prod.mk.injEq] at h
        rw [← h.2]
  | columnRoots r _ h =>
    unfold ColumnRoots at h
    cases hrr : st.ds.columnRoots with
    | some r0 =>
      rw [hrr] at h
      simp only [Prod.mk.injEq] at h
      rw [← h.2]
    | none =>
      rw [hrr] at h
      unfold computeRoots at h
      cases hl : rootsLoop H st st.ds.width 0 [] [] with
      | none =>
        rw [hl] at h
        simp only [Prod.mk.injEq] at h
        cases h.1
      | some p =>
        rw [hl] at h
        obtain ⟨rr, cr⟩ := p
        simp only [Prod.mk.injEq] at h
        rw [← h.2]

/-- A state reached from a reachable state is reachable. -/
theorem reachedFrom_reachable (H : Hasher) (st0 st : State) (h0 : Reachable H st0)
    (h : ReachedFrom H st0 st) : Reachable H st := by
  induction h with
  | start => exact h0
  | step st st1 _ hstep ih =>
    cases hstep with
    | callerSlice vals => exact Reachable.callerSlice st vals ih
    | setRow x y newRow _ h => exact Reachable.setRow st x y newRow st1 ih h
    | setColumn x y newColumn _ h => exact Reachable.setColumn st x y newColumn st1 ih h
    | extend k filler _ h => exact Reachable.extend st k filler st1 ih h
    | rowRoots r _ h => exact Reachable.rowRoots st r st1 ih h
    | columnRoots r _ h => exact Reachable.columnRoots st r st1 ih h

theorem reachedFrom_chunkSize (H : Hasher) (st0 st : State) (h : ReachedFrom H st0 st) :
    st.ds.chunkSize = st0.ds.chunkSize := by
  induction h with
  | start => rfl
  | step st st1 _ hstep ih => rw [step_chunkSize H st st1 hstep, ih]

/-- Rows keep storage of their own through every step but one: the caller building a
slice, a successful write and a successful root query leave the row slices as
they are, and a successful `extendSquare` that adds at least one column builds
rows in new arrays. The step left out is `extendSquare(0, filler)`. -/
theorem step_independent (H : Hasher) (st st1 : State) (hs : Shape st) (hi : Independent st)
    (h : Step H st st1) (hk : ∀ filler, extendSquare st 0 filler ≠ (.ok (), st1)) :
    Independent st1 := by
  cases h with
  | callerSlice vals => exact hi
  | setRow x y newRow _ h => exact setRowSlice_independent st x y newRow st1 hi h
  | setColumn x y newColumn _ h => exact setColumnSlice_independent st x y newColumn st1 hi h
  | extend k filler _ h =>
    by_cases hz : k = 0
    · subst hz
      exact absurd h (hk filler)
    · exact extendSquare_independent st k filler st1 hs (by omega) h
  | rowRoots r _ h =>
    unfold RowRoots at h
    cases hrr : st.ds.rowRoots with
    | some r0 =>
      rw [hrr] at h
      simp only [Prod.mk.injEq] at h
      rw [← h.2]
      exact hi
    | none =>
      rw [hrr] at h
      unfold computeRoots at h
      cases hl : rootsLoop H st st.ds.width 0 [] [] with
      | none =>
        rw [hl] at h
        simp only [Prod.mk.injEq] at h
        cases h.1
      | some p =>
        rw [hl] at h
        obtain ⟨rr, cr⟩ := p
        simp only [Prod.mk.injEq] at h
        rw [← h.2]
        exact hi
  | columnRoots r _ h =>
    unfold ColumnRoots at h
    cases hrr : st.ds.columnRoots with
    | some r0 =>
      rw [hrr] at h
      simp only [Prod.mk.injEq] at h
      rw [← h.2]
      exact hi
    | none =>
      rw [hrr] at h
      unfold computeRoots at h
      cases hl : rootsLoop H st st.ds.width 0 [] [] with
      | none =>
        rw [hl] at h
        simp only [Prod.mk.injEq] at h
        cases h.1
      | some p =>
        rw [hl] at h
        obtain ⟨rr, cr⟩ := p
        simp only [Prod.mk.injEq] at h
        rw [← h.2]
        exact hi

/-- A well-formed grid stores `width * width` cells. -/
theorem shape_cells_length (st : State) (hs : Shape st) :
    (cells st).length = st.ds.width * st.ds.width := by
  unfold cells
  rw [List.length_flatten, List.map_map]
  have hconst : List.map (List.length ∘ st.mem.view) st.ds.square
      = List.replicate st.ds.square.length st.ds.width := by
    apply List.eq_replicate_iff.mpr
    refine ⟨by simp, ?_⟩
    intro n hn
    obtain ⟨s, hs1, rfl⟩ := List.mem_map.mp hn
    obtain ⟨h1, _, _, h4, _⟩ := hs.2 s hs1
    simp only [Function.comp]
    rw [Mem.length_view _ _ h4, h1]
  rw [hconst, List.sum_const_nat, hs.1]

/-- C11: in every grid state reached from a successful `newDataSquare` by successful
`setRowSlice`, `setColumnSlice` and `extendSquare` calls (and root queries), the
cell storage has exactly `width` rows, every row has exactly `width` chunks, so
there are `width * width` cells, and every chunk has length `chunkSize`, which is
the value fixed at construction. -/
theorem reached_grid_is_square (H : Hasher) (data : List Chunk) (st0 st : State)
    (h0 : newDataSquare data = .ok st0) (h : ReachedFrom H st0 st) :
    st.ds.square.length = st.ds.width ∧
      (∀ s ∈ st.ds.square, (st.mem.view s).length = st.ds.width ∧
        ∀ c ∈ st.mem.view s, c.length = st.ds.chunkSize) ∧
      (cells st).length = st.ds.width * st.ds.width ∧
      (∀ c ∈ cells st, c.length = st.ds.chunkSize) ∧
      st.ds.chunkSize = st0.ds.chunkSize ∧
      st0.ds.chunkSize = (data.headD []).length := by
  have hs : Shape st :=
    (reachable_inv H st (reachedFrom_reachable H st0 st (Reachable.construct data st0 h0) h)).1
  refine ⟨hs.1, ?_, shape_cells_length st hs, ?_, reachedFrom_chunkSize H st0 st h, ?_⟩
  · intro s hsm
    obtain ⟨h1, _, _, h4, h5⟩ := hs.2 s hsm
    exact ⟨by rw [Mem.length_view _ _ h4, h1], h5⟩
  · intro c hc
    unfold cells at hc
    obtain ⟨l, hl, hcl⟩ := List.mem_flatten.mp hc
    obtain ⟨s, hsm, rfl⟩ := List.mem_map.mp hl
    exact (hs.2 s hsm).2.2.2.2 c hcl
  · unfold newDataSquare at h0
    dsimp only at h0
    by_cases hsq : ceilSqrt data.length ^ 2 ≠ data.length
    · rw [if_pos hsq] at h0; cases h0
    · rw [if_neg hsq] at h0
      cases data with
      | nil => cases h0
      | cons d0 rest =>
        dsimp only at h0
        cases hf : fillSquare [d0 :: rest] ⟨0, 0, (d0 :: rest).length, (d0 :: rest).length⟩
            (ceilSqrt (d0 :: rest).length) d0.length (ceilSqrt (d0 :: rest).length) 0 [] with
        | err e => rw [hf] at h0; cases h0
        | panic => rw [hf] at h0; cases h0
        | ok sq =>
          rw [hf] at h0
          dsimp only at h0
          cases h0
          rfl

theorem reached_grid_is_square_witness :
    newDataSquare [[1], [2], [3], [4]] = .ok demoState ∧
      ReachedFrom demoHasher demoState (extendSquare demoWritten 1 [0]).2 ∧
      (extendSquare demoWritten 1 [0]).2.ds.square.length
        = (extendSquare demoWritten 1 [0]).2.ds.width ∧
      (∀ s ∈ (extendSquare demoWritten 1 [0]).2.ds.square,
        ((extendSquare demoWritten 1 [0]).2.mem.view s).length
          = (extendSquare demoWritten 1 [0]).2.ds.width ∧
        ∀ c ∈ (extendSquare demoWritten 1 [0]).2.mem.view s,
          c.length = (extendSquare demoWritten 1 [0]).2.ds.chunkSize) ∧
      (cells (extendSquare demoWritten 1 [0]).2).length
        = (extendSquare demoWritten 1 [0]).2.ds.width
          * (extendSquare demoWritten 1 [0]).2.ds.width ∧
      (∀ c ∈ cells (extendSquare demoWritten 1 [0]).2,
        c.length = (extendSquare demoWritten 1 [0]).2.ds.chunkSize) ∧
      (extendSquare demoWritten 1 [0]).2.ds.chunkSize = demoState.ds.chunkSize ∧
      demoState.ds.chunkSize = ((([[1], [2], [3], [4]] : List Chunk)).headD []).length :=
  ⟨by decide,
    ReachedFrom.step demoWritten _
      (ReachedFrom.step (demoState.withSlice [[7]]) _
        (ReachedFrom.step demoState _ ReachedFrom.start (Step.callerSlice demoState [[7]]))
        (Step.setRow (demoState.withSlice [[7]]) 0 1 (demoState.newSlice [[7]]) demoWritten
          (by decide)))
      (Step.extend demoWritten 1 [0] _ (by decide)),
    reached_grid_is_square demoHasher [[1], [2], [3], [4]] demoState
      (extendSquare demoWritten 1 [0]).2 (by decide)
      (ReachedFrom.step demoWritten _
        (ReachedFrom.step (demoState.withSlice [[7]]) _
          (ReachedFrom.step demoState _ ReachedFrom.start (Step.callerSlice demoState [[7]]))
          (Step.setRow (demoState.withSlice [[7]]) 0 1 (demoState.newSlice [[7]]) demoWritten
            (by decide)))
        (Step.extend demoWritten 1 [0] _ (by decide)))⟩

/-- C14: every successful `setRowSlice`, `setColumnSlice` or `extendSquare` call leaves
`rowRoots` and `columnRoots` nil, whatever they were before and whatever was
written (the same content, or no chunk at all). -/
theorem successful_mutation_clears_caches (st st1 : State)
    (h : (∃ x y newRow, setRowSlice st x y newRow = (.ok (), st1)) ∨
      (∃ x y newColumn, setColumnSlice st x y newColumn = (.ok (), st1)) ∨
      (∃ k filler, extendSquare st k filler = (.ok (), st1))) :
    st1.ds.rowRoots = none ∧ st1.ds.columnRoots = none := by
  rcases h with ⟨x, y, newRow, h⟩ | ⟨x, y, newColumn, h⟩ | ⟨k, filler, h⟩
  · obtain ⟨_, m1, _, rfl⟩ := setRowSlice_ok_inv st x y newRow st1 h
    exact ⟨rfl, rfl⟩
  · obtain ⟨_, m1, _, rfl⟩ := setColumnSlice_ok_inv st x y newColumn st1 h
    exact ⟨rfl, rfl⟩
  · exact extendSquare_ok_caches st k filler st1 h

theorem successful_mutation_clears_caches_witness :
    demoCached.ds.rowRoots ≠ none ∧ demoCached.ds.columnRoots ≠ none ∧
      ((∃ x y newRow, setRowSlice demoCached x y newRow
          = (.ok (), (setRowSlice demoCached 0 0 ⟨0, 0, 0, 0⟩).2)) ∨
        (∃ x y newColumn, setColumnSlice demoCached x y newColumn
          = (.ok (), (setRowSlice demoCached 0 0 ⟨0, 0, 0, 0⟩).2)) ∨
        (∃ k filler, extendSquare demoCached k filler
          = (.ok (), (setRowSlice demoCached 0 0 ⟨0, 0, 0, 0⟩).2))) ∧
      (setRowSlice demoCached 0 0 ⟨0, 0, 0, 0⟩).2.ds.rowRoots = none ∧
      (setRowSlice demoCached 0 0 ⟨0, 0, 0, 0⟩).2.ds.columnRoots = none :=
  ⟨by decide, by decide, Or.inl ⟨0, 0, ⟨0, 0, 0, 0⟩, by decide⟩,
    successful_mutation_clears_caches demoCached (setRowSlice demoCached 0 0 ⟨0, 0, 0, 0⟩).2
      (Or.inl ⟨0, 0, ⟨0, 0, 0, 0⟩, by decide⟩)⟩

/-- C13: with no chunk at all `newDataSquare` does not return the shape error: the test
of line 21 passes (`0^2 = 0`) and `data[0]` on line 26 panics. -/
theorem newDataSquare_empty_panics :
    newDataSquare [] = .panic ∧ newDataSquare [] ≠ .err .notSquare := by
  decide

/-- C18: `extendSquare(0, filler)` on the 2 x 2 example grid succeeds and keeps the width, but
`getRow(0)`, which held the chunks 1, 2, afterwards holds the chunks 3, 4 of the
last row: every new row is the one buffer of line 62. -/
theorem extendSquare_zero_overwrites_rows :
    Shape demoState ∧ 2 ≤ demoState.ds.width ∧
      ([0] : Chunk).length = demoState.ds.chunkSize ∧
      (extendSquare demoState 0 [0]).1 = .ok () ∧
      (extendSquare demoState 0 [0]).2.ds.width = demoState.ds.width ∧
      rowContent demoState 0 = some [[1], [2]] ∧
      rowContent (extendSquare demoState 0 [0]).2 0 = some [[3], [4]] ∧
      rowContent (extendSquare demoState 0 [0]).2 1 = some [[3], [4]] := by
  decide

/-- C17: in a well-formed grid `getColumn(c)` has `width` entries and its entry `r` is entry
`c` of `getRow(r)`; more generally entry `i` of `getColumnSlice(x, y, length)` is the
one chunk of `getRowSlice(x + i, y, 1)`, whenever `x + length <= width` and
`y < width`. -/
theorem columns_are_transposed_rows (st : State) (hs : Shape st) :
    (∀ c, c < st.ds.width → ∃ col, getColumn st c = .ok col ∧ col.length = st.ds.width ∧
      ∀ r, r < st.ds.width → ∃ s chunk, getRow st r = .ok s ∧
        col[r]? = some chunk ∧ (st.mem.view s)[c]? = some chunk) ∧
      (∀ x y length, x + length ≤ st.ds.width → y < st.ds.width →
        ∃ col, getColumnSlice st x y length = .ok col ∧ col.length = length ∧
          ∀ i, i < length → ∃ s chunk, getRowSlice st (x + i) y 1 = .ok s ∧
            col[i]? = some chunk ∧ (st.mem.view s)[0]? = some chunk) := by
  constructor
  · intro c hc
    obtain ⟨col, h1, h2, h3⟩ := shape_getColumn hs hc
    refine ⟨col, h1, h2, ?_⟩
    intro r hr
    obtain ⟨t, s, ht, hrow, hv, _⟩ := shape_getRow hs hr
    obtain ⟨t1, chunk, ht1, hg⟩ := shape_cell hs hr hc
    rw [ht] at ht1
    cases ht1
    refine ⟨s, chunk, hrow, ?_, ?_⟩
    · rw [← h3 r hr]
      unfold cell
      simp only [ht, hg]
    · rw [hv, ← Mem.get_eq_view, hg]
  · intro x y length hx hy
    obtain ⟨vals, h1, h2, h3⟩ := columnReads_total st.mem st.ds.square x y length 0 []
      (by
        intro q hq
        rw [Nat.add_zero]
        exact shape_cell hs (show x + q < st.ds.width by omega) hy)
    refine ⟨vals, by unfold getColumnSlice; rw [h1]; simp, h2, ?_⟩
    intro i hi
    obtain ⟨t, ht, hg⟩ := h3 i hi
    rw [Nat.add_zero] at ht
    obtain ⟨htl, htc, _, _, _⟩ := hs.2 t (List.getElem?_mem ht)
    have hlt : i < vals.length := by omega
    refine ⟨⟨t.buf, t.off + y, y + 1 - y, t.cap - y⟩, vals[i], ?_, List.getElem?_eq_getElem hlt, ?_⟩
    · unfold getRowSlice
      simp only [ht, Slice.reslice]
      rw [if_pos ⟨by omega, by omega⟩]
    · rw [Mem.view_getElem?]
      dsimp only
      rw [if_pos (by omega), ← List.getElem?_eq_getElem hlt, ← hg]
      unfold Mem.get
      rw [if_pos (by omega)]
      rfl

theorem columns_are_transposed_rows_witness :
    Shape demoWritten ∧
      (∀ c, c < demoWritten.ds.width → ∃ col, getColumn demoWritten c = .ok col ∧
        col.length = demoWritten.ds.width ∧
        ∀ r, r < demoWritten.ds.width → ∃ s chunk, getRow demoWritten r = .ok s ∧
          col[r]? = some chunk ∧ (demoWritten.mem.view s)[c]? = some chunk) ∧
      (∀ x y length, x + length ≤ demoWritten.ds.width → y < demoWritten.ds.width →
        ∃ col, getColumnSlice demoWritten x y length = .ok col ∧ col.length = length ∧
          ∀ i, i < length → ∃ s chunk, getRowSlice demoWritten (x + i) y 1 = .ok s ∧
            col[i]? = some chunk ∧ (demoWritten.mem.view s)[0]? = some chunk) :=
  ⟨by decide, columns_are_transposed_rows demoWritten (by decide)⟩

/-- Inside a row that lies within its backing array the inner loop of `newDataSquare`
does not panic: it ends normally or with the chunk-size error. -/
theorem checkChunks_ok_or_err (m : Mem) (s : Slice) (cs : Nat)
    (hlen : (m.view s).length = s.len) :
    ∀ n j, j + n ≤ s.len →
      checkChunks m s cs n j = .ok () ∨ checkChunks m s cs n j = .err .unequalChunks := by
  intro n
  induction n with
  | zero => intro j _; exact Or.inl rfl
  | succ n ih =>
    intro j hj
    have hlt : j < (m.view s).length := by omega
    simp only [checkChunks, Mem.get_eq_view, List.getElem?_eq_getElem hlt]
    by_cases hc : (m.view s)[j].length ≠ cs
    · rw [if_pos hc]; exact Or.inr rfl
    · rw [if_neg hc]; exact ih (j + 1) (by omega)

/-- On a square number of chunks the outer loop of `newDataSquare` does not panic: it
ends normally or with the chunk-size error. -/
theorem fillSquare_ok_or_err (data : List Chunk) (w cs : Nat) (hn : data.length = w * w) :
    ∀ k i acc, i + k ≤ w →
      (∃ sq, fillSquare [data] ⟨0, 0, data.length, data.length⟩ w cs k i acc = .ok sq) ∨
        fillSquare [data] ⟨0, 0, data.length, data.length⟩ w cs k i acc
          = .err .unequalChunks := by
  intro k
  induction k with
  | zero => intro i acc _; exact Or.inl ⟨acc, rfl⟩
  | succ k ih =>
    intro i acc hi
    have hb : i * w + w ≤ data.length := by
      have : (i + 1) * w ≤ w * w := Nat.mul_le_mul_right w (by omega)
      rw [hn]; rw [Nat.add_mul] at this; omega
    have hvl : (Mem.view [data] (rowWindow w data.length i)).length
        = (rowWindow w data.length i).len := by
      rw [view_rowWindow]
      simp only [List.length_take, List.length_drop, rowWindow]
      generalize i * w = a at *
      omega
    simp only [fillSquare, reslice_data w data.length i hb]
    rcases checkChunks_ok_or_err [data] (rowWindow w data.length i) cs hvl w 0
        (by simp [rowWindow]) with hck | hck
    · rw [hck]
      exact ih (i + 1) _ (by omega)
    · rw [hck]
      exact Or.inr rfl

/-- C12: a list of `n >= 1` chunks, `n` a perfect square, in which some chunk, at any
position, has a length other than that of the first chunk, is rejected by
`newDataSquare` with the chunk-size error; no grid is returned. -/
theorem newDataSquare_rejects_unequal_chunks (data : List Chunk) (w : Nat)
    (hpos : 1 ≤ data.length) (hn : data.length = w * w)
    (hbad : ∃ c ∈ data, c.length ≠ (data.headD []).length) :
    newDataSquare data = .err .unequalChunks := by
  have hcs : ceilSqrt data.length = w := by rw [hn]; exact ceilSqrt_square w
  cases data with
  | nil => simp at hpos
  | cons d0 rest =>
    unfold newDataSquare
    simp only [hcs]
    rw [if_neg (by rw [hn]; simp [pow_two])]
    rcases fillSquare_ok_or_err (d0 :: rest) w d0.length hn w 0 [] (by omega) with
      ⟨sq, hok⟩ | herr
    · exfalso
      obtain ⟨c, hc, hne⟩ := hbad
      obtain ⟨p, hp⟩ := List.mem_iff_getElem?.mp hc
      have hplt : p < w * w := by
        rw [← hn]; exact (List.getElem?_eq_some_iff.mp hp).1
      have hwpos : 0 < w := by
        rcases Nat.eq_zero_or_pos w with h0 | h0
        · subst h0; simp at hplt
        · exact h0
      have hq : p / w < w := Nat.div_lt_of_lt_mul hplt
      have hr : p % w < w := Nat.mod_lt _ hwpos
      have hpq : p / w * w + p % w = p := by
        rw [Nat.mul_comm]; exact Nat.div_add_mod p w
      obtain ⟨rows, _, _, h3⟩ := fillSquare_sound _ _ _ _ _ _ _ _ hok
      obtain ⟨s, _, g2, g3⟩ := h3 (p / w) hq
      rw [Nat.zero_add] at g2
      have hb : p / w * w + w ≤ (d0 :: rest).length := by
        have : (p / w + 1) * w ≤ w * w := Nat.mul_le_mul_right w (by omega)
        rw [hn]; rw [Nat.add_mul] at this; omega
      rw [reslice_data w (d0 :: rest).length (p / w) hb] at g2
      cases g2
      obtain ⟨c1, k1, k2⟩ := checkChunks_sound _ _ _ _ _ g3 (p % w) (Nat.zero_le _) (by omega)
      rw [Mem.get_eq_view, view_rowWindow, List.getElem?_take_of_lt hr, List.getElem?_drop,
        hpq, hp] at k1
      cases k1
      exact hne k2
    · rw [herr]

theorem newDataSquare_rejects_unequal_chunks_witness :
    1 ≤ ([[1], [2], [3], [4, 5]] : List Chunk).length ∧
      ([[1], [2], [3], [4, 5]] : List Chunk).length = 2 * 2 ∧
      (∃ c ∈ ([[1], [2], [3], [4, 5]] : List Chunk),
        c.length ≠ ((([[1], [2], [3], [4, 5]] : List Chunk)).headD []).length) ∧
      newDataSquare [[1], [2], [3], [4, 5]] = .err .unequalChunks :=
  ⟨by decide, by decide, by decide,
    newDataSquare_rejects_unequal_chunks [[1], [2], [3], [4, 5]] 2 (by decide) (by decide)
      (by decide)⟩

/-- A row write of at least one chunk that runs past the right edge of a well-formed
grid with independent rows, for any argument: the call panics, the grid record
is as before and every cell outside the target range is as before; when the
argument shares no storage with the cells of the row from column `y` to the
edge, these cells hold its chunks. -/
theorem setRowSlice_past_edge (st : State) (x y : Nat) (chunks : Slice)
    (hs : Shape st) (hind : Independent st) (hv : chunks.Valid st.mem)
    (hsz : ∀ c ∈ st.mem.view chunks, c.length = st.ds.chunkSize) (hne : 0 < chunks.len)
    (hpast : st.ds.width < y + chunks.len) :
    ∃ st1, setRowSlice st x y chunks = (.panic, st1) ∧ st1.ds = st.ds ∧
      (∀ r c, r < st.ds.width → c < st.ds.width → ¬ (r = x ∧ y ≤ c) →
        cell st1 r c = cell st r c) ∧
      ((∀ i, i < chunks.len → y + i < st.ds.width → apartFromCell st chunks x (y + i)) →
        ∀ c, x < st.ds.width → y ≤ c → c < st.ds.width →
          cell st1 x c = (st.mem.view chunks)[c - y]?) := by
  have hany : ¬ (st.mem.view chunks).any (fun c => decide (c.length ≠ st.ds.chunkSize))
      = true := by
    rw [any_wrong_size_false _ _ hsz]; simp
  by_cases hx : x < st.ds.width
  · obtain ⟨row, hrow, hlen, hcap, _, hbuf, _⟩ := hs.row hx
    obtain ⟨m1, h1, _, _, h4, h5⟩ := rowWrites_run st.ds.square x y chunks row hrow
      chunks.len 0 st.mem (by omega) hv hbuf
    rw [if_neg (by omega)] at h1
    refine ⟨{ st with mem := m1 }, ?_, rfl, ?_, ?_⟩
    · unfold setRowSlice
      rw [if_neg hany, h1]
    · intro r c hr hc hout
      obtain ⟨t, ht, htlen, _, _, _, _⟩ := hs.row hr
      unfold cell
      simp only [ht, Mem.get]
      by_cases hct : c < t.len
      · simp only [if_pos hct]
        rw [h4]
        rintro ⟨hb, hlo, hhi, _⟩
        by_cases hrx : r = x
        · subst hrx
          rw [hrow] at ht
          cases ht
          exact hout ⟨rfl, by omega⟩
        · have hd := disjoint_of_pairwise hind hrx ht hrow
          unfold Slice.Disjoint at hd
          omega
      · simp only [if_neg hct]
    · intro hap c _ hyc hc
      obtain ⟨_, h7⟩ := h5 (by
        intro j _ hj hjr
        have := hap j (by omega) (by omega)
        simp only [apartFromCell, hrow] at this
        exact this)
      unfold cell
      simp only [hrow, Mem.get]
      rw [if_pos (by omega)]
      have := h7 (c - y) (by omega) (by omega) (by omega)
      rw [show y + (c - y) = c by omega] at this
      exact this
  · have hnone : st.ds.square[x]? = none := List.getElem?_eq_none (by rw [hs.1]; omega)
    obtain ⟨n, hn⟩ := Nat.exists_eq_succ_of_ne_zero (Nat.pos_iff_ne_zero.mp hne)
    refine ⟨st, ?_, rfl, fun _ _ _ _ _ => rfl, fun _ _ hxw _ _ => absurd hxw hx⟩
    unfold setRowSlice
    rw [if_neg hany, hn]
    simp only [rowWrites, hnone]

/-- A column write of at least one chunk that runs past the bottom edge of a well-formed
grid with independent rows, for any argument: the call panics, the grid record
is as before and every cell outside the target range is as before; when the
argument shares no storage with the cells of the column from row `x` to the
edge, these cells hold its chunks. -/
theorem setColumnSlice_past_edge (st : State) (x y : Nat) (chunks : Slice)
    (hs : Shape st) (hind : Independent st) (hv : chunks.Valid st.mem)
    (hsz : ∀ c ∈ st.mem.view chunks, c.length = st.ds.chunkSize) (hne : 0 < chunks.len)
    (hpast : st.ds.width < x + chunks.len) :
    ∃ st1, setColumnSlice st x y chunks = (.panic, st1) ∧ st1.ds = st.ds ∧
      (∀ r c, r < st.ds.width → c < st.ds.width → ¬ (c = y ∧ x ≤ r) →
        cell st1 r c = cell st r c) ∧
      ((∀ i, i < chunks.len → x + i < st.ds.width → apartFromCell st chunks (x + i) y) →
        ∀ r, y < st.ds.width → x ≤ r → r < st.ds.width →
          cell st1 r y = (st.mem.view chunks)[r - x]?) := by
  have hany : ¬ (st.mem.view chunks).any (fun c => decide (c.length ≠ st.ds.chunkSize))
      = true := by
    rw [any_wrong_size_false _ _ hsz]; simp
  have hw : ∀ t ∈ st.ds.square, t.len = st.ds.width := fun t ht => (hs.2 t ht).1
  obtain ⟨m1, h1, _, _, h4, h5⟩ := columnWrites_run st.ds.square x y st.ds.width chunks hw
    chunks.len 0 st.mem (by omega) hv (fun t ht => (hs.2 t ht).2.2.2.1)
  rw [if_neg (by rw [hs.1]; omega)] at h1
  refine ⟨{ st with mem := m1 }, ?_, rfl, ?_, ?_⟩
  · unfold setColumnSlice
    rw [if_neg hany, h1]
  · intro r c hr hc hout
    obtain ⟨t, ht, htlen, _, _, _, _⟩ := hs.row hr
    unfold cell
    simp only [ht, Mem.get]
    by_cases hct : c < t.len
    · simp only [if_pos hct]
      rw [h4]
      intro j t1 _ hj hjt _ ⟨hb, hp⟩
      have ht1len : t1.len = st.ds.width := hw t1 (List.getElem?_mem hjt)
      by_cases hrx : r = x + j
      · subst hrx
        rw [ht] at hjt
        cases hjt
        exact hout ⟨by omega, by omega⟩
      · have hd := disjoint_of_pairwise hind hrx ht hjt
        unfold Slice.Disjoint at hd
        omega
    · simp only [if_neg hct]
  · intro hap r hy hxr hr
    obtain ⟨t, ht, htlen, _, _, _, _⟩ := hs.row hr
    obtain ⟨_, h7⟩ := h5 hind (by
      intro j t1 _ hj hjt _
      have hjw : x + j < st.ds.width := by
        by_contra hcon
        have hnone : st.ds.square[x + j]? = none :=
          List.getElem?_eq_none (by rw [hs.1]; omega)
        rw [hnone] at hjt
        cases hjt
      have := hap j (by omega) hjw
      simp only [apartFromCell, hjt] at this
      exact this)
    unfold cell
    simp only [ht, Mem.get]
    rw [if_pos (by omega)]
    exact h7 (r - x) t (by omega) (by omega) (by rw [show x + (r - x) = r by omega]; exact ht) hy

/-- C15 as stated does not hold: on the 2 x 2 example grid, with a slice of the caller
holding the chunks 8 and 9, `setRowSlice(0, 1, ...)` panics after it has put
chunk 8 into cell `(0, 1)`, `setColumnSlice(1, 0, ...)` panics after it has put
chunk 8 into cell `(1, 0)`, and a write of no chunk at all past the edge
succeeds. -/
theorem out_of_range_write_is_not_atomic :
    Shape (demoState.withSlice [[8], [9]]) ∧
      (demoState.withSlice [[8], [9]]).mem.view (demoState.newSlice [[8], [9]])
        = [[8], [9]] ∧
      (∀ c ∈ (demoState.withSlice [[8], [9]]).mem.view (demoState.newSlice [[8], [9]]),
        c.length = (demoState.withSlice [[8], [9]]).ds.chunkSize) ∧
      (demoState.withSlice [[8], [9]]).ds.width < 1 + (demoState.newSlice [[8], [9]]).len ∧
      (setRowSlice (demoState.withSlice [[8], [9]]) 0 1 (demoState.newSlice [[8], [9]])).1
        = .panic ∧
      cell (demoState.withSlice [[8], [9]]) 0 1 = some [2] ∧
      cell (setRowSlice (demoState.withSlice [[8], [9]]) 0 1
        (demoState.newSlice [[8], [9]])).2 0 1 = some [8] ∧
      (setColumnSlice (demoState.withSlice [[8], [9]]) 1 0 (demoState.newSlice [[8], [9]])).1
        = .panic ∧
      cell (demoState.withSlice [[8], [9]]) 1 0 = some [3] ∧
      cell (setColumnSlice (demoState.withSlice [[8], [9]]) 1 0
        (demoState.newSlice [[8], [9]])).2 1 0 = some [8] ∧
      demoState.ds.width < 3 + (⟨0, 0, 0, 0⟩ : Slice).len ∧
      (setRowSlice demoState 0 3 ⟨0, 0, 0, 0⟩).1 = .ok () := by
  decide

/-- C15, amended: on a well-formed grid whose rows have storage of their own, a
`setRowSlice(x, y, chunks)` or `setColumnSlice(x, y, chunks)` call with at least
one chunk, all of length `chunkSize`, whose target range runs past the edge of
the grid ends in a run-time panic; the grid record (width, chunk size, row
slices, both root caches) is as before and every cell outside the target range
is as before; when `chunks` shares no storage with the cells of the target range
inside the grid, these cells hold the chunks of `chunks`. -/
theorem out_of_range_writes_panic_midway (st : State) (x y : Nat) (chunks : Slice)
    (hs : Shape st) (hind : Independent st) (hv : chunks.Valid st.mem)
    (hsz : ∀ c ∈ st.mem.view chunks, c.length = st.ds.chunkSize) (hne : 0 < chunks.len) :
    (st.ds.width < y + chunks.len →
      ∃ st1, setRowSlice st x y chunks = (.panic, st1) ∧ st1.ds = st.ds ∧
        (∀ r c, r < st.ds.width → c < st.ds.width → ¬ (r = x ∧ y ≤ c) →
          cell st1 r c = cell st r c) ∧
        ((∀ i, i < chunks.len → y + i < st.ds.width → apartFromCell st chunks x (y + i)) →
          ∀ c, x < st.ds.width → y ≤ c → c < st.ds.width →
            cell st1 x c = (st.mem.view chunks)[c - y]?)) ∧
      (st.ds.width < x + chunks.len →
        ∃ st1, setColumnSlice st x y chunks = (.panic, st1) ∧ st1.ds = st.ds ∧
          (∀ r c, r < st.ds.width → c < st.ds.width → ¬ (c = y ∧ x ≤ r) →
            cell st1 r c = cell st r c) ∧
          ((∀ i, i < chunks.len → x + i < st.ds.width → apartFromCell st chunks (x + i) y) →
            ∀ r, y < st.ds.width → x ≤ r → r < st.ds.width →
              cell st1 r y = (st.mem.view chunks)[r - x]?)) :=
  ⟨fun h => setRowSlice_past_edge st x y chunks hs hind hv hsz hne h,
    fun h => setColumnSlice_past_edge st x y chunks hs hind hv hsz hne h⟩

theorem out_of_range_writes_panic_midway_witness :
    Shape (demoState.withSlice [[8], [9]]) ∧ Independent (demoState.withSlice [[8], [9]]) ∧
      (demoState.newSlice [[8], [9]]).Valid (demoState.withSlice [[8], [9]]).mem ∧
      (∀ c ∈ (demoState.withSlice [[8], [9]]).mem.view (demoState.newSlice [[8], [9]]),
        c.length = (demoState.withSlice [[8], [9]]).ds.chunkSize) ∧
      0 < (demoState.newSlice [[8], [9]]).len ∧
      (demoState.withSlice [[8], [9]]).ds.width < 1 + (demoState.newSlice [[8], [9]]).len ∧
      (∀ i, i < (demoState.newSlice [[8], [9]]).len →
        1 + i < (demoState.withSlice [[8], [9]]).ds.width →
        apartFromCell (demoState.withSlice [[8], [9]]) (demoState.newSlice [[8], [9]])
          1 (1 + i)) ∧
      (∃ st1, setRowSlice (demoState.withSlice [[8], [9]]) 1 1 (demoState.newSlice [[8], [9]])
          = (.panic, st1) ∧ st1.ds = (demoState.withSlice [[8], [9]]).ds ∧
        (∀ r c, r < (demoState.withSlice [[8], [9]]).ds.width →
          c < (demoState.withSlice [[8], [9]]).ds.width → ¬ (r = 1 ∧ 1 ≤ c) →
          cell st1 r c = cell (demoState.withSlice [[8], [9]]) r c) ∧
        ((∀ i, i < (demoState.newSlice [[8], [9]]).len →
            1 + i < (demoState.withSlice [[8], [9]]).ds.width →
            apartFromCell (demoState.withSlice [[8], [9]]) (demoState.newSlice [[8], [9]])
              1 (1 + i)) →
          ∀ c, 1 < (demoState.withSlice [[8], [9]]).ds.width → 1 ≤ c →
            c < (demoState.withSlice [[8], [9]]).ds.width →
            cell st1 1 c
              = ((demoState.withSlice [[8], [9]]).mem.view
                  (demoState.newSlice [[8], [9]]))[c - 1]?)) ∧
      (∃ st1, setColumnSlice (demoState.withSlice [[8], [9]]) 1 1
          (demoState.newSlice [[8], [9]]) = (.panic, st1) ∧
        st1.ds = (demoState.withSlice [[8], [9]]).ds ∧
        (∀ r c, r < (demoState.withSlice [[8], [9]]).ds.width →
          c < (demoState.withSlice [[8], [9]]).ds.width → ¬ (c = 1 ∧ 1 ≤ r) →
          cell st1 r c = cell (demoState.withSlice [[8], [9]]) r c) ∧
        ((∀ i, i < (demoState.newSlice [[8], [9]]).len →
            1 + i < (demoState.withSlice [[8], [9]]).ds.width →
            apartFromCell (demoState.withSlice [[8], [9]]) (demoState.newSlice [[8], [9]])
              (1 + i) 1) →
          ∀ r, 1 < (demoState.withSlice [[8], [9]]).ds.width → 1 ≤ r →
            r < (demoState.withSlice [[8], [9]]).ds.width →
            cell st1 r 1
              = ((demoState.withSlice [[8], [9]]).mem.view
                  (demoState.newSlice [[8], [9]]))[r - 1]?)) :=
  ⟨by decide, by decide, by decide, by decide, by decide, by decide, by decide,
    (out_of_range_writes_panic_midway (demoState.withSlice [[8], [9]]) 1 1
      (demoState.newSlice [[8], [9]]) (by decide) (by decide) (by decide) (by decide)
      (by decide)).1 (by decide),
    (out_of_range_writes_panic_midway (demoState.withSlice [[8], [9]]) 1 1
      (demoState.newSlice [[8], [9]]) (by decide) (by decide) (by decide) (by decide)
      (by decide)).2 (by decide)⟩

/-- The last part of the amended C15 needs its hypothesis: on the 3 x 3 grid of the chunks
1, ..., 9 the slice `getRow(0)` is row 0 itself, `setRowSlice(0, 1, ...)` with it
panics past the edge, and row 0 is left holding `[1, 1, 1]`, each store having
read the chunk the store before it had written. -/
theorem aliased_row_write_past_edge :
    getRow demoNine 0 = .ok ⟨0, 0, 3, 9⟩ ∧
      demoNine.mem.view ⟨0, 0, 3, 9⟩ = [[1], [2], [3]] ∧
      ¬ apartFromCell demoNine ⟨0, 0, 3, 9⟩ 0 (1 + 0) ∧
      (setRowSlice demoNine 0 1 ⟨0, 0, 3, 9⟩).1 = .panic ∧
      (setRowSlice demoNine 0 1 ⟨0, 0, 3, 9⟩).2.mem.view ⟨0, 0, 3, 9⟩ = [[1], [1], [1]] := by
  decide

end Rsmt2d

